import Mathlib

/-!
# Stratum pool client and Ethash epoch helper: embedding and verification

Shallow embedding of
* `libproto/stratum/EthStratumClient.cpp` (`diffToTarget`, `connect_handler`,
  `processExtranonce`, `processReponse`, `submitSolution`),
* `libethcore/EthashAux.cpp` (`seedHash`, `number`, `light`, `eval`),
* `libproto/PoolURI.cpp` (`s_schemes`, `KnownScheme`, `ProtoVersion`, `ProtoSecureLevel`,
  `KnownSchemes`).

Library code these files call (libdevcore hashes and hex, jsoncpp, libethash, cpp-netlib) is not
embedded from source: it is modelled from the spec or taken as a parameter, as said at
each definition.

Conventions: machine integers are `Nat` with explicit `% 2^w`; a C++ exception or an
operation the language leaves undefined is a failure value (`Except.error`, `none`);
`double` is modelled by `Dbl` below with correctly rounded division; byte buffers are
lists of naturals below 256; the host is little-endian, as the source assumes when it
reinterprets `uint32_t*` and `uint64_t*` as bytes.
-/

/-! ## binary64 arithmetic used by `diffToTarget` -/

/-- A binary64 value: a finite `(-1)^neg * mant * 2^exp`, an infinity, or NaN. -/
inductive Dbl where
  | fin (neg : Bool) (mant : Nat) (exp : Int)
  | inf (neg : Bool)
  | nan
deriving DecidableEq, Repr

namespace Dbl

/-- The finite values a binary64 can hold: 53 mantissa bits, last-bit exponent in range. -/
def IsBinary64 : Dbl → Prop
  | fin _ m e => m < 2 ^ 53 ∧ -1074 ≤ e ∧ e ≤ 971
  | _ => True

/-- Positive and finite. -/
def IsPosFinite : Dbl → Prop
  | fin neg m _ => neg = false ∧ 0 < m
  | _ => False

/-- The double nearest to a natural below 2^53 (exact). -/
def ofNat (n : Nat) : Dbl := fin false n 0

/-- Floor of the binary logarithm, by halving; the first argument bounds the depth. -/
def log2Aux : Nat → Nat → Nat
  | 0, _ => 0
  | fuel + 1, n => if n < 2 then 0 else log2Aux fuel (n / 2) + 1

/-- Floor of the binary logarithm of `n` (0 for `n = 0`). -/
def ilog2 (n : Nat) : Nat := log2Aux n n

/-- `m * 2^s` for an integer shift, as numerator and denominator. -/
def shiftNum (m : Nat) (s : Int) : Nat := m * 2 ^ s.toNat

/-- The denominator that goes with `shiftNum`: `d * 2^(-s)`. -/
def shiftDen (d : Nat) (s : Int) : Nat := d * 2 ^ (-s).toNat

/-- Nearest integer to `num / den`, ties to even. -/
def roundHalfEven (num den : Nat) : Nat :=
  let q := num / den
  let r := num % den
  if 2 * r < den then q
  else if den < 2 * r then q + 1
  else if q % 2 = 0 then q else q + 1

/-- Signed integer `± m * 2^(e - emin)`, for comparing two finite values on a common scale. -/
def scaled (neg : Bool) (m : Nat) (e emin : Int) : Int :=
  let v : Int := (m * 2 ^ (e - emin).toNat : Nat)
  if neg then -v else v

/-- IEEE `a < b` (false when either is NaN). -/
def lt : Dbl → Dbl → Bool
  | nan, _ => false
  | _, nan => false
  | inf n1, inf n2 => n1 && !n2
  | inf n1, fin _ _ _ => n1
  | fin _ _ _, inf n2 => !n2
  | fin n1 m1 e1, fin n2 m2 e2 =>
    decide (scaled n1 m1 e1 (min e1 e2) < scaled n2 m2 e2 (min e1 e2))

/-- IEEE `a <= b` (false when either is NaN). -/
def le : Dbl → Dbl → Bool
  | nan, _ => false
  | _, nan => false
  | inf n1, inf n2 => n1 || !n2
  | inf n1, fin _ _ _ => n1
  | fin _ _ _, inf n2 => !n2
  | fin n1 m1 e1, fin n2 m2 e2 =>
    decide (scaled n1 m1 e1 (min e1 e2) ≤ scaled n2 m2 e2 (min e1 e2))

/-- Correctly rounded quotient of two positive magnitudes `ma * 2^ea / (mb * 2^eb)`
(round to nearest, ties to even, gradual underflow, overflow to infinity). -/
def divMag (neg : Bool) (ma : Nat) (ea : Int) (mb : Nat) (eb : Int) : Dbl :=
  -- shift that brings the integer quotient into [2^52, 2^54)
  let s0 : Int := 53 + (ilog2 mb : Int) - (ilog2 ma : Int)
  -- and into [2^52, 2^53)
  let s1 : Int := if 2 ^ 53 ≤ shiftNum ma s0 / shiftDen mb s0 then s0 - 1 else s0
  -- exponent of the last mantissa bit, not below the subnormal one
  let e : Int := max (ea - eb - s1) (-1074)
  let s : Int := ea - eb - e
  let n := roundHalfEven (shiftNum ma s) (shiftDen mb s)
  if 971 < e ∨ (e = 971 ∧ 2 ^ 53 ≤ n) then inf neg else fin neg n e

/-- IEEE division `a / b`. -/
def div : Dbl → Dbl → Dbl
  | nan, _ => nan
  | _, nan => nan
  | inf _, inf _ => nan
  | inf n1, fin n2 _ _ => inf (xor n1 n2)
  | fin n1 _ _, inf n2 => fin (xor n1 n2) 0 0
  | fin n1 ma ea, fin n2 mb eb =>
    if mb = 0 then (if ma = 0 then nan else inf (xor n1 n2))
    else if ma = 0 then fin (xor n1 n2) 0 0
    else divMag (xor n1 n2) ma ea mb eb

/-- The conversion `(uint64_t)x`: truncation toward zero; the language leaves it
undefined when the truncated value does not fit (`none`). -/
def toUInt64 : Dbl → Option Nat
  | fin neg m e =>
    let t := if 0 ≤ e then m * 2 ^ e.toNat else m / 2 ^ (-e).toNat
    if t = 0 then some 0
    else if neg then none
    else if t < 2 ^ 64 then some t else none
  | _ => none

end Dbl

/-! ## `diffToTarget` -/

/-- The loop `for (k = 6; k > 0 && diff > 1.0; k--) diff /= 4294967296.0;`
started at `k`; returns the final `k` and `diff`. -/
def diffToTarget.scale : Nat → Dbl → Nat × Dbl
  | 0, diff => (0, diff)
  | k + 1, diff =>
    if Dbl.lt (Dbl.ofNat 1) diff then diffToTarget.scale k (Dbl.div diff (Dbl.ofNat 4294967296))
    else (k + 1, diff)

/-- The four bytes of a `uint32_t` in memory (little-endian host). -/
def bytesOfU32 (w : Nat) : List Nat :=
  [w % 256, w / 256 % 256, w / 65536 % 256, w / 16777216 % 256]

/-- The bytes of a `uint32_t` array in memory. -/
def bytesOfWords : List Nat → List Nat
  | [] => []
  | w :: ws => bytesOfU32 w ++ bytesOfWords ws

/-- The array `target2` after the `if (m == 0 && k == 6) ... else ...` statement. -/
def diffToTarget.words (m k : Nat) : List Nat :=
  if m = 0 ∧ k = 6 then List.replicate 8 0xffffffff
  else ((List.replicate 8 0).set k (m % 2 ^ 32)).set (k + 1) (m / 2 ^ 32 % 2 ^ 32)

/-- `diffToTarget(target, diff)`: the 32 bytes written to `target`, or `none` when the
conversion to `uint64_t` is undefined. -/
def diffToTarget (diff : Dbl) : Option (List Nat) :=
  let kd := diffToTarget.scale 6 diff
  match Dbl.toUInt64 (Dbl.div (Dbl.ofNat 4294901760) kd.2) with
  | none => none
  | some m => some (bytesOfWords (diffToTarget.words m kd.1)).reverse

/-- A byte string read as a big-endian natural number. -/
def beValue (bs : List Nat) : Nat := bs.foldl (fun acc b => acc * 256 + b) 0

/-! ## Strings, hex and hashes -/

/-- A `std::string`, as its characters. -/
abbrev Str := List Char

/-- A byte buffer (`h256`, `h64`): its bytes in memory order. -/
abbrev Bytes := List Nat

/-- What the code can raise. -/
inductive Err where
  /-- `Json::LogicError`: a JSON value is not convertible to the requested type. -/
  | jsonLogic
  /-- `std::out_of_range`, from `std::string::substr` with `pos > size()`. -/
  | outOfRange
  /-- The hash constructor rejected its string. -/
  | badHash
  /-- `diffToTarget` converted a double that no `uint64_t` holds. -/
  | undefinedConversion
deriving DecidableEq, Repr

deriving instance DecidableEq for Except

/-- `s.substr(pos, count)`: raises `std::out_of_range` when `pos > s.size()`. -/
def substr (s : Str) (pos count : Nat) : Except Err Str :=
  if s.length < pos then .error .outOfRange else .ok ((s.drop pos).take count)

/-- `s.substr(pos)`: the rest of the string from `pos`. -/
def substrFrom (s : Str) (pos : Nat) : Except Err Str :=
  if s.length < pos then .error .outOfRange else .ok (s.drop pos)

/-- Value of a hex digit, either case. -/
def hexVal (c : Char) : Option Nat :=
  if 48 ≤ c.toNat ∧ c.toNat ≤ 57 then some (c.toNat - 48)
  else if 97 ≤ c.toNat ∧ c.toNat ≤ 102 then some (c.toNat - 87)
  else if 65 ≤ c.toNat ∧ c.toNat ≤ 70 then some (c.toNat - 55)
  else none

/-- The bytes spelled by a string of hex digit pairs. -/
def bytesOfHex : Str → Option Bytes
  | [] => some []
  | [_] => none
  | h :: l :: rest =>
    match hexVal h, hexVal l, bytesOfHex rest with
    | some a, some b, some bs => some ((a * 16 + b) :: bs)
    | _, _, _ => none

/-- The number a string of hex digits denotes, continuing from `acc`; `none` when a
character is no hex digit. -/
def hexValueAux : Nat → Str → Option Nat
  | acc, [] => some acc
  | acc, c :: cs =>
    match hexVal c with
    | some v => hexValueAux (acc * 16 + v) cs
    | none => none

/-- The number a string of hex digits denotes. -/
def hexValue (s : Str) : Option Nat := hexValueAux 0 s

/-- Lower-case hex digit of a value below 16. -/
def hexDigit (n : Nat) : Char := Char.ofNat (if n < 10 then 48 + n else 87 + n)

/-- A lower-case hex digit, as `toHex` writes them. -/
def IsLowerHex (c : Char) : Prop := ∃ v, v < 16 ∧ c = hexDigit v

/-- Modelled from the spec: `FixedHash::hex()` of libdevcore: the hex string a hash is
written as on the wire, two lower-case digits per byte. -/
def hexOfBytes : Bytes → Str
  | [] => []
  | b :: bs => hexDigit (b / 16 % 16) :: hexDigit (b % 16) :: hexOfBytes bs

/-- The eight bytes of a `uint64_t`, most significant first. -/
def bytesOfU64BE (n : Nat) : Bytes :=
  [n / 2 ^ 56 % 256, n / 2 ^ 48 % 256, n / 2 ^ 40 % 256, n / 2 ^ 32 % 256,
   n / 2 ^ 24 % 256, n / 2 ^ 16 % 256, n / 2 ^ 8 % 256, n % 256]

/-- Modelled from the spec: `toHex(uint64_t)` of libdevcore: the unprefixed 16-digit hex
encoding of a nonce. -/
def toHex (nonce : Nat) : Str := hexOfBytes (bytesOfU64BE nonce)

/-- `*((uint64_t*)p)` on the little-endian host: the first eight bytes, least significant
first. -/
def loadU64LE (bs : Bytes) : Nat := beValue ((bs.take 8).reverse)

/-- Modelled from the spec: `ethash_swap_u64` of libethash/endian.h, the spec's
`byteswap_u64`: reverses the eight bytes of a 64-bit value. -/
def ethash_swap_u64 (x : Nat) : Nat := beValue (bytesOfU64BE x).reverse

/-- Modelled from the spec: the `FixedHash<N>` string constructor of libdevcore. A string
of exactly `2N` hex digits, with or without the `0x` prefix, is the `N`
bytes it spells; the spec gives no hash for any other string (`none`). -/
def specHash (N : Nat) (s : Str) : Option Bytes :=
  let digits := match s with
    | '0' :: 'x' :: rest => rest
    | _ => s
  match bytesOfHex digits with
  | some bs => if bs.length = N then some bs else none
  | none => none

/-- The library routines the client calls, as parameters. `none` from a hash constructor
stands for the exception it raises. -/
structure Lib where
  /-- `h256(std::string)`. -/
  h256 : Str → Option Bytes
  /-- `h64(std::string)`. -/
  h64 : Str → Option Bytes
  /-- How jsoncpp prints a double (`Value::asString` of a real). -/
  fmtDouble : Dbl → Str
  /-- `ethminer_get_buildinfo()->project_version`. -/
  project_version : Str

/-- The library as the spec describes it: hashes are read from hex as `specHash` does; the
text of a double and the build version, which no frame of the spec shows, are fixed
arbitrarily. -/
def specLib : Lib where
  h256 := specHash 32
  h64 := specHash 8
  fmtDouble := fun _ => []
  project_version := "0.0.0".toList

/-! ## JSON values, with jsoncpp's accessors -/

/-- A parsed JSON value. -/
inductive Json where
  | null
  | bool (b : Bool)
  | int (n : Int)
  | real (d : Dbl)
  | str (s : Str)
  | arr (xs : List Json)
  | obj (kvs : List (Str × Json))

namespace Json

/-- `Value::isArray()`. -/
def isArray : Json → Bool
  | arr _ => true
  | _ => false

/-- `Value::get(key, default)`: the member, or the default when absent; only objects
and null have members. -/
def get (v : Json) (key : Str) (dflt : Json) : Except Err Json :=
  match v with
  | obj kvs => .ok ((kvs.lookup key).getD dflt)
  | null => .ok dflt
  | _ => .error .jsonLogic

/-- `Value::get(ArrayIndex, default)`: the element, or the default when out of range. -/
def getIdx (v : Json) (i : Nat) (dflt : Json) : Except Err Json :=
  match v with
  | arr xs => .ok (xs.getD i dflt)
  | null => .ok dflt
  | _ => .error .jsonLogic

/-- Decimal text of an integer. -/
def decimal (n : Int) : Str :=
  match n with
  | Int.ofNat k => Nat.toDigits 10 k
  | Int.negSucc k => '-' :: Nat.toDigits 10 (k + 1)

/-- `Value::asString()`. -/
def asString (L : Lib) : Json → Except Err Str
  | null => .ok []
  | str s => .ok s
  | bool b => .ok (if b then "true".toList else "false".toList)
  | int n => .ok (decimal n)
  | real d => .ok (L.fmtDouble d)
  | _ => .error .jsonLogic

/-- Truncation of a finite double to an integer. -/
def truncDbl : Dbl → Option Int
  | Dbl.fin neg m e =>
    let t : Nat := if 0 ≤ e then m * 2 ^ e.toNat else m / 2 ^ (-e).toNat
    some (if neg then -(t : Int) else (t : Int))
  | _ => none

/-- `Value::asInt()`: raises unless the value is null, a boolean or a number in `int`
range. -/
def asInt : Json → Except Err Int
  | null => .ok 0
  | bool b => .ok (if b then 1 else 0)
  | int n => if -2147483648 ≤ n ∧ n ≤ 2147483647 then .ok n else .error .jsonLogic
  | real d =>
    match truncDbl d with
    | some t => if -2147483648 ≤ t ∧ t ≤ 2147483647 then .ok t else .error .jsonLogic
    | none => .error .jsonLogic
  | _ => .error .jsonLogic

/-- `Value::asBool()`. -/
def asBool : Json → Except Err Bool
  | null => .ok false
  | bool b => .ok b
  | int n => .ok (decide (n ≠ 0))
  | real d => .ok (Dbl.lt d (Dbl.ofNat 0) || Dbl.lt (Dbl.ofNat 0) d || !(Dbl.le d d))
  | _ => .error .jsonLogic

/-- `Value::asDouble()`. -/
def asDouble : Json → Except Err Dbl
  | null => .ok (Dbl.ofNat 0)
  | bool b => .ok (Dbl.ofNat (if b then 1 else 0))
  | int n => .ok (Dbl.div (Dbl.fin (decide (n < 0)) n.natAbs 0) (Dbl.ofNat 1))
  | real d => .ok d
  | _ => .error .jsonLogic

end Json

/-! ## The stratum client (`EthStratumClient`) -/

/-- `EthStratumClient::StratumProtocol`, the value of `m_connection.Version()`. -/
inductive StratumProtocol where
  | STRATUM
  | ETHPROXY
  | ETHEREUMSTRATUM
deriving DecidableEq, Repr

/-- `WorkPackage`: the fields the client fills in. -/
structure WorkPackage where
  header : Bytes
  seed : Bytes
  boundary : Bytes
  job : Bytes
  startNonce : Nat
  exSizeBits : Nat
  job_len : Nat
deriving DecidableEq, Repr

/-- `Solution`, as passed to `submitSolution`. -/
structure Solution where
  nonce : Nat
  mixHash : Bytes
  work : WorkPackage
  stale : Bool
deriving DecidableEq, Repr

/-- What a call does to the outside: frames written, callbacks invoked, timers touched. -/
inductive Effect where
  /-- `os << json; async_write_with_response();`: one write of the text. -/
  | send (text : Str)
  /-- `m_onWorkReceived(m_current)`. -/
  | workReceived (w : WorkPackage)
  /-- `m_onSolutionAccepted(m_stale)`. -/
  | solutionAccepted (stale : Bool)
  /-- `m_onSolutionRejected(m_stale)`. -/
  | solutionRejected (stale : Bool)
  /-- `m_onDisconnected()`. -/
  | disconnected
  /-- `reset_work_timeout()`. -/
  | resetWorkTimeout
  /-- `m_worktimer.cancel()`. -/
  | cancelWorkTimer
  /-- `m_responsetimer.cancel()`. -/
  | cancelResponseTimer
  /-- `m_responsetimer.expires_from_now(2s)` and `async_wait`. -/
  | armResponseTimer
  /-- `m_onConnected(m_socket->remote_endpoint().address())`. -/
  | connected
deriving DecidableEq, Repr

/-- The members of `EthStratumClient` the protocol code reads and writes. The `has...`
flags say whether the corresponding callback is set. -/
structure EthStratumClient where
  /-- `m_connection.Version()`. -/
  version : StratumProtocol
  user : Str
  pass : Str
  m_email : Str
  m_worker : Str
  m_authorized : Bool
  m_connected : Bool
  m_linkdown : Bool
  m_response_pending : Bool
  m_stale : Bool
  m_nextWorkDifficulty : Dbl
  m_extraNonce : Bytes
  m_extraNonceHexSize : Nat
  m_current : WorkPackage
  hasOnWorkReceived : Bool
  hasOnSolutionAccepted : Bool
  hasOnSolutionRejected : Bool
  hasOnDisconnected : Bool
deriving DecidableEq

namespace EthStratumClient

/-- `if (cb) cb(...)`. -/
def callIf (registered : Bool) (e : Effect) : List Effect :=
  if registered then [e] else []

/-- `disconnect()`, without the socket teardown. -/
def disconnect (c : EthStratumClient) : EthStratumClient × List Effect :=
  ({ c with m_response_pending := false, m_linkdown := true, m_authorized := false,
            m_connected := false },
   [Effect.cancelWorkTimer, Effect.cancelResponseTimer] ++
     callIf c.hasOnDisconnected Effect.disconnected)

/-- The loop `for (int i = enonce.length(); i < 16; ++i) enonce += "0";`. -/
def padExtranonce (enonce : Str) : Str :=
  enonce ++ List.replicate (16 - enonce.length) '0'

/-- `processExtranonce(enonce)`. -/
def processExtranonce (L : Lib) (c : EthStratumClient) (enonce : Str) :
    Except Err EthStratumClient :=
  match L.h64 (padExtranonce enonce) with
  | some h => .ok { c with m_extraNonceHexSize := enonce.length, m_extraNonce := h }
  | none => .error .badHash

/-- The 0.0001 of `if (m_nextWorkDifficulty <= 0.0001)`: the double nearest to 1/10000. -/
def minDifficulty : Dbl := Dbl.fin false 7378697629483821 (-66)

/-- The `mining.notify` branch of `processReponse` for ETHEREUMSTRATUM, after the stale
flag is set: the work that replaces `m_current` and is handed to `m_onWorkReceived`, or
`none` when the frame is skipped. -/
def notifyEthereumStratum (L : Lib) (c : EthStratumClient) (params : Json) (job : Str) :
    Except Err (Option WorkPackage) := do
  let sSeedHash ← (← params.getIdx 1 (.str [])).asString L
  let sHeaderHash ← (← params.getIdx 2 (.str [])).asString L
  if sHeaderHash ≠ [] ∧ sSeedHash ≠ [] then
    let header ← (L.h256 sHeaderHash).elim (.error .badHash) .ok
    let seed ← (L.h256 sSeedHash).elim (.error .badHash) .ok
    let boundary ← (diffToTarget c.m_nextWorkDifficulty).elim (.error .undefinedConversion) .ok
    -- job.resize(64, '0')
    let jobPadded := (job ++ List.replicate (64 - job.length) '0').take 64
    let jobHash ← (L.h256 jobPadded).elim (.error .badHash) .ok
    pure (some
      { c.m_current with
        header := header, seed := seed, boundary := boundary,
        startNonce := ethash_swap_u64 (loadU64LE c.m_extraNonce),
        exSizeBits := c.m_extraNonceHexSize * 4,
        job_len := job.length, job := jobHash })
  else
    pure none

/-- The "coinmine.pl fix" of `processReponse`:
`if (l < 66) sShareTarget = "0x" + string(66 - l, '0') + sShareTarget.substr(2);`. -/
def fixShareTarget (sShareTarget : Str) : Except Err Str :=
  let l := sShareTarget.length
  if l < 66 then do
    let tail ← substrFrom sShareTarget 2
    pure ("0x".toList ++ List.replicate (66 - l) '0' ++ tail)
  else pure sShareTarget

/-- The `mining.notify` branch of `processReponse` for STRATUM and ETHPROXY, after the
stale flag is set; `index` is where the header hash sits in the work array. The work
that replaces `m_current` and is handed to `m_onWorkReceived`, or `none` when the frame
is skipped. -/
def notifyStratum (L : Lib) (c : EthStratumClient) (params : Json) (job : Str) (index : Nat) :
    Except Err (Option WorkPackage) := do
  let sHeaderHash ← (← params.getIdx index (.str [])).asString L
  let sSeedHash ← (← params.getIdx (index + 1) (.str [])).asString L
  let sShareTarget0 ← (← params.getIdx (index + 2) (.str [])).asString L
  let sShareTarget ← fixShareTarget sShareTarget0
  if sHeaderHash ≠ [] ∧ sSeedHash ≠ [] ∧ sShareTarget ≠ [] then
    let headerHash ← (L.h256 sHeaderHash).elim (.error .badHash) .ok
    if headerHash ≠ c.m_current.header then
      let seed ← (L.h256 sSeedHash).elim (.error .badHash) .ok
      let boundary ← (L.h256 sShareTarget).elim (.error .badHash) .ok
      let jobHash ← (L.h256 job).elim (.error .badHash) .ok
      pure (some { c.m_current with header := headerHash, seed := seed, boundary := boundary,
                                    job := jobHash })
    else pure none
  else pure none

/-- The first statements of `processReponse`: the `error` member is logged when it is an
array, and the `id` member is read as an `int`. -/
def responseId (L : Lib) (responseObject : Json) : Except Err Int := do
  let error ← responseObject.get "error".toList .null
  if error.isArray then
    -- the logged text
    let _ ← (← error.getIdx 1 (.str "Unknown error".toList)).asString L
  (← responseObject.get "id".toList .null).asInt

/-- The `method` the default branch of `processReponse` dispatches on. -/
def responseMethod (L : Lib) (c : EthStratumClient) (responseObject : Json) : Except Err Str :=
  if c.version ≠ .ETHPROXY then do
    (← responseObject.get "method".toList (.str [])).asString L
  else pure "mining.notify".toList

/-- `workattr` of the default branch of `processReponse`. -/
def workattr (c : EthStratumClient) : Str :=
  if c.version ≠ .ETHPROXY then "params".toList else "result".toList

/-- `case 1:` of `processReponse`, the response to the subscribe or login request. -/
def onSubscribed (L : Lib) (c : EthStratumClient) (responseObject : Json) :
    Except Err (EthStratumClient × List Effect) := do
  let (c1, json1) ←
    if c.version = .ETHEREUMSTRATUM then do
      let c0 := { c with m_nextWorkDifficulty := Dbl.ofNat 1 }
      let params ← responseObject.get "result".toList .null
      let c0 ←
        if params.isArray then do
          let enonce ← (← params.getIdx 1 (.str [])).asString L
          processExtranonce L c0 enonce
        else pure c0
      pure (c0,
        "\x7b\"id\": 2, \"method\": \"mining.extranonce.subscribe\", \"params\": []\x7d\n".toList)
    else pure (c, [])
  if c.version ≠ .ETHPROXY then
    pure (c1, [Effect.send
      (json1 ++ "\x7b\"id\": 3, \"method\": \"mining.authorize\", \"params\": [\"".toList
        ++ c.user ++ "\",\"".toList ++ c.pass ++ "\"]\x7d\n".toList)])
  else
    pure ({ c1 with m_authorized := true }, [Effect.send
      (json1 ++ "\x7b\"id\": 5, \"method\": \"eth_getWork\", \"params\": []\x7d\n".toList)])

/-- `case 3:` of `processReponse`, the response to `mining.authorize`. -/
def onAuthorized (c : EthStratumClient) (responseObject : Json) :
    Except Err (EthStratumClient × List Effect) := do
  let authorized ← (← responseObject.get "result".toList .null).asBool
  let c1 := { c with m_authorized := authorized }
  if ¬ authorized then pure (disconnect c1) else pure (c1, [])

/-- `case 4:` of `processReponse`, the response to a submitted solution. -/
def onSubmitResponse (c : EthStratumClient) (responseObject : Json) :
    Except Err (EthStratumClient × List Effect) := do
  let c1 := { c with m_response_pending := false }
  let accepted ← (← responseObject.get "result".toList (.bool false)).asBool
  if accepted then
    pure (c1, Effect.cancelResponseTimer ::
      callIf c.hasOnSolutionAccepted (Effect.solutionAccepted c.m_stale))
  else
    pure (c1, Effect.cancelResponseTimer ::
      callIf c.hasOnSolutionRejected (Effect.solutionRejected c.m_stale))

/-- `index` of the default branch of `processReponse`: where the header hash sits in the
work array of STRATUM and ETHPROXY. -/
def workIndex (c : EthStratumClient) : Nat :=
  if c.version ≠ .ETHPROXY then 1 else 0

/-- The branch `if (method == "mining.notify")` of `processReponse`. -/
def onNotify (L : Lib) (c : EthStratumClient) (responseObject : Json) :
    Except Err (EthStratumClient × List Effect) := do
  let index := workIndex c
  let params ← responseObject.get (workattr c) .null
  if params.isArray then
    let job ← (← params.getIdx 0 (.str [])).asString L
    let c1 := if c.m_response_pending then { c with m_stale := true } else c
    let work ←
      if c.version = .ETHEREUMSTRATUM then notifyEthereumStratum L c1 params job
      else notifyStratum L c1 params job index
    match work with
    | some w =>
      pure ({ c1 with m_current := w },
            Effect.resetWorkTimeout :: callIf c.hasOnWorkReceived (Effect.workReceived w))
    | none => pure (c1, [])
  else pure (c, [])

/-- The branch `mining.set_difficulty` of `processReponse`. -/
def onSetDifficulty (c : EthStratumClient) (responseObject : Json) :
    Except Err (EthStratumClient × List Effect) := do
  let params ← responseObject.get "params".toList .null
  if params.isArray then
    let d ← (← params.getIdx 0 (.int 1)).asDouble
    let d := if Dbl.le d minDifficulty then minDifficulty else d
    pure ({ c with m_nextWorkDifficulty := d }, [])
  else pure (c, [])

/-- The branch `mining.set_extranonce` of `processReponse`. -/
def onSetExtranonce (L : Lib) (c : EthStratumClient) (responseObject : Json) :
    Except Err (EthStratumClient × List Effect) := do
  let params ← responseObject.get "params".toList .null
  if params.isArray then
    let enonce ← (← params.getIdx 0 (.str [])).asString L
    let c1 ← processExtranonce L c enonce
    pure (c1, [])
  else pure (c, [])

/-- `default:` of `processReponse`: dispatch on the method. -/
def onMethod (L : Lib) (c : EthStratumClient) (responseObject : Json) (id : Int) :
    Except Err (EthStratumClient × List Effect) := do
  let method ← responseMethod L c responseObject
  if method = "mining.notify".toList then
    onNotify L c responseObject
  else if method = "mining.set_difficulty".toList ∧ c.version = .ETHEREUMSTRATUM then
    onSetDifficulty c responseObject
  else if method = "mining.set_extranonce".toList ∧ c.version = .ETHEREUMSTRATUM then
    onSetExtranonce L c responseObject
  else if method = "client.get_version".toList then
    pure (c, [Effect.send ("\x7b\"error\": null, \"id\" : ".toList ++ Json.decimal id ++
      ", \"result\" : \"".toList ++ L.project_version ++ "\"\x7d\n".toList)])
  else pure (c, [])

/-- `processReponse(responseObject)`: the `switch (id)`. -/
def processReponse (L : Lib) (c : EthStratumClient) (responseObject : Json) :
    Except Err (EthStratumClient × List Effect) := do
  let id ← responseId L responseObject
  if id = 1 then onSubscribed L c responseObject
  else if id = 2 then pure (c, [])
  else if id = 3 then onAuthorized c responseObject
  else if id = 4 then onSubmitResponse c responseObject
  else onMethod L c responseObject id

/-- `submitSolution(solution)`. -/
def submitSolution (c : EthStratumClient) (solution : Solution) :
    Except Err (EthStratumClient × List Effect) := do
  let nonceHex := toHex solution.nonce
  let json ←
    match c.version with
    | .STRATUM =>
      pure ("\x7b\"id\": 4, \"method\": \"mining.submit\", \"params\": [\"".toList ++
        c.user ++ "\",\"".toList ++ hexOfBytes solution.work.job ++ "\",\"0x".toList ++
        nonceHex ++ "\",\"0x".toList ++ hexOfBytes solution.work.header ++ "\",\"0x".toList ++
        hexOfBytes solution.mixHash ++ "\"]\x7d\n".toList)
    | .ETHPROXY =>
      pure ("\x7b\"id\": 4, \"worker\":\"".toList ++
        c.m_worker ++ "\", \"method\": \"eth_submitWork\", \"params\": [\"0x".toList ++
        nonceHex ++ "\",\"0x".toList ++ hexOfBytes solution.work.header ++ "\",\"0x".toList ++
        hexOfBytes solution.mixHash ++ "\"]\x7d\n".toList)
    | .ETHEREUMSTRATUM => do
      let jobPart ← substr (hexOfBytes solution.work.job) 0 solution.work.job_len
      let noncePart ← substr nonceHex c.m_extraNonceHexSize (16 - c.m_extraNonceHexSize)
      pure ("\x7b\"id\": 4, \"method\": \"mining.submit\", \"params\": [\"".toList ++
        c.user ++ "\",\"".toList ++ jobPart ++ "\",\"".toList ++ noncePart ++
        "\"]\x7d\n".toList)
  pure ({ c with m_stale := solution.stale, m_response_pending := true },
        [Effect.cancelResponseTimer, Effect.send json, Effect.armResponseTimer])

/-- A connected client of the given dialect with every callback set, no work yet and no
response pending; used for concrete runs. -/
def sample (v : StratumProtocol) : EthStratumClient where
  version := v
  user := "alice.worker1".toList
  pass := "x".toList
  m_email := []
  m_worker := []
  m_authorized := false
  m_connected := true
  m_linkdown := false
  m_response_pending := false
  m_stale := false
  m_nextWorkDifficulty := Dbl.ofNat 1
  m_extraNonce := List.replicate 8 0
  m_extraNonceHexSize := 0
  m_current :=
    { header := List.replicate 32 0, seed := List.replicate 32 0,
      boundary := List.replicate 32 0, job := List.replicate 32 0,
      startNonce := 0, exSizeBits := 0, job_len := 0 }
  hasOnWorkReceived := true
  hasOnSolutionAccepted := true
  hasOnSolutionRejected := true
  hasOnDisconnected := true

/-- A solution for the current work of a client. -/
def sampleSolution (c : EthStratumClient) (nonce : Nat) (stale : Bool) : Solution where
  nonce := nonce
  mixHash := List.replicate 32 0
  work := c.m_current
  stale := stale

/-- Processing the frames of a list in order; the effects are concatenated. -/
def run (L : Lib) (c : EthStratumClient) : List Json → Except Err (EthStratumClient × List Effect)
  | [] => .ok (c, [])
  | f :: fs =>
    match processReponse L c f with
    | .error e => .error e
    | .ok (c1, e1) =>
      match run L c1 fs with
      | .error e => .error e
      | .ok (c2, e2) => .ok (c2, e1 ++ e2)

/-- A frame that `processReponse` handles as `mining.notify` with an array work field
`ps`: its id is none of 1 to 4, its method is `mining.notify` (every such frame, under
ETHPROXY) and the work member (`params`, or `result` under ETHPROXY) is the array. -/
def IsNotify (L : Lib) (c : EthStratumClient) (f : Json) (ps : List Json) : Prop :=
  (∃ id, responseId L f = .ok id ∧ id ≠ 1 ∧ id ≠ 2 ∧ id ≠ 3 ∧ id ≠ 4) ∧
  responseMethod L c f = .ok "mining.notify".toList ∧
  f.get (workattr c) .null = .ok (.arr ps)

/-- A frame with id 4 whose `result` converts to the boolean `b`: the response to a
submitted solution. -/
def IsSubmitResponse (L : Lib) (f : Json) (b : Bool) : Prop :=
  responseId L f = .ok 4 ∧
  ∃ r, f.get "result".toList (.bool false) = .ok r ∧ r.asBool = .ok b

/-- A frame with id 1 whose `result` is the array `elems`: the subscribe response. -/
def IsSubscribeResponse (L : Lib) (f : Json) (elems : List Json) : Prop :=
  responseId L f = .ok 1 ∧ f.get "result".toList .null = .ok (.arr elems)

/-- The string at position `i` of a work array, as `params.get(i, "").asString()`. -/
def workString (L : Lib) (ps : List Json) (i : Nat) : Except Err Str :=
  (ps.getD i (.str [])).asString L

/-- The frame of a notification: a `method` and its `params`, no id. -/
def notification (method : Str) (params : List Json) : Json :=
  .obj [("id".toList, .null), ("method".toList, .str method), ("params".toList, .arr params)]

/-- The frame of a response: an id, a `result` and a null `error`. -/
def response (id : Int) (result : Json) : Json :=
  .obj [("id".toList, .int id), ("result".toList, result), ("error".toList, .null)]

/-- A 0x-prefixed hash string of 64 copies of a digit. -/
def hashString (digit : Char) : Str := '0' :: 'x' :: List.replicate 64 digit

/-- The two frames of scenario E1: the subscribe response carrying the extranonce `af42`
and a `mining.notify`. -/
def framesE1 : List Json :=
  [response 1 (.arr [.null, .str "af42".toList]),
   notification "mining.notify".toList
     [.str "ab".toList, .str (hashString '1'), .str (hashString '2'), .str [], .bool true]]

/-- Two STRATUM `mining.notify` frames: one with job, header, seed and share target, and
one from which the share target is missing. -/
def framesE4 : List Json :=
  [notification "mining.notify".toList
     [.str (hashString '4'), .str (hashString '1'), .str (hashString '2'),
      .str "0x33".toList],
   notification "mining.notify".toList
     [.str (hashString '4'), .str (hashString '1'), .str (hashString '2')]]

/-- The sample STRATUM client and the effects after it submitted a solution with nonce 7
that is not stale. -/
def sampleSubmitted : EthStratumClient × List Effect :=
  match submitSolution (sample .STRATUM) (sampleSolution (sample .STRATUM) 7 false) with
  | .ok r => r
  | .error _ => (sample .STRATUM, [])

/-- The client and the effects after `sampleSubmitted` processed a `mining.notify` with a
new header. -/
def sampleStale : EthStratumClient × List Effect :=
  match processReponse specLib sampleSubmitted.1 (framesE4.getD 0 .null) with
  | .ok r => r
  | .error _ => (sample .STRATUM, [])

end EthStratumClient

/-! ## The Ethash epoch helper (`EthashAux`)

Hashes are an arbitrary type `H` with decidable equality; `sha3` (Keccak-256), the
all-zero hash `zero` (`h256()`) and the libethash routines are parameters. -/

namespace EthashAux

/-- Modelled from the spec: `ETHASH_EPOCH_LENGTH` of libethash/ethash.h,
the spec's `EPOCH_LENGTH` constant `30000`. -/
def ETHASH_EPOCH_LENGTH : Nat := 30000

/-- What `EthashAux` raises. -/
inductive Error where
  /-- `std::invalid_argument` from `number`: the spec's `EpochOutOfRange`. -/
  | invalidArgument
  /-- `std::runtime_error` from `LightAllocation`: the spec's `VerifyError`. -/
  | runtimeError
deriving DecidableEq, Repr

/-- `EthashAux::LightAllocation`: the light handle and its cache size. -/
structure LightAllocation (Lt : Type) where
  light : Lt
  size : Nat

/-- The members of the `EthashAux` singleton: `m_seedHashes` (a vector), `m_epochs` and
`m_lights` (maps, as association lists in which the newest binding of a key is first). -/
structure State (H Lt : Type) where
  m_seedHashes : List H
  m_epochs : List (H × Nat)
  m_lights : List (H × LightAllocation Lt)

/-- The singleton before any call. -/
def State.init (H Lt : Type) : State H Lt := ⟨[], [], []⟩

/-- `Result`: the proof-of-work value and the mix hash. -/
structure Result (H : Type) where
  value : H
  mixHash : H
deriving DecidableEq, Repr

/-- The libethash routines and hash constants the helper uses, as parameters. -/
structure Ethash (H Lt : Type) where
  /-- `sha3`, Keccak-256. -/
  sha3 : H → H
  /-- `h256()`, the all-zero hash. -/
  zero : H
  /-- `~h256()`, the all-ones hash. -/
  ones : H
  /-- `ethash_light_new(blockNumber)`; `none` is the null pointer. -/
  ethash_light_new : Nat → Option Lt
  /-- `ethash_get_cachesize(blockNumber)`. -/
  ethash_get_cachesize : Nat → Nat
  /-- `ethash_light_compute(light, header, nonce)`; `none` is `success == false`. -/
  ethash_light_compute : Lt → H → Nat → Option (Result H)

variable {H Lt : Type} [DecidableEq H]

/-- The loop `for (; n <= epoch; ++n, ret = sha3(ret)) m_seedHashes[n] = ret;` with
`cnt = epoch + 1 - n` iterations left. -/
def seedHash.fill (E : Ethash H Lt) : Nat → Nat → H → List H → List H
  | 0, _, _, v => v
  | cnt + 1, n, ret, v => seedHash.fill E cnt (n + 1) (E.sha3 ret) (v.set n ret)

/-- `m_seedHashes.resize(k)`: truncates, or appends value-initialised hashes. -/
def resize (E : Ethash H Lt) (v : List H) (k : Nat) : List H :=
  v.take k ++ List.replicate (k - v.length) E.zero

/-- `EthashAux::seedHash(_number)`: the seed hash and the singleton afterwards. `_number`
is an `unsigned`: the argument is taken modulo `2^32`. -/
def seedHash (E : Ethash H Lt) (st : State H Lt) (_number : Nat) : H × State H Lt :=
  let epoch := _number % 2 ^ 32 / ETHASH_EPOCH_LENGTH
  let st1 : State H Lt :=
    if epoch ≥ st.m_seedHashes.length then
      let ret := if st.m_seedHashes.isEmpty then E.zero else st.m_seedHashes.getLastD E.zero
      let n := if st.m_seedHashes.isEmpty then 0 else st.m_seedHashes.length - 1
      { st with
        m_seedHashes := seedHash.fill E (epoch + 1 - n) n ret (resize E st.m_seedHashes (epoch + 1)) }
    else st
  (st1.m_seedHashes.getD epoch E.zero, st1)

/-- The loop of `number`,
`for (h256 h; h != _seedHash && epoch < 2048; ++epoch, h = sha3(h), m_epochs[h] = epoch) {}`,
with `left = 2048 - epoch`; returns the final `epoch` and `m_epochs`. -/
def number.walk (E : Ethash H Lt) (_seedHash : H) :
    Nat → Nat → H → List (H × Nat) → Nat × List (H × Nat)
  | 0, epoch, _, m => (epoch, m)
  | left + 1, epoch, h, m =>
    if h ≠ _seedHash then
      number.walk E _seedHash left (epoch + 1) (E.sha3 h) ((E.sha3 h, epoch + 1) :: m)
    else (epoch, m)

/-- `EthashAux::number(_seedHash)`: the block number or the exception, and the singleton
afterwards (the memo written before a throw stays). -/
def number (E : Ethash H Lt) (st : State H Lt) (_seedHash : H) :
    Except Error Nat × State H Lt :=
  match st.m_epochs.lookup _seedHash with
  | none =>
    let r := number.walk E _seedHash 2048 0 E.zero st.m_epochs
    let st1 := { st with m_epochs := r.2 }
    if r.1 = 2048 then (.error .invalidArgument, st1)
    else (.ok (r.1 * ETHASH_EPOCH_LENGTH), st1)
  | some epoch => (.ok (epoch * ETHASH_EPOCH_LENGTH), st)

/-- `LightAllocation::LightAllocation(_seedHash)`. -/
def LightAllocation.create (E : Ethash H Lt) (st : State H Lt) (_seedHash : H) :
    Except Error (LightAllocation Lt) × State H Lt :=
  match number E st _seedHash with
  | (.error e, st1) => (.error e, st1)
  | (.ok blockNumber, st1) =>
    match E.ethash_light_new blockNumber with
    | none => (.error .runtimeError, st1)
    | some l => (.ok ⟨l, E.ethash_get_cachesize blockNumber⟩, st1)

/-- `EthashAux::light(_seedHash)`; the allocation is constructed before it is stored. -/
def light (E : Ethash H Lt) (st : State H Lt) (_seedHash : H) :
    Except Error (LightAllocation Lt) × State H Lt :=
  match st.m_lights.lookup _seedHash with
  | some la => (.ok la, st)
  | none =>
    match LightAllocation.create E st _seedHash with
    | (.ok la, st1) => (.ok la, { st1 with m_lights := (_seedHash, la) :: st1.m_lights })
    | (.error e, st1) => (.error e, st1)

/-- `LightAllocation::compute(_headerHash, _nonce)`. -/
def LightAllocation.compute (E : Ethash H Lt) (la : LightAllocation Lt) (_headerHash : H)
    (_nonce : Nat) : Except Error (Result H) :=
  match E.ethash_light_compute la.light _headerHash _nonce with
  | none => .error .runtimeError
  | some r => .ok r

/-- The sentinel `Result{~h256(), h256()}`. -/
def sentinel (E : Ethash H Lt) : Result H := ⟨E.ones, E.zero⟩

/-- `EthashAux::eval(_seedHash, _headerHash, _nonce) noexcept`: every exception of the
`try` block is a `std::exception` and is caught. -/
def eval (E : Ethash H Lt) (st : State H Lt) (_seedHash _headerHash : H) (_nonce : Nat) :
    Result H × State H Lt :=
  match light E st _seedHash with
  | (.ok la, st1) =>
    match LightAllocation.compute E la _headerHash _nonce with
    | .ok r => (r, st1)
    | .error _ => (sentinel E, st1)
  | (.error _, st1) => (sentinel E, st1)

/-- `sha3` applied `i` times to the zero hash: the seed hash of epoch `i`. -/
def seedOf (E : Ethash H Lt) : Nat → H
  | 0 => E.zero
  | i + 1 => E.sha3 (seedOf E i)

/-- One call on the singleton. -/
inductive Call (H : Type) where
  | seedHash (_number : Nat)
  | number (_seedHash : H)
  | light (_seedHash : H)
  | eval (_seedHash _headerHash : H) (_nonce : Nat)

/-- The singleton after a call. -/
def step (E : Ethash H Lt) (st : State H Lt) : Call H → State H Lt
  | .seedHash n => (seedHash E st n).2
  | .number s => (number E st s).2
  | .light s => (light E st s).2
  | .eval s h n => (eval E st s h n).2

/-- The states of the singleton that calls can produce from the initial one. -/
inductive Reachable (E : Ethash H Lt) : State H Lt → Prop where
  | init : Reachable E (State.init H Lt)
  | step {st : State H Lt} (c : Call H) : Reachable E st → Reachable E (step E st c)

/-- A stand-in for Keccak-256 on naturals whose iterates from zero are all distinct, with
a light for every block number whose compute echoes its inputs. -/
def toyEthash : Ethash Nat Nat where
  sha3 := fun h => h + 1
  zero := 0
  ones := 2 ^ 256 - 1
  ethash_light_new := fun b => some b
  ethash_get_cachesize := fun _ => 0
  ethash_light_compute := fun l h n => some ⟨l + h, n⟩

/-- Every memoized entry of `m_seedHashes` is the seed hash of its index. -/
def SeedInv (E : Ethash H Lt) (st : State H Lt) : Prop :=
  ∀ i, i < st.m_seedHashes.length → st.m_seedHashes[i]? = some (seedOf E i)

/-- Every memoized binding of `m_epochs` maps a seed hash to an epoch that has it, and
only epochs 1 to 2048 are bound. -/
def EpochInv (E : Ethash H Lt) (st : State H Lt) : Prop :=
  ∀ h k, (h, k) ∈ st.m_epochs → h = seedOf E k ∧ 1 ≤ k ∧ k ≤ 2048

/-- The seed hashes of epochs 0 to 2048 are pairwise distinct (as they are for
Keccak-256). -/
def SeedsDistinct (E : Ethash H Lt) : Prop :=
  ∀ i j, i ≤ 2048 → j ≤ 2048 → seedOf E i = seedOf E j → i = j

/-- `number` succeeds on this seed in this state. -/
def NumOk (E : Ethash H Lt) (st : State H Lt) (seed : H) : Prop :=
  ∃ b, (number E st seed).1 = .ok b

/-- Every cached light belongs to a seed that `number` resolves. -/
def LightInv (E : Ethash H Lt) (st : State H Lt) : Prop :=
  ∀ s, (st.m_lights.lookup s).isSome → NumOk E st s

/-- The invariant of the singleton. -/
def Inv (E : Ethash H Lt) (st : State H Lt) : Prop :=
  SeedInv E st ∧ EpochInv E st ∧ LightInv E st

end EthashAux

/-! ## The connect handler of the stratum client -/

/-- Modelled from the spec: `SecureLevel` of `libproto/PoolURI.h`, the spec's
`secure_level ∈ {NONE, TLS, TLS12}`. `NONE` is taken to be its zero value, the one a
value-initialised `SchemeAttributes` holds. -/
inductive SecureLevel where
  | NONE
  | TLS
  | TLS12
deriving DecidableEq, Repr

namespace EthStratumClient

/-- `std::string::npos`, the largest `size_t`. -/
def npos : Nat := 2 ^ 64 - 1

/-- `s.find_first_of(".")`, for the one character searched: the first position that
holds it, or `npos`. -/
def find_first_of (s : Str) (ch : Char) : Nat :=
  if ch ∈ s then s.indexOf ch else npos

/-- The `case EthStratumClient::ETHPROXY:` of `connect_handler`: the client with the
worker name stored, and the login frame. `p + 1` is computed in `size_t`. -/
def loginEthProxy (c : EthStratumClient) : Except Err (EthStratumClient × Str) := do
  let p := find_first_of c.user '.'
  let user ← substr c.user 0 p
  let m_worker ←
    if (p + 1) % 2 ^ 64 ≤ c.user.length then substrFrom c.user ((p + 1) % 2 ^ 64)
    else pure []
  let json :=
    if c.m_email = [] then
      "\x7b\"id\": 1, \"worker\":\"".toList ++ m_worker ++
        "\", \"method\": \"eth_submitLogin\", \"params\": [\"".toList ++ user ++
        "\"]\x7d\n".toList
    else
      "\x7b\"id\": 1, \"worker\":\"".toList ++ m_worker ++
        "\", \"method\": \"eth_submitLogin\", \"params\": [\"".toList ++ user ++
        "\", \"".toList ++ c.m_email ++ "\"]\x7d\n".toList
  pure ({ c with m_worker := m_worker }, json)

/-- `connect_handler(ec, i)`. `ec` says that the connect failed, `secLevel` is
`m_connection.SecLevel()`, `hec` says that the TLS handshake failed and `hasOnConnected`
that `m_onConnected` is set. -/
def connect_handler (L : Lib) (c : EthStratumClient) (ec : Bool) (secLevel : SecureLevel)
    (hec : Bool) (hasOnConnected : Bool) : Except Err (EthStratumClient × List Effect) :=
  if ec then pure (disconnect c)
  else
    let c1 := { c with m_connected := true, m_linkdown := false }
    let e1 := callIf hasOnConnected Effect.connected
    if secLevel ≠ .NONE ∧ hec then
      pure ((disconnect c1).1, e1 ++ (disconnect c1).2)
    else do
      let (c2, json) ←
        match c.version with
        | .STRATUM =>
          pure ({ c1 with m_authorized := true },
            "\x7b\"id\": 1, \"method\": \"mining.subscribe\", \"params\": []\x7d\n".toList)
        | .ETHPROXY => loginEthProxy c1
        | .ETHEREUMSTRATUM =>
          pure ({ c1 with m_authorized := true },
            "\x7b\"id\": 1, \"method\": \"mining.subscribe\", \"params\": [\"ethminer/".toList
              ++ L.project_version ++ "\",\"EthereumStratum/1.0.0\"]\x7d\n".toList)
      pure (c2, e1 ++ [Effect.resetWorkTimeout, Effect.send json])

/-- A `mining.set_difficulty` of `2^-20`, which lies below the minimum, followed by a
`mining.notify`. -/
def framesE2 : List Json :=
  [notification "mining.set_difficulty".toList [.real (Dbl.fin false 1 (-20))],
   notification "mining.notify".toList
     [.str "ab".toList, .str (hashString '1'), .str (hashString '2'), .str [], .bool true]]

/-- The responses to `mining.extranonce.subscribe` (id 2) and `mining.authorize` (id 3)
that a pool sends between the subscribe response and its first `mining.notify`. -/
def framesAuth : List Json := [response 2 (.bool true), response 3 (.bool true)]

/-- The sample ETHEREUMSTRATUM client and the effects after it processed the subscribe
response of scenario E1. -/
def sampleSubscribed : EthStratumClient × List Effect :=
  match processReponse specLib (sample .ETHEREUMSTRATUM) (framesE1.getD 0 .null) with
  | .ok r => r
  | .error _ => (sample .ETHEREUMSTRATUM, [])

/-- The client and the effects after `sampleSubscribed` processed `framesAuth`. -/
def sampleAuthorized : EthStratumClient × List Effect :=
  match run specLib sampleSubscribed.1 framesAuth with
  | .ok r => r
  | .error _ => (sample .ETHEREUMSTRATUM, [])

end EthStratumClient

/-! ## Reading a boundary back as a difficulty -/

/-- The rational number a finite double denotes (0 for the infinities and NaN). -/
def Dbl.toRat : Dbl → ℚ
  | .fin neg m e => (if neg then -1 else 1) * (m : ℚ) * (2 : ℚ) ^ e
  | _ => 0

/-- The boundary of difficulty 1, `00 00 00 00 ff ff 00 00` followed by 24 zero bytes, as
a number: `0xffff0000 * 2^192`. -/
def diff1Target : Nat := 4294901760 * 2 ^ 192

/-! ## Pool URIs (`URI`) -/

/-- `SchemeAttributes`. -/
structure SchemeAttributes where
  secure : SecureLevel
  version : Nat
deriving DecidableEq, Repr

/-- `std::string::operator<`: lexicographic order of the characters. -/
def strLt : Str → Str → Bool
  | [], [] => false
  | [], _ :: _ => true
  | _ :: _, [] => false
  | a :: as, b :: bs =>
    if a.toNat < b.toNat then true
    else if b.toNat < a.toNat then false
    else strLt as bs

/-- A `std::map<std::string, SchemeAttributes>`: its entries in key order. -/
abbrev SchemeMap := List (Str × SchemeAttributes)

namespace SchemeMap

/-- `map.find(k)`: the attributes stored under `k`, or `none` for `end()`. -/
def find : SchemeMap → Str → Option SchemeAttributes
  | [], _ => none
  | (k1, v1) :: rest, k => if k = k1 then some v1 else find rest k

/-- Insertion of a key the map may hold already: an existing entry is kept, a new one
goes to its place in key order. -/
def insert : SchemeMap → Str → SchemeAttributes → SchemeMap
  | [], k, v => [(k, v)]
  | (k1, v1) :: rest, k, v =>
    if k = k1 then (k1, v1) :: rest
    else if strLt k k1 then (k, v) :: (k1, v1) :: rest
    else (k1, v1) :: insert rest k v

/-- The map an initialiser list builds. -/
def ofList (entries : List (Str × SchemeAttributes)) : SchemeMap :=
  entries.foldl (fun t e => insert t e.1 e.2) []

/-- `map[k]`: the attributes stored under `k`; a missing key is first inserted with
value-initialised attributes. Returns the attributes and the map afterwards. -/
def index (t : SchemeMap) (k : Str) : SchemeAttributes × SchemeMap :=
  match find t k with
  | some a => (a, t)
  | none => (⟨.NONE, 0⟩, insert t k ⟨.NONE, 0⟩)

end SchemeMap

/-- The static `s_schemes` as initialised. -/
def s_schemes : SchemeMap :=
  SchemeMap.ofList
    [("stratum+tcp".toList, ⟨.NONE, 0⟩),
     ("ethproxy+tcp".toList, ⟨.NONE, 1⟩),
     ("nicehash+tcp".toList, ⟨.NONE, 2⟩),
     ("stratum+tls".toList, ⟨.TLS, 0⟩),
     ("ethproxy+tls".toList, ⟨.TLS, 1⟩),
     ("nicehash+tls".toList, ⟨.TLS, 2⟩),
     ("stratum+tls12".toList, ⟨.TLS12, 0⟩),
     ("ethproxy+tls12".toList, ⟨.TLS12, 1⟩),
     ("nicehash+tls12".toList, ⟨.TLS12, 2⟩)]

/-- `std::isspace` in the classic locale: space, tab, line feed, vertical tab, form feed
and carriage return. -/
def isSpace (c : Char) : Bool :=
  decide (c.toNat = 32 ∨ (9 ≤ c.toNat ∧ c.toNat ≤ 13))

/-- `boost::trim(s)`: the string without its leading and trailing white space. -/
def trim (s : Str) : Str :=
  ((s.dropWhile isSpace).reverse.dropWhile isSpace).reverse

/-- An instance of the library routine `network::detail::decode` (cpp-netlib), which the
accessors below take as a parameter, for concrete runs: percent-decoding of a URI
component. A text without `%` is its own decoding; an escape that is cut short, is not
hexadecimal or lies above 127 has none (`none`, the exception the library raises). -/
def percentDecode : Str → Option Str
  | [] => some []
  | c :: rest =>
    if c = '%' then
      match rest with
      | h :: l :: rest2 =>
        match hexVal h, hexVal l, percentDecode rest2 with
        | some a, some b, some r => if a < 8 then some (Char.ofNat (16 * a + b) :: r) else none
        | _, _, _ => none
      | _ => none
    else
      match percentDecode rest with
      | some r => some (c :: r)
      | none => none

/-- The part of `network::uri` the scheme accessors read: `m_uri.scheme()`, absent when
the URI has no scheme. -/
structure URI where
  scheme : Option Str
deriving DecidableEq, Repr

namespace URI

/-- The statements `std::string s(*m_uri.scheme()); s = network::detail::decode(s);
boost::trim(s);` shared by the accessors; `decode` is the library routine, `none` when it
raises. -/
def decoded (decode : Str → Option Str) (scheme : Str) : Option Str :=
  match decode scheme with
  | some s => some (trim s)
  | none => none

/-- `URI::KnownScheme()`, reading the table `t`; `none` when `decode` raises. -/
def KnownScheme (decode : Str → Option Str) (t : SchemeMap) (u : URI) : Option Bool :=
  match u.scheme with
  | none => some false
  | some scheme =>
    match decoded decode scheme with
    | some s => some (SchemeMap.find t s).isSome
    | none => none

/-- `URI::ProtoVersion()`: the version and the table afterwards; `none` when `decode`
raises. -/
def ProtoVersion (decode : Str → Option Str) (t : SchemeMap) (u : URI) :
    Option (Nat × SchemeMap) :=
  match u.scheme with
  | none => some (0, t)
  | some scheme =>
    match decoded decode scheme with
    | some s => some ((SchemeMap.index t s).1.version, (SchemeMap.index t s).2)
    | none => none

/-- `URI::ProtoSecureLevel()`: the level and the table afterwards; `none` when `decode`
raises. -/
def ProtoSecureLevel (decode : Str → Option Str) (t : SchemeMap) (u : URI) :
    Option (SecureLevel × SchemeMap) :=
  match u.scheme with
  | none => some (.NONE, t)
  | some scheme =>
    match decoded decode scheme with
    | some s => some ((SchemeMap.index t s).1.secure, (SchemeMap.index t s).2)
    | none => none

/-- `URI::KnownSchemes(secureLevel)`, reading the table `t`. -/
def KnownSchemes (t : SchemeMap) (secureLevel : SecureLevel) : Str :=
  trim (t.foldl
    (fun schemes s => if s.2.secure = secureLevel then schemes ++ (s.1 ++ " ".toList) else schemes)
    [])

/-- A call of one of the two accessors that index the table. -/
inductive Call where
  | protoVersion (u : URI)
  | protoSecureLevel (u : URI)

/-- The table after a call; a call in which `decode` raises leaves it as it was. -/
def Call.table (decode : Str → Option Str) (t : SchemeMap) : Call → SchemeMap
  | .protoVersion u => ((ProtoVersion decode t u).map Prod.snd).getD t
  | .protoSecureLevel u => ((ProtoSecureLevel decode t u).map Prod.snd).getD t

/-- The table after a sequence of calls. -/
def tableAfter (decode : Str → Option Str) (t : SchemeMap) (calls : List Call) : SchemeMap :=
  calls.foldl (Call.table decode) t

/-- The nine scheme names of the table. -/
def schemeNames : List Str :=
  ["stratum+tcp".toList, "ethproxy+tcp".toList, "nicehash+tcp".toList,
   "stratum+tls".toList, "ethproxy+tls".toList, "nicehash+tls".toList,
   "stratum+tls12".toList, "ethproxy+tls12".toList, "nicehash+tls12".toList]

end URI

theorem beValue_words (m k : Nat) (hk : k ≤ 6) (hm : m < 2 ^ 64) (h : ¬ (m = 0 ∧ k = 6)) :
    beValue (bytesOfWords (diffToTarget.words m k)).reverse = m * 2 ^ (32 * k) := by
  unfold diffToTarget.words
  rw [if_neg h]
  interval_cases k <;>
    simp [bytesOfWords, bytesOfU32, beValue, List.replicate] <;> omega

theorem Dbl.log2Aux_spec (fuel n : Nat) (hf : n ≤ fuel) (hn : n ≠ 0) :
    2 ^ Dbl.log2Aux fuel n ≤ n ∧ n < 2 ^ (Dbl.log2Aux fuel n + 1) := by
  induction fuel generalizing n with
  | zero => omega
  | succ f ih =>
    unfold Dbl.log2Aux
    split
    · constructor <;> simp <;> omega
    · have h2 : n / 2 ≤ f := by omega
      have h3 : n / 2 ≠ 0 := by omega
      obtain ⟨a, b⟩ := ih (n / 2) h2 h3
      constructor
      · rw [pow_succ]; omega
      · rw [pow_succ]; omega

theorem Dbl.ilog2_spec (n : Nat) (hn : n ≠ 0) :
    2 ^ Dbl.ilog2 n ≤ n ∧ n < 2 ^ (Dbl.ilog2 n + 1) :=
  Dbl.log2Aux_spec n n le_rfl hn

theorem Dbl.roundHalfEven_ge (num den : Nat) : num / den ≤ Dbl.roundHalfEven num den := by
  unfold Dbl.roundHalfEven
  simp only
  split_ifs <;> omega

theorem Dbl.ilog2_const : Dbl.ilog2 4294901760 = 31 := by decide

/-- not (1.0 < mb * 2^eb) for a positive mantissa forces `eb ≤ 0` and `mb ≤ 2^(-eb)` -/
theorem Dbl.not_one_lt (mb : Nat) (eb : Int) (hmb : 0 < mb)
    (hle : Dbl.lt (Dbl.ofNat 1) (Dbl.fin false mb eb) = false) :
    ∃ E : Nat, eb = -(E : Int) ∧ mb ≤ 2 ^ E := by
  simp only [Dbl.lt, Dbl.ofNat, Dbl.scaled, decide_eq_false_iff_not, not_lt, Bool.false_eq_true,
    if_false] at hle
  rcases le_or_lt eb 0 with h | h
  · refine ⟨(-eb).toNat, by omega, ?_⟩
    have h1 : min 0 eb = eb := by omega
    rw [h1] at hle
    have h2 : (eb - eb).toNat = 0 := by omega
    have h3 : (0 - eb).toNat = (-eb).toNat := by omega
    rw [h2, h3] at hle
    simp only [pow_zero, mul_one, one_mul] at hle
    exact_mod_cast hle
  · exfalso
    have h1 : min 0 eb = 0 := by omega
    rw [h1] at hle
    obtain ⟨E, hE⟩ : ∃ E : Nat, eb = (E : Int) + 1 := ⟨(eb - 1).toNat, by omega⟩
    subst hE
    have h2 : ((E : Int) + 1 - 0).toNat = E + 1 := by omega
    rw [h2] at hle
    simp only [sub_self, Int.toNat_zero, pow_zero, mul_one, Nat.cast_le] at hle
    have : 2 ^ (E + 1) ≥ 2 := by
      have := Nat.one_le_two_pow (n := E)
      rw [pow_succ]; omega
    nlinarith

theorem Dbl.trunc_core (S E mb n : Nat) (hmb : 0 < mb) (hS : mb < 2 ^ S) (hE : mb ≤ 2 ^ E)
    (hn : 4294901760 * 2 ^ S / mb ≤ n) :
    (if (0 : Int) ≤ (E : Int) - S then n * 2 ^ ((E : Int) - S).toNat
      else n / 2 ^ (-((E : Int) - S)).toNat) ≠ 0 := by
  have hpos : 0 < 2 ^ S := Nat.pos_pow_of_pos S (by norm_num)
  split_ifs with h
  · have h1 : 1 ≤ 4294901760 * 2 ^ S / mb := by
      rw [Nat.le_div_iff_mul_le hmb]
      nlinarith
    have h2 : 0 < 2 ^ ((E : Int) - S).toNat := Nat.pos_pow_of_pos _ (by norm_num)
    have : 0 < n * 2 ^ ((E : Int) - S).toNat := Nat.mul_pos (by omega) h2
    omega
  · have hD : (-((E : Int) - S)).toNat = S - E := by omega
    rw [hD]
    have hSE : S = E + (S - E) := by omega
    have h1 : 2 ^ (S - E) ≤ 4294901760 * 2 ^ S / mb := by
      rw [Nat.le_div_iff_mul_le hmb]
      have : 2 ^ S = 2 ^ E * 2 ^ (S - E) := by rw [← pow_add, ← hSE]
      rw [this]
      have hp : 0 < 2 ^ (S - E) := Nat.pos_pow_of_pos _ (by norm_num)
      nlinarith
    have h2 : 0 < 2 ^ (S - E) := Nat.pos_pow_of_pos _ (by norm_num)
    have : 1 ≤ n / 2 ^ (S - E) := by
      rw [Nat.le_div_iff_mul_le h2]
      omega
    omega

theorem Dbl.toUInt64_div_ne_zero (mb : Nat) (eb : Int) (hmb : 0 < mb)
    (hle : Dbl.lt (Dbl.ofNat 1) (Dbl.fin false mb eb) = false) (m : Nat)
    (hm : Dbl.toUInt64 (Dbl.div (Dbl.ofNat 4294901760) (Dbl.fin false mb eb)) = some m) :
    m ≠ 0 := by
  obtain ⟨E, rfl, hE⟩ := Dbl.not_one_lt mb eb hmb hle
  obtain ⟨hl1, hl2⟩ := Dbl.ilog2_spec mb (by omega)
  have hLE : Dbl.ilog2 mb ≤ E := by
    by_contra hc
    have : 2 ^ (E + 1) ≤ 2 ^ Dbl.ilog2 mb := Nat.pow_le_pow_right (by norm_num) (by omega)
    rw [pow_succ] at this
    have := Nat.one_le_two_pow (n := E)
    omega
  simp only [Dbl.div, Dbl.ofNat] at hm
  rw [if_neg (by omega), if_neg (by norm_num)] at hm
  unfold Dbl.divMag at hm
  rw [Dbl.ilog2_const] at hm
  have hs0 : (53 : Int) + (Dbl.ilog2 mb : Int) - ((31 : Nat) : Int)
      = ((Dbl.ilog2 mb + 22 : Nat) : Int) := by push_cast; omega
  rw [hs0] at hm
  dsimp only at hm
  generalize hs1 : (if 2 ^ 53 ≤ Dbl.shiftNum 4294901760 ((Dbl.ilog2 mb + 22 : Nat) : Int) /
      Dbl.shiftDen mb ((Dbl.ilog2 mb + 22 : Nat) : Int)
      then ((Dbl.ilog2 mb + 22 : Nat) : Int) - 1 else ((Dbl.ilog2 mb + 22 : Nat) : Int)) = s1 at hm
  obtain ⟨S, rfl, hS1, hS2⟩ : ∃ S : Nat, s1 = (S : Int) ∧ Dbl.ilog2 mb + 21 ≤ S ∧
      S ≤ Dbl.ilog2 mb + 22 := by
    split_ifs at hs1
    · exact ⟨Dbl.ilog2 mb + 21, by rw [← hs1]; push_cast; omega, by omega, by omega⟩
    · exact ⟨Dbl.ilog2 mb + 22, by rw [← hs1], by omega, by omega⟩
  have he : ((0 : Int) - -(E : Int) - (S : Int)) ⊔ -1074 = (E : Int) - S := by
    rw [max_eq_left] <;> omega
  rw [he] at hm
  have hs : (0 : Int) - -(E : Int) - ((E : Int) - S) = (S : Int) := by omega
  rw [hs] at hm
  have hmbS : mb < 2 ^ S := by
    have : 2 ^ (Dbl.ilog2 mb + 1) ≤ 2 ^ S := Nat.pow_le_pow_right (by norm_num) (by omega)
    omega
  have hn := Dbl.roundHalfEven_ge (Dbl.shiftNum 4294901760 (S : Int)) (Dbl.shiftDen mb (S : Int))
  generalize Dbl.roundHalfEven (Dbl.shiftNum 4294901760 (S : Int)) (Dbl.shiftDen mb (S : Int)) = n
    at hm hn
  have hnum : Dbl.shiftNum 4294901760 (S : Int) = 4294901760 * 2 ^ S := by
    simp [Dbl.shiftNum]
  have hden : Dbl.shiftDen mb (S : Int) = mb := by
    have : (-(S : Int)).toNat = 0 := by omega
    simp [Dbl.shiftDen, this]
  rw [hnum, hden] at hn
  have hcore := Dbl.trunc_core S E mb n hmb hmbS hE hn
  split_ifs at hm with hinf
  · simp [Dbl.toUInt64] at hm
  · simp only [Dbl.toUInt64] at hm
    generalize (if (0 : Int) ≤ (E : Int) - S then n * 2 ^ ((E : Int) - S).toNat
      else n / 2 ^ (-((E : Int) - S)).toNat) = t at hm hcore
    split_ifs at hm with h1 h2 h3
    · exact absurd h1 hcore
    all_goals (simp only [Option.some.injEq] at hm; omega)

theorem diffToTarget.scale_fst_le (k : Nat) (d : Dbl) : (diffToTarget.scale k d).1 ≤ k := by
  induction k generalizing d with
  | zero => simp [diffToTarget.scale]
  | succ k ih =>
    unfold diffToTarget.scale
    split_ifs
    · exact Nat.le_succ_of_le (ih _)
    · exact le_rfl

theorem diffToTarget.scale_top (k : Nat) (d : Dbl)
    (h : (diffToTarget.scale (k + 1) d).1 = k + 1) :
    (diffToTarget.scale (k + 1) d).2 = d ∧ Dbl.lt (Dbl.ofNat 1) d = false := by
  unfold diffToTarget.scale at h ⊢
  split_ifs at h ⊢ with hlt
  · have := diffToTarget.scale_fst_le k (Dbl.div d (Dbl.ofNat 4294967296))
    omega
  · exact ⟨rfl, by simpa using hlt⟩

theorem Dbl.toUInt64_lt (d : Dbl) (m : Nat) (h : Dbl.toUInt64 d = some m) : m < 2 ^ 64 := by
  cases d with
  | fin neg mant e =>
    simp only [Dbl.toUInt64] at h
    split_ifs at h <;> simp only [Option.some.injEq] at h <;> omega
  | inf n => simp [Dbl.toUInt64] at h
  | nan => simp [Dbl.toUInt64] at h

theorem bytesOfWords_length (ws : List Nat) : (bytesOfWords ws).length = 4 * ws.length := by
  induction ws with
  | nil => rfl
  | cons w ws ih => simp [bytesOfWords, bytesOfU32, ih]; omega

theorem diffToTarget.words_length (m k : Nat) : (diffToTarget.words m k).length = 8 := by
  unfold diffToTarget.words
  split_ifs <;> simp

/-- C1 (amended): for every positive finite `diff` whose quotient `4294901760.0 / diff`
(after the scaling loop) converts to a 64-bit `m`, `diffToTarget` writes 32 bytes whose
big-endian value is `m * 2^(32*k)`; and `diffToTarget(1.0)` is
`00 00 00 00 ff ff 00 00` followed by 24 zero bytes. -/
theorem diffToTarget_boundary (diff : Dbl) (hpos : diff.IsPosFinite) (m : Nat)
    (hm : Dbl.toUInt64 (Dbl.div (Dbl.ofNat 4294901760) (diffToTarget.scale 6 diff).2) = some m) :
    (∃ b, diffToTarget diff = some b ∧ b.length = 32 ∧
      beValue b = m * 2 ^ (32 * (diffToTarget.scale 6 diff).1)) ∧
    diffToTarget (Dbl.ofNat 1) = some ([0, 0, 0, 0, 255, 255, 0, 0] ++ List.replicate 24 0) := by
  refine ⟨?_, by decide⟩
  refine ⟨(bytesOfWords (diffToTarget.words m (diffToTarget.scale 6 diff).1)).reverse, ?_, ?_, ?_⟩
  · simp only [diffToTarget, hm]
  · simp [bytesOfWords_length, diffToTarget.words_length]
  · apply beValue_words _ _ (diffToTarget.scale_fst_le 6 diff) (Dbl.toUInt64_lt _ _ hm)
    rintro ⟨rfl, hk⟩
    obtain ⟨h2, hlt⟩ := diffToTarget.scale_top 5 diff hk
    rw [h2] at hm
    cases diff with
    | fin neg mb eb =>
      obtain ⟨rfl, hmb⟩ := hpos
      exact Dbl.toUInt64_div_ne_zero mb eb hmb hlt 0 hm rfl
    | inf n => exact hpos
    | nan => exact hpos

theorem diffToTarget_boundary_witness :
    (∃ b, diffToTarget (Dbl.fin false 3 (-1)) = some b ∧ b.length = 32 ∧
      beValue b = 12297641732488560640 * 2 ^ (32 * (diffToTarget.scale 6 (Dbl.fin false 3 (-1))).1)) ∧
    diffToTarget (Dbl.ofNat 1) = some ([0, 0, 0, 0, 255, 255, 0, 0] ++ List.replicate 24 0) :=
  diffToTarget_boundary (Dbl.fin false 3 (-1)) ⟨rfl, by decide⟩ 12297641732488560640 (by decide)

/-- C1 as stated fails: `65535 * 2^-48` is a positive finite double not above 1.0, the
quotient `4294901760.0 / diff` is exactly `2^64`, which no `uint64_t` holds, so the
conversion is undefined and no boundary `m * 2^(32*6)` is determined; and when the
conversion yields 0, the low 64 bits of `2^64`, the guard `m == 0 && k == 6` writes 32
bytes `ff`, whose value is not `0 * 2^(32*6)`. -/
theorem diffToTarget_small_diff_undefined :
    (Dbl.fin false 65535 (-48)).IsPosFinite ∧ (Dbl.fin false 65535 (-48)).IsBinary64 ∧
    diffToTarget.scale 6 (Dbl.fin false 65535 (-48)) = (6, Dbl.fin false 65535 (-48)) ∧
    Dbl.div (Dbl.ofNat 4294901760) (Dbl.fin false 65535 (-48)) = Dbl.fin false (2 ^ 52) 12 ∧
    diffToTarget (Dbl.fin false 65535 (-48)) = none ∧
    (bytesOfWords (diffToTarget.words (2 ^ 64 % 2 ^ 64) 6)).reverse = List.replicate 32 255 ∧
    beValue (bytesOfWords (diffToTarget.words (2 ^ 64 % 2 ^ 64) 6)).reverse
      ≠ 2 ^ 64 % 2 ^ 64 * 2 ^ (32 * 6) := by
  refine ⟨⟨rfl, by decide⟩, ⟨by decide, by decide, by decide⟩, by decide, by decide, by decide,
    by decide, by decide⟩

/-! ## Hex strings and byte order -/

theorem hexVal_lt (c : Char) (v : Nat) (h : hexVal c = some v) : v < 16 := by
  unfold hexVal at h
  split_ifs at h <;> simp at h <;> omega

theorem hexVal_hexDigit (k : Nat) (hk : k < 16) : hexVal (hexDigit k) = some k := by
  interval_cases k <;> decide

theorem hexValueAux_append (acc : Nat) (a b : Str) :
    hexValueAux acc (a ++ b) = (hexValueAux acc a).bind (fun x => hexValueAux x b) := by
  induction a generalizing acc with
  | nil => rfl
  | cons c cs ih =>
    simp only [List.cons_append, hexValueAux]
    cases hexVal c with
    | none => rfl
    | some v => exact ih _

theorem hexValueAux_add (s : Str) (acc k : Nat) :
    hexValueAux (acc + k) s = (hexValueAux acc s).map (fun v => v + k * 16 ^ s.length) := by
  induction s generalizing acc k with
  | nil => simp [hexValueAux]
  | cons c cs ih =>
    simp only [hexValueAux]
    cases hexVal c with
    | none => rfl
    | some d =>
      simp only
      have e1 : (acc + k) * 16 + d = (acc * 16 + d) + k * 16 := by ring
      rw [e1, ih]
      congr 1
      funext v
      simp only [List.length_cons, pow_succ]
      ring

theorem hexValueAux_bound (s : Str) (acc v : Nat) (h : hexValueAux acc s = some v) :
    v < (acc + 1) * 16 ^ s.length := by
  induction s generalizing acc v with
  | nil =>
    simp only [hexValueAux, Option.some.injEq] at h
    subst h
    simp
  | cons c cs ih =>
    simp only [hexValueAux] at h
    cases hc : hexVal c with
    | none => rw [hc] at h; cases h
    | some d =>
      rw [hc] at h
      have hd := hexVal_lt c d hc
      have := ih _ _ h
      simp only [List.length_cons, pow_succ]
      have hp : 0 < 16 ^ cs.length := Nat.pos_pow_of_pos _ (by norm_num)
      nlinarith

/-- The value of a digit string continues an accumulator linearly, and is below
`16 ^ length`. -/
theorem hexValueAux_linear (s : Str) (acc v : Nat) (h : hexValue s = some v) :
    hexValueAux acc s = some (v + acc * 16 ^ s.length) ∧ v < 16 ^ s.length := by
  unfold hexValue at h
  constructor
  · have := hexValueAux_add s 0 acc
    rw [Nat.zero_add, h] at this
    exact this
  · simpa using hexValueAux_bound s 0 v h

theorem foldl_be_shift (bs : Bytes) (acc : Nat) :
    bs.foldl (fun a b => a * 256 + b) acc = acc * 256 ^ bs.length + beValue bs := by
  unfold beValue
  induction bs generalizing acc with
  | nil => simp
  | cons b bs ih =>
    simp only [List.foldl_cons, List.length_cons]
    rw [ih, ih (0 * 256 + b), pow_succ]
    ring

/-- The bytes a hex string spells have the value of the string. -/
theorem bytesOfHex_value (bs : Bytes) (s : Str) (acc : Nat) (h : bytesOfHex s = some bs) :
    hexValueAux acc s = some (bs.foldl (fun a b => a * 256 + b) acc) ∧
    s.length = 2 * bs.length ∧ ∀ b, b ∈ bs → b < 256 := by
  induction bs generalizing s acc with
  | nil =>
    match s, h with
    | [], _ => simp [hexValueAux]
    | [_], h => simp [bytesOfHex] at h
    | x :: y :: rest, h =>
      simp only [bytesOfHex] at h
      split at h <;> cases h
  | cons b bs ih =>
    match s, h with
    | [], h => simp [bytesOfHex] at h
    | [_], h => simp [bytesOfHex] at h
    | x :: y :: rest, h =>
      simp only [bytesOfHex] at h
      split at h
      · rename_i a d bs2 hx hy hrest
        simp only [Option.some.injEq, List.cons.injEq] at h
        obtain ⟨rfl, rfl⟩ := h
        obtain ⟨i1, i2, i3⟩ := ih rest (acc * 256 + (a * 16 + d)) hrest
        have ha := hexVal_lt x a hx
        have hd := hexVal_lt y d hy
        refine ⟨?_, ?_, ?_⟩
        · simp only [hexValueAux, hx, hy, List.foldl_cons]
          have e : (acc * 16 + a) * 16 + d = acc * 256 + (a * 16 + d) := by ring
          rw [e, i1]
        · simp only [List.length_cons, i2]; omega
        · intro b hb
          rcases List.mem_cons.mp hb with rfl | hb
          · omega
          · exact i3 b hb
      · cases h

theorem hexValue_bytesOfHex (bs : Bytes) (s : Str) (h : bytesOfHex s = some bs) :
    hexValue s = some (beValue bs) :=
  (bytesOfHex_value bs s 0 h).1

/-- A string of hex digits of even length spells bytes. -/
theorem bytesOfHex_isSome (n : Nat) (s : Str) (hlen : s.length = 2 * n)
    (hhex : ∀ ch, ch ∈ s → (hexVal ch).isSome) : ∃ bs, bytesOfHex s = some bs := by
  induction n generalizing s with
  | zero =>
    have : s = [] := List.length_eq_zero.mp (by omega)
    subst this
    exact ⟨[], rfl⟩
  | succ n ih =>
    match s, hlen, hhex with
    | [], hlen, _ => simp at hlen
    | [_], hlen, _ => simp at hlen; omega
    | x :: y :: rest, hlen, hhex =>
      obtain ⟨a, ha⟩ := Option.isSome_iff_exists.mp (hhex x (by simp))
      obtain ⟨d, hd⟩ := Option.isSome_iff_exists.mp (hhex y (by simp))
      obtain ⟨bs, hbs⟩ := ih rest (by simp at hlen; omega)
        (fun ch hch => hhex ch (by simp [hch]))
      exact ⟨(a * 16 + d) :: bs, by simp [bytesOfHex, ha, hd, hbs]⟩

/-- Loading eight bytes as a little-endian `uint64_t` and swapping its bytes gives their
big-endian value. -/
theorem swap_load (b0 b1 b2 b3 b4 b5 b6 b7 : Nat)
    (h0 : b0 < 256) (h1 : b1 < 256) (h2 : b2 < 256) (h3 : b3 < 256)
    (h4 : b4 < 256) (h5 : b5 < 256) (h6 : b6 < 256) (h7 : b7 < 256) :
    ethash_swap_u64 (loadU64LE [b0, b1, b2, b3, b4, b5, b6, b7]) =
      beValue [b0, b1, b2, b3, b4, b5, b6, b7] := by
  have hy : loadU64LE [b0, b1, b2, b3, b4, b5, b6, b7] =
      ((((((b7 * 256 + b6) * 256 + b5) * 256 + b4) * 256 + b3) * 256 + b2) * 256 + b1) * 256
        + b0 := by
    simp [loadU64LE, beValue]
  rw [hy]
  generalize hy6 : b7 * 256 + b6 = y6
  generalize hy5 : y6 * 256 + b5 = y5
  generalize hy4 : y5 * 256 + b4 = y4
  generalize hy3 : y4 * 256 + b3 = y3
  generalize hy2 : y3 * 256 + b2 = y2
  generalize hy1 : y2 * 256 + b1 = y1
  have e0 : (y1 * 256 + b0) % 256 = b0 := by omega
  have d1 : (y1 * 256 + b0) / 2 ^ 8 = y1 := by omega
  have e1 : y1 % 256 = b1 := by omega
  have d2 : (y1 * 256 + b0) / 2 ^ 16 = y2 := by omega
  have e2 : y2 % 256 = b2 := by omega
  have d3 : (y1 * 256 + b0) / 2 ^ 24 = y3 := by omega
  have e3 : y3 % 256 = b3 := by omega
  have d4 : (y1 * 256 + b0) / 2 ^ 32 = y4 := by omega
  have e4 : y4 % 256 = b4 := by omega
  have d5 : (y1 * 256 + b0) / 2 ^ 40 = y5 := by omega
  have e5 : y5 % 256 = b5 := by omega
  have d6 : (y1 * 256 + b0) / 2 ^ 48 = y6 := by omega
  have e6 : y6 % 256 = b6 := by omega
  have d7 : (y1 * 256 + b0) / 2 ^ 56 = b7 := by omega
  have e7 : b7 % 256 = b7 := by omega
  simp only [ethash_swap_u64, bytesOfU64BE, d1, d2, d3, d4, d5, d6, d7, e0, e1, e2, e3, e4, e5,
    e6, e7, List.reverse_cons, List.reverse_nil, List.nil_append, List.cons_append]

theorem beValue_bytesOfU64BE (n : Nat) (h : n < 2 ^ 64) : beValue (bytesOfU64BE n) = n := by
  simp only [bytesOfU64BE, beValue, List.foldl_cons, List.foldl_nil]
  omega

theorem hexValueAux_hexOfBytes (bs : Bytes) (acc : Nat) (h : ∀ b, b ∈ bs → b < 256) :
    hexValueAux acc (hexOfBytes bs) = some (bs.foldl (fun a b => a * 256 + b) acc) := by
  induction bs generalizing acc with
  | nil => rfl
  | cons b bs ih =>
    have hb := h b (by simp)
    simp only [hexOfBytes, hexValueAux, List.foldl_cons]
    rw [hexVal_hexDigit _ (Nat.mod_lt _ (by norm_num)), hexVal_hexDigit _ (Nat.mod_lt _ (by norm_num))]
    simp only
    rw [ih _ (fun b hb => h b (by simp [hb]))]
    congr 2
    omega

theorem hexOfBytes_length (bs : Bytes) : (hexOfBytes bs).length = 2 * bs.length := by
  induction bs with
  | nil => rfl
  | cons b bs ih => simp only [hexOfBytes, List.length_cons, ih]; omega

theorem toHex_length (n : Nat) : (toHex n).length = 16 := by
  simp [toHex, hexOfBytes_length, bytesOfU64BE]

theorem hexValue_toHex (n : Nat) (h : n < 2 ^ 64) : hexValue (toHex n) = some n := by
  unfold hexValue toHex
  rw [hexValueAux_hexOfBytes]
  · have := beValue_bytesOfU64BE n h
    unfold beValue at this
    rw [this]
  · intro b hb
    simp only [bytesOfU64BE, List.mem_cons, List.mem_singleton, List.not_mem_nil, or_false] at hb
    rcases hb with rfl | rfl | rfl | rfl | rfl | rfl | rfl | rfl <;> omega

/-! ## The stratum client: what `processReponse` does to the stale flag -/

namespace EthStratumClient

theorem processExtranonce_fields (L : Lib) (c c2 : EthStratumClient) (enonce : Str)
    (h : processExtranonce L c enonce = .ok c2) :
    c2 = { c with m_extraNonceHexSize := enonce.length,
                  m_extraNonce := c2.m_extraNonce } ∧
    L.h64 (padExtranonce enonce) = some c2.m_extraNonce := by
  unfold processExtranonce at h
  cases hh : L.h64 (padExtranonce enonce) with
  | none => rw [hh] at h; simp at h
  | some b =>
    rw [hh] at h
    simp only [Except.ok.injEq] at h
    subst h
    exact ⟨rfl, rfl⟩

theorem onSubscribed_fields (L : Lib) (c c2 : EthStratumClient) (f : Json) (e : List Effect)
    (h : onSubscribed L c f = .ok (c2, e)) :
    c2.version = c.version ∧ c2.hasOnSolutionAccepted = c.hasOnSolutionAccepted ∧
    c2.hasOnSolutionRejected = c.hasOnSolutionRejected ∧ c2.m_stale = c.m_stale := by
  unfold onSubscribed at h
  simp only [bind, Except.bind, pure, Except.pure] at h
  repeat' split at h
  all_goals cases h
  all_goals first
    | exact ⟨rfl, rfl, rfl, rfl⟩
    | (obtain ⟨hx1, -⟩ := processExtranonce_fields _ _ _ _ (by assumption)
       rw [hx1]
       exact ⟨rfl, rfl, rfl, rfl⟩)

theorem onAuthorized_fields (c c2 : EthStratumClient) (f : Json) (e : List Effect)
    (h : onAuthorized c f = .ok (c2, e)) :
    c2.version = c.version ∧ c2.hasOnSolutionAccepted = c.hasOnSolutionAccepted ∧
    c2.hasOnSolutionRejected = c.hasOnSolutionRejected ∧ c2.m_stale = c.m_stale := by
  unfold onAuthorized at h
  simp only [bind, Except.bind, pure, Except.pure] at h
  repeat' split at h
  all_goals cases h
  all_goals exact ⟨rfl, rfl, rfl, rfl⟩

theorem onSubmitResponse_fields (c c2 : EthStratumClient) (f : Json) (e : List Effect)
    (h : onSubmitResponse c f = .ok (c2, e)) :
    c2.version = c.version ∧ c2.hasOnSolutionAccepted = c.hasOnSolutionAccepted ∧
    c2.hasOnSolutionRejected = c.hasOnSolutionRejected ∧ c2.m_stale = c.m_stale := by
  unfold onSubmitResponse at h
  simp only [bind, Except.bind, pure, Except.pure] at h
  repeat' split at h
  all_goals cases h
  all_goals exact ⟨rfl, rfl, rfl, rfl⟩

theorem onSetDifficulty_fields (c c2 : EthStratumClient) (f : Json) (e : List Effect)
    (h : onSetDifficulty c f = .ok (c2, e)) :
    c2.version = c.version ∧ c2.hasOnSolutionAccepted = c.hasOnSolutionAccepted ∧
    c2.hasOnSolutionRejected = c.hasOnSolutionRejected ∧ c2.m_stale = c.m_stale := by
  unfold onSetDifficulty at h
  simp only [bind, Except.bind, pure, Except.pure] at h
  repeat' split at h
  all_goals cases h
  all_goals exact ⟨rfl, rfl, rfl, rfl⟩

theorem onSetExtranonce_fields (L : Lib) (c c2 : EthStratumClient) (f : Json) (e : List Effect)
    (h : onSetExtranonce L c f = .ok (c2, e)) :
    c2.version = c.version ∧ c2.hasOnSolutionAccepted = c.hasOnSolutionAccepted ∧
    c2.hasOnSolutionRejected = c.hasOnSolutionRejected ∧ c2.m_stale = c.m_stale := by
  unfold onSetExtranonce at h
  simp only [bind, Except.bind, pure, Except.pure] at h
  repeat' split at h
  all_goals cases h
  all_goals first
    | exact ⟨rfl, rfl, rfl, rfl⟩
    | (obtain ⟨hx1, -⟩ := processExtranonce_fields _ _ _ _ (by assumption)
       rw [hx1]
       exact ⟨rfl, rfl, rfl, rfl⟩)

/-- `mining.notify` with an array work field: the dialect and callbacks stay, and the
stale flag is set when a response is pending and kept otherwise. -/
theorem onNotify_fields (L : Lib) (c c2 : EthStratumClient) (f : Json) (e : List Effect)
    (h : onNotify L c f = .ok (c2, e)) :
    c2.version = c.version ∧ c2.hasOnSolutionAccepted = c.hasOnSolutionAccepted ∧
    c2.hasOnSolutionRejected = c.hasOnSolutionRejected ∧
    ((∃ ps, f.get (workattr c) .null = .ok (.arr ps)) → c.m_response_pending = true →
      c2.m_stale = true) ∧
    (c2.m_stale = c.m_stale ∨
      (c2.m_stale = true ∧ c.m_response_pending = true ∧
        ∃ ps, f.get (workattr c) .null = .ok (.arr ps))) := by
  unfold onNotify at h
  simp only [bind, Except.bind, pure, Except.pure] at h
  cases hget : f.get (workattr c) .null with
  | error x => rw [hget] at h; cases h
  | ok params =>
    rw [hget] at h
    simp only at h
    cases params with
    | arr ps =>
      simp only [Json.isArray, if_true] at h
      by_cases hp : c.m_response_pending = true
      · simp only [hp, if_true] at h
        repeat' split at h
        all_goals cases h
        all_goals exact ⟨rfl, rfl, rfl, fun _ _ => rfl, Or.inr ⟨rfl, hp, ps, rfl⟩⟩
      · simp only [hp, if_false, Bool.false_eq_true] at h
        repeat' split at h
        all_goals cases h
        all_goals exact ⟨rfl, rfl, rfl, fun _ hpp => absurd hpp hp, Or.inl rfl⟩
    | null | bool _ | int _ | real _ | str _ | obj _ =>
      simp only [Json.isArray, Bool.false_eq_true, if_false] at h
      cases h
      exact ⟨rfl, rfl, rfl, fun ⟨ps, hps⟩ _ => (by cases hps), Or.inl rfl⟩

theorem onMethod_notify (L : Lib) (c : EthStratumClient) (f : Json) (id : Int)
    (hm : responseMethod L c f = .ok "mining.notify".toList) :
    onMethod L c f id = onNotify L c f := by
  unfold onMethod
  simp only [bind, Except.bind, hm, if_true]

theorem processReponse_default (L : Lib) (c : EthStratumClient) (f : Json) (id : Int)
    (hid : responseId L f = .ok id) (h1 : id ≠ 1) (h2 : id ≠ 2) (h3 : id ≠ 3) (h4 : id ≠ 4) :
    processReponse L c f = onMethod L c f id := by
  unfold processReponse
  simp only [bind, Except.bind, hid, if_neg h1, if_neg h2, if_neg h3, if_neg h4]

theorem processReponse_notify (L : Lib) (c : EthStratumClient) (f : Json) (ps : List Json)
    (hn : IsNotify L c f ps) : processReponse L c f = onNotify L c f := by
  obtain ⟨⟨id, hid, h1, h2, h3, h4⟩, hm, -⟩ := hn
  rw [processReponse_default L c f id hid h1 h2 h3 h4, onMethod_notify L c f id hm]

/-- What `processReponse` leaves alone: the dialect and the callbacks, and the stale flag
unless the frame is a `mining.notify` with an array work field that arrives while a
response is pending, which sets it. -/
theorem processReponse_fields (L : Lib) (c c2 : EthStratumClient) (f : Json) (e : List Effect)
    (h : processReponse L c f = .ok (c2, e)) :
    c2.version = c.version ∧
    c2.hasOnSolutionAccepted = c.hasOnSolutionAccepted ∧
    c2.hasOnSolutionRejected = c.hasOnSolutionRejected ∧
    (c2.m_stale = c.m_stale ∨
      (c2.m_stale = true ∧ c.m_response_pending = true ∧ ∃ ps, IsNotify L c f ps)) := by
  cases hid : responseId L f with
  | error x =>
    unfold processReponse at h
    simp only [bind, Except.bind, hid] at h
    cases h
  | ok id =>
    by_cases h1 : id = 1
    · unfold processReponse at h
      simp only [bind, Except.bind, hid, if_pos h1] at h
      obtain ⟨a, b, c', d⟩ := onSubscribed_fields L c c2 f e h
      exact ⟨a, b, c', Or.inl d⟩
    by_cases h2 : id = 2
    · unfold processReponse at h
      simp only [bind, Except.bind, pure, Except.pure, hid, if_neg h1, if_pos h2] at h
      cases h
      exact ⟨rfl, rfl, rfl, Or.inl rfl⟩
    by_cases h3 : id = 3
    · unfold processReponse at h
      simp only [bind, Except.bind, hid, if_neg h1, if_neg h2, if_pos h3] at h
      obtain ⟨a, b, c', d⟩ := onAuthorized_fields c c2 f e h
      exact ⟨a, b, c', Or.inl d⟩
    by_cases h4 : id = 4
    · unfold processReponse at h
      simp only [bind, Except.bind, hid, if_neg h1, if_neg h2, if_neg h3, if_pos h4] at h
      obtain ⟨a, b, c', d⟩ := onSubmitResponse_fields c c2 f e h
      exact ⟨a, b, c', Or.inl d⟩
    rw [processReponse_default L c f id hid h1 h2 h3 h4] at h
    unfold onMethod at h
    simp only [bind, Except.bind, pure, Except.pure] at h
    cases hm : responseMethod L c f with
    | error x => rw [hm] at h; cases h
    | ok method =>
      rw [hm] at h
      simp only at h
      by_cases hn : method = "mining.notify".toList
      · rw [if_pos hn] at h
        obtain ⟨a, b, c', -, d⟩ := onNotify_fields L c c2 f e h
        refine ⟨a, b, c', ?_⟩
        rcases d with d | ⟨d1, d2, ps, d3⟩
        · exact Or.inl d
        · exact Or.inr ⟨d1, d2, ps, ⟨id, hid, h1, h2, h3, h4⟩, by rw [hm, hn], d3⟩
      · rw [if_neg hn] at h
        split at h
        · obtain ⟨a, b, c', d⟩ := onSetDifficulty_fields c c2 f e h
          exact ⟨a, b, c', Or.inl d⟩
        · split at h
          · obtain ⟨a, b, c', d⟩ := onSetExtranonce_fields L c c2 f e h
            exact ⟨a, b, c', Or.inl d⟩
          · split at h <;> cases h <;> exact ⟨rfl, rfl, rfl, Or.inl rfl⟩

theorem isNotify_congr (L : Lib) (c c2 : EthStratumClient) (f : Json) (ps : List Json)
    (hv : c2.version = c.version) (h : IsNotify L c2 f ps) : IsNotify L c f ps := by
  unfold IsNotify responseMethod workattr at *
  rw [hv] at h
  exact h

theorem run_fields (L : Lib) (fs : List Json) (c c2 : EthStratumClient) (e : List Effect)
    (h : run L c fs = .ok (c2, e)) :
    c2.version = c.version ∧ c2.hasOnSolutionAccepted = c.hasOnSolutionAccepted ∧
    c2.hasOnSolutionRejected = c.hasOnSolutionRejected := by
  induction fs generalizing c e with
  | nil =>
    simp only [run, Except.ok.injEq, Prod.mk.injEq] at h
    obtain ⟨rfl, -⟩ := h
    exact ⟨rfl, rfl, rfl⟩
  | cons f fs ih =>
    simp only [run] at h
    cases hp : processReponse L c f with
    | error x => rw [hp] at h; cases h
    | ok r =>
      obtain ⟨c1, e1⟩ := r
      rw [hp] at h
      simp only at h
      cases hr : run L c1 fs with
      | error x => rw [hr] at h; cases h
      | ok r2 =>
        obtain ⟨c3, e3⟩ := r2
        rw [hr] at h
        simp only [Except.ok.injEq, Prod.mk.injEq] at h
        obtain ⟨rfl, -⟩ := h
        obtain ⟨v, a, b, -⟩ := processReponse_fields L c c1 f e1 hp
        obtain ⟨i1, i2, i3⟩ := ih c1 e3 hr
        exact ⟨by rw [i1, v], by rw [i2, a], by rw [i3, b]⟩

/-- Once set, the stale flag stays set through any frames. -/
theorem run_stale_true (L : Lib) (fs : List Json) (c c2 : EthStratumClient) (e : List Effect)
    (h : run L c fs = .ok (c2, e)) (hs : c.m_stale = true) :
    c2.m_stale = true ∧ c2.hasOnSolutionAccepted = c.hasOnSolutionAccepted ∧
    c2.hasOnSolutionRejected = c.hasOnSolutionRejected := by
  induction fs generalizing c e with
  | nil =>
    simp only [run, Except.ok.injEq, Prod.mk.injEq] at h
    obtain ⟨rfl, -⟩ := h
    exact ⟨hs, rfl, rfl⟩
  | cons f fs ih =>
    simp only [run] at h
    cases hp : processReponse L c f with
    | error x => rw [hp] at h; cases h
    | ok r =>
      obtain ⟨c1, e1⟩ := r
      rw [hp] at h
      simp only at h
      cases hr : run L c1 fs with
      | error x => rw [hr] at h; cases h
      | ok r2 =>
        obtain ⟨c3, e3⟩ := r2
        rw [hr] at h
        simp only [Except.ok.injEq, Prod.mk.injEq] at h
        obtain ⟨rfl, -⟩ := h
        obtain ⟨-, a, b, d⟩ := processReponse_fields L c c1 f e1 hp
        have hs1 : c1.m_stale = true := by
          rcases d with d | ⟨d, -⟩
          · rw [d, hs]
          · exact d
        obtain ⟨i1, i2, i3⟩ := ih c1 e3 hr hs1
        exact ⟨i1, by rw [i2, a], by rw [i3, b]⟩

/-- Frames that are not `mining.notify` frames with an array work field leave the stale
flag as it is. -/
theorem run_stale_keep (L : Lib) (fs : List Json) (c0 c c2 : EthStratumClient)
    (e : List Effect) (hv : c.version = c0.version)
    (hfs : ∀ f, f ∈ fs → ¬ ∃ ps, IsNotify L c0 f ps)
    (h : run L c fs = .ok (c2, e)) :
    c2.m_stale = c.m_stale ∧ c2.hasOnSolutionAccepted = c.hasOnSolutionAccepted ∧
    c2.hasOnSolutionRejected = c.hasOnSolutionRejected := by
  induction fs generalizing c e with
  | nil =>
    simp only [run, Except.ok.injEq, Prod.mk.injEq] at h
    obtain ⟨rfl, -⟩ := h
    exact ⟨rfl, rfl, rfl⟩
  | cons f fs ih =>
    simp only [run] at h
    cases hp : processReponse L c f with
    | error x => rw [hp] at h; cases h
    | ok r =>
      obtain ⟨c1, e1⟩ := r
      rw [hp] at h
      simp only at h
      cases hr : run L c1 fs with
      | error x => rw [hr] at h; cases h
      | ok r2 =>
        obtain ⟨c3, e3⟩ := r2
        rw [hr] at h
        simp only [Except.ok.injEq, Prod.mk.injEq] at h
        obtain ⟨rfl, -⟩ := h
        obtain ⟨v, a, b, d⟩ := processReponse_fields L c c1 f e1 hp
        have hs1 : c1.m_stale = c.m_stale := by
          rcases d with d | ⟨-, -, ps, hn⟩
          · exact d
          · exact absurd ⟨ps, isNotify_congr L c0 c f ps hv hn⟩
              (hfs f (List.mem_cons_self _ _))
        obtain ⟨i1, i2, i3⟩ := ih c1 e3 (by rw [v, hv])
          (fun g hg => hfs g (List.mem_cons_of_mem _ hg)) hr
        exact ⟨by rw [i1, hs1], by rw [i2, a], by rw [i3, b]⟩

theorem submitSolution_fields (c c1 : EthStratumClient) (sol : Solution) (e1 : List Effect)
    (h : submitSolution c sol = .ok (c1, e1)) :
    c1 = { c with m_stale := sol.stale, m_response_pending := true } := by
  unfold submitSolution at h
  simp only [bind, Except.bind, pure, Except.pure] at h
  repeat' split at h
  all_goals cases h
  all_goals rfl

/-- C3 (amended): after `submitSolution`, for an id=4 response whose `result` converts to
a boolean `b` (`asBool`): (1) if a `mining.notify` frame with an array work field is
processed while the response is pending, the id=4 response (whatever frames come between)
invokes `on_solution_accepted(true)` when `b` is true and `on_solution_rejected(true)` when
it is false, if that callback is set, and nothing else but the timer cancel; (2) if no such
`mining.notify` frame is processed before the id=4 response, the callback receives the
stale flag of the submitted solution. -/
theorem stale_flag_forwarded (L : Lib) (c c1 : EthStratumClient) (sol : Solution)
    (e1 : List Effect) (hsub : submitSolution c sol = .ok (c1, e1)) :
    (∀ (pre mid : List Json) (nf resp : Json) (ps : List Json) (b : Bool)
        (c2 c3 c4 : EthStratumClient) (e2 e3 e4 : List Effect),
      run L c1 pre = .ok (c2, e2) → c2.m_response_pending = true →
      IsNotify L c nf ps → processReponse L c2 nf = .ok (c3, e3) →
      run L c3 mid = .ok (c4, e4) → IsSubmitResponse L resp b →
      ∃ c5, processReponse L c4 resp = .ok (c5, Effect.cancelResponseTimer ::
        (if b then
          (if c.hasOnSolutionAccepted = true then [Effect.solutionAccepted true] else [])
         else
          (if c.hasOnSolutionRejected = true then [Effect.solutionRejected true] else [])))) ∧
    (∀ (fs : List Json) (resp : Json) (b : Bool) (c2 : EthStratumClient) (e2 : List Effect),
      (∀ f, f ∈ fs → ¬ ∃ ps, IsNotify L c f ps) →
      run L c1 fs = .ok (c2, e2) → IsSubmitResponse L resp b →
      ∃ c3, processReponse L c2 resp = .ok (c3, Effect.cancelResponseTimer ::
        (if b then
          (if c.hasOnSolutionAccepted = true then [Effect.solutionAccepted sol.stale] else [])
         else
          (if c.hasOnSolutionRejected = true then [Effect.solutionRejected sol.stale]
           else [])))) := by
  have hsr : ∀ (c0 : EthStratumClient) (resp : Json) (b : Bool), IsSubmitResponse L resp b →
      processReponse L c0 resp = .ok ({ c0 with m_response_pending := false },
        Effect.cancelResponseTimer ::
          (if b then
            (if c0.hasOnSolutionAccepted = true then [Effect.solutionAccepted c0.m_stale]
             else [])
           else
            (if c0.hasOnSolutionRejected = true then [Effect.solutionRejected c0.m_stale]
             else []))) := by
    intro c0 resp b hresp
    obtain ⟨hid, r, hr, hb⟩ := hresp
    unfold processReponse onSubmitResponse callIf
    simp only [bind, Except.bind, pure, Except.pure, hid, hr, hb]
    cases b <;> simp
  have hc1 := submitSolution_fields c c1 sol e1 hsub
  have hv1 : c1.version = c.version := by rw [hc1]
  have ha1 : c1.hasOnSolutionAccepted = c.hasOnSolutionAccepted := by rw [hc1]
  have hr1 : c1.hasOnSolutionRejected = c.hasOnSolutionRejected := by rw [hc1]
  have hs1 : c1.m_stale = sol.stale := by rw [hc1]
  constructor
  · intro pre mid nf resp ps b c2 c3 c4 e2 e3 e4 hpre hpend hn hnf hmid hresp
    obtain ⟨v2, a2, r2⟩ := run_fields L pre c1 c2 e2 hpre
    have hn2 : IsNotify L c2 nf ps := isNotify_congr L c2 c nf ps (by rw [v2, hv1]) hn
    rw [processReponse_notify L c2 nf ps hn2] at hnf
    obtain ⟨-, a3, r3, s3, -⟩ := onNotify_fields L c2 c3 nf e3 hnf
    have hs3 : c3.m_stale = true := s3 ⟨ps, hn2.2.2⟩ hpend
    obtain ⟨s4, a4, r4⟩ := run_stale_true L mid c3 c4 e4 hmid hs3
    refine ⟨{ c4 with m_response_pending := false }, ?_⟩
    rw [hsr c4 resp b hresp, s4, a4, r4, a3, r3, a2, r2, ha1, hr1]
  · intro fs resp b c2 e2 hfs hrun hresp
    obtain ⟨i1, i2, i3⟩ := run_stale_keep L fs c c1 c2 e2 hv1 hfs hrun
    refine ⟨{ c2 with m_response_pending := false }, ?_⟩
    rw [hsr c2 resp b hresp, i1, i2, i3, hs1, ha1, hr1]

end EthStratumClient

/-! ## The stratum client: extranonce, work replacement, submission -/

namespace EthStratumClient

theorem getIdx_arr (ps : List Json) (i : Nat) (d : Json) :
    (Json.arr ps).getIdx i d = .ok (ps.getD i d) := rfl

theorem onAuthorized_extranonce (c c2 : EthStratumClient) (f : Json) (e : List Effect)
    (h : onAuthorized c f = .ok (c2, e)) :
    c2.m_extraNonce = c.m_extraNonce ∧ c2.m_extraNonceHexSize = c.m_extraNonceHexSize ∧
    c2.hasOnWorkReceived = c.hasOnWorkReceived := by
  unfold onAuthorized at h
  simp only [bind, Except.bind, pure, Except.pure] at h
  repeat' split at h
  all_goals cases h
  all_goals exact ⟨rfl, rfl, rfl⟩

theorem onSubmitResponse_extranonce (c c2 : EthStratumClient) (f : Json) (e : List Effect)
    (h : onSubmitResponse c f = .ok (c2, e)) :
    c2.m_extraNonce = c.m_extraNonce ∧ c2.m_extraNonceHexSize = c.m_extraNonceHexSize ∧
    c2.hasOnWorkReceived = c.hasOnWorkReceived := by
  unfold onSubmitResponse at h
  simp only [bind, Except.bind, pure, Except.pure] at h
  repeat' split at h
  all_goals cases h
  all_goals exact ⟨rfl, rfl, rfl⟩

theorem onSetDifficulty_extranonce (c c2 : EthStratumClient) (f : Json) (e : List Effect)
    (h : onSetDifficulty c f = .ok (c2, e)) :
    c2.m_extraNonce = c.m_extraNonce ∧ c2.m_extraNonceHexSize = c.m_extraNonceHexSize ∧
    c2.hasOnWorkReceived = c.hasOnWorkReceived := by
  unfold onSetDifficulty at h
  simp only [bind, Except.bind, pure, Except.pure] at h
  repeat' split at h
  all_goals cases h
  all_goals exact ⟨rfl, rfl, rfl⟩

theorem onNotify_extranonce (L : Lib) (c c2 : EthStratumClient) (f : Json) (e : List Effect)
    (h : onNotify L c f = .ok (c2, e)) :
    c2.m_extraNonce = c.m_extraNonce ∧ c2.m_extraNonceHexSize = c.m_extraNonceHexSize ∧
    c2.hasOnWorkReceived = c.hasOnWorkReceived := by
  unfold onNotify at h
  simp only [bind, Except.bind, pure, Except.pure] at h
  cases hget : f.get (workattr c) .null with
  | error x => rw [hget] at h; cases h
  | ok params =>
    rw [hget] at h
    simp only at h
    cases params with
    | arr ps =>
      simp only [Json.isArray, if_true] at h
      by_cases hp : c.m_response_pending = true
      · simp only [hp, if_true] at h
        repeat' split at h
        all_goals cases h
        all_goals exact ⟨rfl, rfl, rfl⟩
      · simp only [hp, if_false, Bool.false_eq_true] at h
        repeat' split at h
        all_goals cases h
        all_goals exact ⟨rfl, rfl, rfl⟩
    | null | bool _ | int _ | real _ | str _ | obj _ =>
      simp only [Json.isArray, Bool.false_eq_true, if_false] at h
      cases h
      exact ⟨rfl, rfl, rfl⟩

/-- `processReponse` leaves the stored extranonce alone unless the frame is a response
with id 1 or a `mining.set_extranonce`. -/
theorem processReponse_extranonce (L : Lib) (c c2 : EthStratumClient) (f : Json)
    (e : List Effect) (h : processReponse L c f = .ok (c2, e))
    (h1 : responseId L f ≠ .ok 1)
    (hx : responseMethod L c f ≠ .ok "mining.set_extranonce".toList) :
    c2.m_extraNonce = c.m_extraNonce ∧ c2.m_extraNonceHexSize = c.m_extraNonceHexSize ∧
    c2.hasOnWorkReceived = c.hasOnWorkReceived := by
  cases hid : responseId L f with
  | error x =>
    unfold processReponse at h
    simp only [bind, Except.bind, hid] at h
    cases h
  | ok id =>
    have hne1 : id ≠ 1 := fun hc => h1 (by rw [hid, hc])
    by_cases h2 : id = 2
    · unfold processReponse at h
      simp only [bind, Except.bind, pure, Except.pure, hid, if_neg hne1, if_pos h2] at h
      cases h
      exact ⟨rfl, rfl, rfl⟩
    by_cases h3 : id = 3
    · unfold processReponse at h
      simp only [bind, Except.bind, hid, if_neg hne1, if_neg h2, if_pos h3] at h
      exact onAuthorized_extranonce c c2 f e h
    by_cases h4 : id = 4
    · unfold processReponse at h
      simp only [bind, Except.bind, hid, if_neg hne1, if_neg h2, if_neg h3, if_pos h4] at h
      exact onSubmitResponse_extranonce c c2 f e h
    rw [processReponse_default L c f id hid hne1 h2 h3 h4] at h
    unfold onMethod at h
    simp only [bind, Except.bind, pure, Except.pure] at h
    cases hm : responseMethod L c f with
    | error x => rw [hm] at h; cases h
    | ok method =>
      rw [hm] at h
      simp only at h
      have hmx : method ≠ "mining.set_extranonce".toList := fun hc => hx (by rw [hm, hc])
      by_cases hn : method = "mining.notify".toList
      · rw [if_pos hn] at h
        exact onNotify_extranonce L c c2 f e h
      · rw [if_neg hn] at h
        split at h
        · exact onSetDifficulty_extranonce c c2 f e h
        · rw [if_neg (fun hc => hmx hc.1)] at h
          split at h <;> cases h <;> exact ⟨rfl, rfl, rfl⟩

theorem responseMethod_congr (L : Lib) (c c2 : EthStratumClient) (f : Json)
    (hv : c2.version = c.version) : responseMethod L c2 f = responseMethod L c f := by
  unfold responseMethod
  rw [hv]

/-- Frames that are neither responses with id 1 nor `mining.set_extranonce` leave the
stored extranonce, the dialect and the work callback as they are. -/
theorem run_extranonce (L : Lib) (fs : List Json) (c0 c c2 : EthStratumClient)
    (e : List Effect) (hv : c.version = c0.version)
    (hfs : ∀ f, f ∈ fs → responseId L f ≠ .ok 1 ∧
      responseMethod L c0 f ≠ .ok "mining.set_extranonce".toList)
    (h : run L c fs = .ok (c2, e)) :
    c2.m_extraNonce = c.m_extraNonce ∧ c2.m_extraNonceHexSize = c.m_extraNonceHexSize ∧
    c2.hasOnWorkReceived = c.hasOnWorkReceived ∧ c2.version = c.version := by
  induction fs generalizing c e with
  | nil =>
    simp only [run, Except.ok.injEq, Prod.mk.injEq] at h
    obtain ⟨rfl, -⟩ := h
    exact ⟨rfl, rfl, rfl, rfl⟩
  | cons f fs ih =>
    simp only [run] at h
    cases hp : processReponse L c f with
    | error x => rw [hp] at h; cases h
    | ok r =>
      obtain ⟨c1, e1⟩ := r
      rw [hp] at h
      simp only at h
      cases hr : run L c1 fs with
      | error x => rw [hr] at h; cases h
      | ok r2 =>
        obtain ⟨c3, e3⟩ := r2
        rw [hr] at h
        simp only [Except.ok.injEq, Prod.mk.injEq] at h
        obtain ⟨rfl, -⟩ := h
        obtain ⟨v, -⟩ := processReponse_fields L c c1 f e1 hp
        obtain ⟨g1, g2⟩ := hfs f (List.mem_cons_self _ _)
        obtain ⟨a1, a2, a3⟩ := processReponse_extranonce L c c1 f e1 hp g1
          (by rw [responseMethod_congr L c0 c f hv]; exact g2)
        obtain ⟨i1, i2, i3, i4⟩ := ih c1 e3 (by rw [v, hv])
          (fun g hg => hfs g (List.mem_cons_of_mem _ hg)) hr
        exact ⟨by rw [i1, a1], by rw [i2, a2], by rw [i3, a3], by rw [i4, v]⟩

theorem diffToTarget_one : diffToTarget (Dbl.ofNat 1) =
    some ([0, 0, 0, 0, 255, 255, 0, 0] ++ List.replicate 24 0) := by decide

theorem padExtranonce_length (e : Str) (h : e.length ≤ 16) : (padExtranonce e).length = 16 := by
  simp [padExtranonce]; omega

theorem padExtranonce_hex (e : Str) (h : ∀ ch, ch ∈ e → (hexVal ch).isSome) :
    ∀ ch, ch ∈ padExtranonce e → (hexVal ch).isSome := by
  intro ch hch
  simp only [padExtranonce, List.mem_append, List.mem_replicate] at hch
  rcases hch with hch | ⟨-, rfl⟩
  · exact h ch hch
  · decide

/-- The subscribe response under ETHEREUMSTRATUM stores the extranonce and resets the
difficulty to 1. -/
theorem processReponse_subscribed (L : Lib) (c : EthStratumClient)
    (hv : c.version = .ETHEREUMSTRATUM) (sub : Json) (elems : List Json)
    (hsub : IsSubscribeResponse L sub elems) (enonce : Str)
    (he : workString L elems 1 = .ok enonce) (bs : Bytes)
    (hb : L.h64 (padExtranonce enonce) = some bs) :
    ∃ e1, processReponse L c sub =
      .ok ({ c with m_nextWorkDifficulty := Dbl.ofNat 1, m_extraNonceHexSize := enonce.length,
                    m_extraNonce := bs }, e1) := by
  obtain ⟨hid, hres⟩ := hsub
  unfold workString at he
  unfold processReponse onSubscribed
  simp only [bind, Except.bind, pure, Except.pure, hid, hv, hres, if_true, Json.isArray,
    getIdx_arr, he, processExtranonce, hb]
  exact ⟨_, rfl⟩

/-- The start nonce computed from eight stored extranonce bytes is their big-endian
value. -/
theorem startNonce_of_bytes (bs : Bytes) (hlen : bs.length = 8) (hb : ∀ b, b ∈ bs → b < 256) :
    ethash_swap_u64 (loadU64LE bs) = beValue bs := by
  match bs, hlen, hb with
  | [b0, b1, b2, b3, b4, b5, b6, b7], _, hb =>
    exact swap_load b0 b1 b2 b3 b4 b5 b6 b7 (hb _ (by simp)) (hb _ (by simp)) (hb _ (by simp))
      (hb _ (by simp)) (hb _ (by simp)) (hb _ (by simp)) (hb _ (by simp)) (hb _ (by simp))

/-- C2 (amended): under ETHEREUMSTRATUM, after a subscribe response whose `result[1]` is a
string of `L ≤ 16` hex digits (which the hash constructor reads as the eight bytes its
padded form spells), and after any further frames that are neither responses with id 1 nor
`mining.set_extranonce` (such as the responses to the authorize and extranonce-subscribe
requests the client sends next), a well-formed `mining.notify` hands to `on_work_received`,
when it is set, and stores as current a Work with `ex_size_bits = 4 * L` and
`start_nonce = x`, the 64-bit value of the extranonce right-padded with `0` to 16 hex
digits (not the byte swap of `x`). -/
theorem extranonce_start_nonce (L : Lib) (c : EthStratumClient)
    (hv : c.version = .ETHEREUMSTRATUM) (sub : Json) (elems : List Json)
    (hsub : IsSubscribeResponse L sub elems) (enonce : Str)
    (he : workString L elems 1 = .ok enonce) (hlen : enonce.length ≤ 16)
    (hhex : ∀ ch, ch ∈ enonce → (hexVal ch).isSome)
    (hlib : L.h64 (padExtranonce enonce) = bytesOfHex (padExtranonce enonce))
    (mid : List Json)
    (hmid : ∀ f, f ∈ mid → responseId L f ≠ .ok 1 ∧
      responseMethod L c f ≠ .ok "mining.set_extranonce".toList)
    (nf : Json) (ps : List Json) (hn : IsNotify L c nf ps) (job sSeed sHeader : Str)
    (hj : workString L ps 0 = .ok job) (hs : workString L ps 1 = .ok sSeed)
    (hh : workString L ps 2 = .ok sHeader) (hne : sHeader ≠ [] ∧ sSeed ≠ [])
    (header seed jobHash : Bytes)
    (p1 : L.h256 sHeader = some header) (p2 : L.h256 sSeed = some seed)
    (p3 : L.h256 ((job ++ List.replicate (64 - job.length) '0').take 64) = some jobHash) :
    ∃ c1 e1 x,
      processReponse L c sub = .ok (c1, e1) ∧
      hexValue (padExtranonce enonce) = some x ∧
      ∀ c2 e2 boundary, run L c1 mid = .ok (c2, e2) →
        diffToTarget c2.m_nextWorkDifficulty = some boundary →
        ∃ c3 w,
          processReponse L c2 nf =
            .ok (c3, Effect.resetWorkTimeout ::
              (if c.hasOnWorkReceived = true then [Effect.workReceived w] else [])) ∧
          c3.m_current = w ∧ w.exSizeBits = 4 * enonce.length ∧ w.startNonce = x ∧
          w.header = header ∧ w.seed = seed ∧ w.boundary = boundary := by
  obtain ⟨bs, hbs⟩ := bytesOfHex_isSome 8 (padExtranonce enonce)
    (by rw [padExtranonce_length enonce hlen]) (padExtranonce_hex enonce hhex)
  obtain ⟨-, hl, hlt⟩ := bytesOfHex_value bs (padExtranonce enonce) 0 hbs
  rw [padExtranonce_length enonce hlen] at hl
  have hval := hexValue_bytesOfHex bs (padExtranonce enonce) hbs
  obtain ⟨e1, h1⟩ := processReponse_subscribed L c hv sub elems hsub enonce he bs
    (by rw [hlib, hbs])
  refine ⟨_, e1, beValue bs, h1, hval, ?_⟩
  intro c2 e2 boundary hrun hdiff
  obtain ⟨k1, k2, k3, k4⟩ := run_extranonce L mid c
    { c with m_nextWorkDifficulty := Dbl.ofNat 1, m_extraNonceHexSize := enonce.length,
             m_extraNonce := bs } c2 e2 rfl hmid hrun
  simp only at k1 k2 k3 k4
  have hv2 : c2.version = .ETHEREUMSTRATUM := by rw [k4]; exact hv
  have hn2 : IsNotify L c2 nf ps := isNotify_congr L c2 c nf ps (by rw [hv2, hv]) hn
  have hnotify : ∃ c3, processReponse L c2 nf =
      .ok (c3, Effect.resetWorkTimeout ::
        (if c2.hasOnWorkReceived = true then [Effect.workReceived
          { c2.m_current with
            header := header, seed := seed, boundary := boundary,
            startNonce := ethash_swap_u64 (loadU64LE c2.m_extraNonce),
            exSizeBits := c2.m_extraNonceHexSize * 4,
            job_len := job.length, job := jobHash }] else [])) ∧
      c3.m_current =
        { c2.m_current with
          header := header, seed := seed, boundary := boundary,
          startNonce := ethash_swap_u64 (loadU64LE c2.m_extraNonce),
          exSizeBits := c2.m_extraNonceHexSize * 4,
          job_len := job.length, job := jobHash } := by
    rw [processReponse_notify L c2 nf ps hn2]
    obtain ⟨-, -, hget⟩ := hn2
    unfold workString at hj hs hh
    unfold onNotify notifyEthereumStratum callIf
    have hc : (sHeader ≠ [] ∧ sSeed ≠ []) = True := eq_true hne
    cases hp : c2.m_response_pending <;>
      simp only [bind, Except.bind, pure, Except.pure, hget, Json.isArray, getIdx_arr, hj, hs,
        hh, hv2, hc, p1, p2, p3, hdiff, Option.elim, if_true, Bool.false_eq_true, if_false] <;>
      exact ⟨_, rfl, rfl⟩
  obtain ⟨c3, h2, h3⟩ := hnotify
  rw [k1, k2, k3] at h2
  rw [k1, k2] at h3
  refine ⟨c3, _, h2, h3, ?_, ?_, rfl, rfl, rfl⟩
  · show enonce.length * 4 = 4 * enonce.length
    omega
  · exact startNonce_of_bytes bs (by omega) hlt

theorem sample_subscribed :
    processReponse specLib (sample .ETHEREUMSTRATUM) (framesE1.getD 0 .null) =
      .ok (sampleSubscribed.1, sampleSubscribed.2) := rfl

theorem sample_authorized :
    run specLib sampleSubscribed.1 framesAuth = .ok (sampleAuthorized.1, sampleAuthorized.2) :=
  rfl

theorem extranonce_start_nonce_witness :
    (∃ c1 e1 c2 e2 c3 w,
      processReponse specLib (sample .ETHEREUMSTRATUM) (framesE1.getD 0 .null) = .ok (c1, e1) ∧
      run specLib c1 framesAuth = .ok (c2, e2) ∧
      processReponse specLib c2 (framesE1.getD 1 .null) =
        .ok (c3, [Effect.resetWorkTimeout, Effect.workReceived w]) ∧
      c3.m_current = w ∧ w.exSizeBits = 16 ∧ w.startNonce = 0xaf42000000000000) ∧
    (run specLib (sample .ETHEREUMSTRATUM)
        (framesE1.getD 0 .null :: framesAuth ++ [framesE1.getD 1 .null])).toOption.map
      (fun r => (r.1.m_current.startNonce, r.1.m_current.exSizeBits, r.2.getLast?)) =
      some (0xaf42000000000000, 16,
        some (Effect.workReceived
          { header := List.replicate 32 0x22, seed := List.replicate 32 0x11,
            boundary := [0, 0, 0, 0, 255, 255, 0, 0] ++ List.replicate 24 0,
            job := 0xab :: List.replicate 31 0,
            startNonce := 0xaf42000000000000, exSizeBits := 16, job_len := 2 })) := by
  refine ⟨?_, by decide⟩
  obtain ⟨c1, e1, x, h1, hx, h⟩ :=
    extranonce_start_nonce specLib (sample .ETHEREUMSTRATUM) rfl (framesE1.getD 0 .null)
      [.null, .str "af42".toList] ⟨by decide, rfl⟩ "af42".toList (by decide) (by decide)
      (by decide) (by decide) framesAuth (by decide) (framesE1.getD 1 .null)
      [.str "ab".toList, .str (hashString '1'), .str (hashString '2'), .str [], .bool true]
      ⟨⟨0, by decide, by decide, by decide, by decide, by decide⟩, by decide, rfl⟩
      "ab".toList (hashString '1') (hashString '2') (by decide) (by decide) (by decide)
      (by decide) (List.replicate 32 0x22) (List.replicate 32 0x11)
      (0xab :: List.replicate 31 0) (by decide) (by decide) (by decide)
  have hc : (c1, e1) = (sampleSubscribed.1, sampleSubscribed.2) := by
    have := h1.symm.trans sample_subscribed
    simpa using this
  simp only [Prod.mk.injEq] at hc
  obtain ⟨rfl, rfl⟩ := hc
  have hxv : hexValue (padExtranonce "af42".toList) = some 0xaf42000000000000 := by decide
  rw [hxv] at hx
  simp only [Option.some.injEq] at hx
  subst hx
  obtain ⟨c3, w, g1, g2, g3, g4, -⟩ := h sampleAuthorized.1 sampleAuthorized.2
    ([0, 0, 0, 0, 255, 255, 0, 0] ++ List.replicate 24 0) sample_authorized (by decide)
  exact ⟨_, _, _, _, c3, w, sample_subscribed, sample_authorized, g1, g2, g3, g4⟩

/-- C2 as stated fails: for the extranonce `af42` the published Work has
`ex_size_bits = 16` and `start_nonce = 0xaf42000000000000`, while
`byteswap_u64(0xaf42000000000000)` is `0x42af`. -/
theorem extranonce_af42_not_swapped :
    (run specLib (sample .ETHEREUMSTRATUM) framesE1).toOption.map
        (fun r => (r.1.m_current.startNonce, r.1.m_current.exSizeBits, r.2.getLast?)) =
      some (0xaf42000000000000, 16,
        some (Effect.workReceived
          { header := List.replicate 32 0x22, seed := List.replicate 32 0x11,
            boundary := [0, 0, 0, 0, 255, 255, 0, 0] ++ List.replicate 24 0,
            job := 0xab :: List.replicate 31 0,
            startNonce := 0xaf42000000000000, exSizeBits := 16, job_len := 2 })) ∧
    hexValue (padExtranonce "af42".toList) = some 0xaf42000000000000 ∧
    ethash_swap_u64 0xaf42000000000000 = 0x42af ∧
    (0xaf42000000000000 : Nat) ≠ ethash_swap_u64 0xaf42000000000000 := by
  refine ⟨by decide, by decide, by decide, by decide⟩

theorem fixShareTarget_short (s : Str) (h : s.length < 2) :
    fixShareTarget s = .error .outOfRange := by
  unfold fixShareTarget substrFrom
  have hl : s.length < 66 := by omega
  simp only [hl, if_true, bind, Except.bind, h]

/-- C5, the code at the failing input: under STRATUM and ETHPROXY a `mining.notify` whose
share target is absent, empty or one character long makes `processReponse` raise
`std::out_of_range` (from `sShareTarget.substr(2)`) instead of skipping the frame. -/
theorem notify_short_target_raises (L : Lib) (c : EthStratumClient)
    (hv : c.version ≠ .ETHEREUMSTRATUM) (nf : Json) (ps : List Json) (hn : IsNotify L c nf ps)
    (job sHeader sSeed sTarget : Str)
    (hj : workString L ps 0 = .ok job) (hh : workString L ps (workIndex c) = .ok sHeader)
    (hs : workString L ps (workIndex c + 1) = .ok sSeed)
    (ht : workString L ps (workIndex c + 2) = .ok sTarget)
    (htl : sTarget.length < 2) :
    processReponse L c nf = .error .outOfRange := by
  rw [processReponse_notify L c nf ps hn]
  obtain ⟨-, -, hget⟩ := hn
  have hfix := fixShareTarget_short sTarget htl
  unfold workString at hj hh hs ht
  have hv2 : (c.version = StratumProtocol.ETHEREUMSTRATUM) = False := eq_false hv
  unfold onNotify notifyStratum
  cases hp : c.m_response_pending <;>
    simp only [bind, Except.bind, pure, Except.pure, hget, Json.isArray, getIdx_arr, hj, hs,
      hh, ht, hv2, hfix, if_true, Bool.false_eq_true, if_false]

theorem notify_short_target_raises_witness :
    processReponse specLib (sample .STRATUM) (framesE4.getD 1 .null) = .error .outOfRange :=
  notify_short_target_raises specLib (sample .STRATUM) (by decide) (framesE4.getD 1 .null)
    [.str (hashString '4'), .str (hashString '1'), .str (hashString '2')]
    ⟨⟨0, by decide, by decide, by decide, by decide, by decide⟩, by decide, rfl⟩
    (hashString '4') (hashString '1') (hashString '2') [] (by decide) (by decide) (by decide)
    (by decide) (by decide)

theorem pow_two_nibbles (n : Nat) (h : n ≤ 16) : 2 ^ (64 - 4 * n) = 16 ^ (16 - n) := by
  have e : 64 - 4 * n = 4 * (16 - n) := by omega
  rw [e, pow_mul]
  norm_num

theorem hexOfBytes_lower (bs : Bytes) : ∀ ch, ch ∈ hexOfBytes bs → IsLowerHex ch := by
  induction bs with
  | nil => intro ch h; simp [hexOfBytes] at h
  | cons b bs ih =>
    intro ch h
    simp only [hexOfBytes, List.mem_cons] at h
    rcases h with rfl | rfl | h
    · exact ⟨_, Nat.mod_lt _ (by norm_num), rfl⟩
    · exact ⟨_, Nat.mod_lt _ (by norm_num), rfl⟩
    · exact ih ch h

theorem hexValueAux_lower_isSome (s : Str) (acc : Nat) (h : ∀ ch, ch ∈ s → IsLowerHex ch) :
    ∃ v, hexValueAux acc s = some v := by
  induction s generalizing acc with
  | nil => exact ⟨acc, rfl⟩
  | cons c cs ih =>
    obtain ⟨v, hv, rfl⟩ := h c (by simp)
    simp only [hexValueAux, hexVal_hexDigit v hv]
    exact ih _ (fun ch hch => h ch (by simp [hch]))

/-- Two strings of lower-case hex digits of the same length and the same value are the
same string. -/
theorem lowerHex_injective (a b : Str) (hlen : a.length = b.length)
    (ha : ∀ ch, ch ∈ a → IsLowerHex ch) (hb : ∀ ch, ch ∈ b → IsLowerHex ch)
    (hv : hexValue a = hexValue b) : a = b := by
  induction a generalizing b with
  | nil =>
    cases b with
    | nil => rfl
    | cons y ys => simp at hlen
  | cons x xs ih =>
    cases b with
    | nil => simp at hlen
    | cons y ys =>
      obtain ⟨vx, hvx, rfl⟩ := ha x (by simp)
      obtain ⟨vy, hvy, rfl⟩ := hb y (by simp)
      have hxs : ∀ ch, ch ∈ xs → IsLowerHex ch := fun ch hch => ha ch (by simp [hch])
      have hys : ∀ ch, ch ∈ ys → IsLowerHex ch := fun ch hch => hb ch (by simp [hch])
      obtain ⟨rx, hrx⟩ := hexValueAux_lower_isSome xs 0 hxs
      obtain ⟨ry, hry⟩ := hexValueAux_lower_isSome ys 0 hys
      obtain ⟨lx, bx⟩ := hexValueAux_linear xs (0 * 16 + vx) rx hrx
      obtain ⟨ly, bY⟩ := hexValueAux_linear ys (0 * 16 + vy) ry hry
      have hl : xs.length = ys.length := by simpa using hlen
      unfold hexValue at hv
      simp only [hexValueAux, hexVal_hexDigit vx hvx, hexVal_hexDigit vy hvy] at hv
      rw [lx, ly, hl, Option.some.injEq] at hv
      rw [hl] at bx
      have hp : 0 < 16 ^ ys.length := Nat.pos_pow_of_pos _ (by norm_num)
      have hvv : vx = vy := by
        have e1 : (rx + (0 * 16 + vx) * 16 ^ ys.length) / 16 ^ ys.length = vx := by
          rw [Nat.add_mul_div_right _ _ hp, Nat.div_eq_of_lt bx]; omega
        have e2 : (ry + (0 * 16 + vy) * 16 ^ ys.length) / 16 ^ ys.length = vy := by
          rw [Nat.add_mul_div_right _ _ hp, Nat.div_eq_of_lt bY]; omega
        rw [← e1, ← e2, hv]
      subst hvv
      have hrr : rx = ry := by omega
      have := ih ys hl hxs hys (by unfold hexValue; rw [hrx, hry, hrr])
      rw [this]

/-- The first `n` digits of the 16-digit encoding of a nonce have the value of its top
`4n` bits. -/
theorem hexValue_take_toHex (nonce : Nat) (hn : nonce < 2 ^ 64) (n : Nat) (h : n ≤ 16) :
    hexValue ((toHex nonce).take n) = some (nonce / 2 ^ (64 - 4 * n)) ∧
    ∃ vb, hexValue ((toHex nonce).drop n) = some vb ∧
      vb + nonce / 2 ^ (64 - 4 * n) * 16 ^ (16 - n) = nonce := by
  have htot := hexValue_toHex nonce hn
  have hsplit : toHex nonce = (toHex nonce).take n ++ (toHex nonce).drop n :=
    (List.take_append_drop n _).symm
  have hdl : ((toHex nonce).drop n).length = 16 - n := by
    rw [List.length_drop, toHex_length]
  unfold hexValue at htot ⊢
  rw [hsplit, hexValueAux_append] at htot
  cases ht : hexValueAux 0 ((toHex nonce).take n) with
  | none => rw [ht] at htot; simp at htot
  | some va =>
    rw [ht] at htot
    simp only [Option.some_bind] at htot
    cases hd : hexValueAux 0 ((toHex nonce).drop n) with
    | none =>
      have := hexValueAux_add ((toHex nonce).drop n) 0 va
      rw [Nat.zero_add, hd] at this
      rw [this] at htot
      simp at htot
    | some vb =>
      obtain ⟨l1, l2⟩ := hexValueAux_linear ((toHex nonce).drop n) va vb hd
      rw [l1] at htot
      simp only [Option.some.injEq] at htot
      rw [hdl] at htot l2
      have hq : nonce / 16 ^ (16 - n) = va := by
        rw [← htot]
        have hp : 0 < 16 ^ (16 - n) := Nat.pos_pow_of_pos _ (by norm_num)
        rw [Nat.add_mul_div_right _ _ hp, Nat.div_eq_of_lt l2]; omega
      rw [pow_two_nibbles n h, hq]
      exact ⟨rfl, vb, rfl, htot⟩

/-- A prefix of hex digits that has the value of the top `4n` bits of a nonce, followed
by the last `16 - n` digits of the nonce, reads as the nonce. -/
theorem hexValue_prefix_suffix (nonce : Nat) (hn : nonce < 2 ^ 64) (n : Nat) (h : n ≤ 16)
    (e : Str) (he : hexValue e = some (nonce / 2 ^ (64 - 4 * n))) :
    hexValue (e ++ (toHex nonce).drop n) = some nonce := by
  obtain ⟨-, vb, hvb, hsum⟩ := hexValue_take_toHex nonce hn n h
  have hdl : ((toHex nonce).drop n).length = 16 - n := by
    rw [List.length_drop, toHex_length]
  unfold hexValue at he hvb ⊢
  obtain ⟨l1, -⟩ := hexValueAux_linear ((toHex nonce).drop n) (nonce / 2 ^ (64 - 4 * n)) vb hvb
  rw [hexValueAux_append, he, Option.some_bind, l1, hdl, hsum]

/-- C10: under ETHEREUMSTRATUM with a stored extranonce of hex length `L ≤ 16`,
`submitSolution` builds the `mining.submit` frame without raising, its nonce parameter is
the last `16 - L` digits of the unprefixed 16-digit hex encoding of the nonce, and an
extranonce of `L` hex digits equal to the top `4L` bits of the nonce followed by that
parameter is 16 digits that read as the nonce, and is the 16-digit encoding itself when
the extranonce is written in lower case. -/
theorem submit_nonce_suffix (c : EthStratumClient) (hv : c.version = .ETHEREUMSTRATUM)
    (hL : c.m_extraNonceHexSize ≤ 16) (sol : Solution) (hn : sol.nonce < 2 ^ 64) :
    (∃ c1, submitSolution c sol = .ok (c1,
      [Effect.cancelResponseTimer,
       Effect.send ("\x7b\"id\": 4, \"method\": \"mining.submit\", \"params\": [\"".toList ++
         c.user ++ "\",\"".toList ++ (hexOfBytes sol.work.job).take sol.work.job_len ++
         "\",\"".toList ++ (toHex sol.nonce).drop c.m_extraNonceHexSize ++
         "\"]\x7d\n".toList),
       Effect.armResponseTimer])) ∧
    ((toHex sol.nonce).drop c.m_extraNonceHexSize).length = 16 - c.m_extraNonceHexSize ∧
    (toHex sol.nonce).length = 16 ∧
    (∀ e : Str, e.length = c.m_extraNonceHexSize →
      hexValue e = some (sol.nonce / 2 ^ (64 - 4 * c.m_extraNonceHexSize)) →
      hexValue (e ++ (toHex sol.nonce).drop c.m_extraNonceHexSize) = some sol.nonce ∧
      (e ++ (toHex sol.nonce).drop c.m_extraNonceHexSize).length = 16 ∧
      ((∀ ch, ch ∈ e → IsLowerHex ch) →
        e ++ (toHex sol.nonce).drop c.m_extraNonceHexSize = toHex sol.nonce)) := by
  have hdl : ((toHex sol.nonce).drop c.m_extraNonceHexSize).length
      = 16 - c.m_extraNonceHexSize := by
    rw [List.length_drop, toHex_length]
  refine ⟨?_, hdl, toHex_length _, ?_⟩
  · have h1 : ¬ (toHex sol.nonce).length < c.m_extraNonceHexSize := by
      rw [toHex_length]; omega
    have h2 : ((toHex sol.nonce).drop c.m_extraNonceHexSize).take (16 - c.m_extraNonceHexSize)
        = (toHex sol.nonce).drop c.m_extraNonceHexSize :=
      List.take_of_length_le (by rw [hdl])
    unfold submitSolution
    simp only [hv, bind, Except.bind, pure, Except.pure, substr, Nat.not_lt_zero, if_false, h1,
      List.drop_zero, h2]
    exact ⟨_, rfl⟩
  · intro e hlen he
    refine ⟨hexValue_prefix_suffix sol.nonce hn _ hL e he, ?_, ?_⟩
    · rw [List.length_append, hlen, hdl]
      omega
    · intro hlow
      have htake : e = (toHex sol.nonce).take c.m_extraNonceHexSize := by
        apply lowerHex_injective e _ _ hlow
        · intro ch hch
          exact hexOfBytes_lower _ ch (List.mem_of_mem_take hch)
        · rw [he, (hexValue_take_toHex sol.nonce hn _ hL).1]
        · rw [List.length_take, toHex_length, hlen]
          omega
      rw [htake, List.take_append_drop]

theorem submit_nonce_suffix_witness :
    ∃ c1, submitSolution { sample .ETHEREUMSTRATUM with m_extraNonceHexSize := 4 }
        (sampleSolution (sample .ETHEREUMSTRATUM) 0xaf42000000000001 false) = .ok (c1,
      [Effect.cancelResponseTimer,
       Effect.send ("\x7b\"id\": 4, \"method\": \"mining.submit\", \"params\": [\"".toList ++
         "alice.worker1".toList ++ "\",\"".toList ++ [] ++
         "\",\"".toList ++ "000000000001".toList ++
         "\"]\x7d\n".toList),
       Effect.armResponseTimer]) :=
  (submit_nonce_suffix { sample .ETHEREUMSTRATUM with m_extraNonceHexSize := 4 } rfl
    (by decide) (sampleSolution (sample .ETHEREUMSTRATUM) 0xaf42000000000001 false)
    (by decide)).1

theorem sample_submitted :
    submitSolution (sample .STRATUM) (sampleSolution (sample .STRATUM) 7 false) =
      .ok (sampleSubmitted.1, sampleSubmitted.2) := rfl

theorem sample_stale :
    processReponse specLib sampleSubmitted.1 (framesE4.getD 0 .null) =
      .ok (sampleStale.1, sampleStale.2) := rfl

theorem stale_flag_forwarded_witness :
    (∃ c5, processReponse specLib sampleStale.1 (response 4 (.bool true)) =
      .ok (c5, [Effect.cancelResponseTimer, Effect.solutionAccepted true])) ∧
    (∃ c3, processReponse specLib sampleSubmitted.1 (response 4 .null) =
      .ok (c3, [Effect.cancelResponseTimer, Effect.solutionRejected false])) ∧
    (processReponse specLib sampleStale.1 (response 4 (.bool true))).toOption.map Prod.snd =
      some [Effect.cancelResponseTimer, Effect.solutionAccepted true] ∧
    (processReponse specLib sampleSubmitted.1 (response 4 .null)).toOption.map Prod.snd =
      some [Effect.cancelResponseTimer, Effect.solutionRejected false] :=
  ⟨(stale_flag_forwarded specLib (sample .STRATUM) sampleSubmitted.1
      (sampleSolution (sample .STRATUM) 7 false) sampleSubmitted.2 sample_submitted).1
      [] [] (framesE4.getD 0 .null) (response 4 (.bool true))
      [.str (hashString '4'), .str (hashString '1'), .str (hashString '2'),
       .str "0x33".toList]
      true sampleSubmitted.1 sampleStale.1 sampleStale.1 [] sampleStale.2 [] rfl rfl
      ⟨⟨0, by decide, by decide, by decide, by decide, by decide⟩, by decide, rfl⟩
      sample_stale rfl ⟨by decide, .bool true, rfl, rfl⟩,
   (stale_flag_forwarded specLib (sample .STRATUM) sampleSubmitted.1
      (sampleSolution (sample .STRATUM) 7 false) sampleSubmitted.2 sample_submitted).2
      [] (response 4 .null) false sampleSubmitted.1 [] (by simp) rfl
      ⟨by decide, .null, rfl, rfl⟩,
   by decide, by decide⟩

/-- C3 as stated fails: the sample client has submitted a solution and its callbacks are
set; an id=4 response whose `result` is the string `rejected`, which is not true, makes
`asBool` raise `Json::LogicError` out of `processReponse`, so neither
`on_solution_accepted` nor `on_solution_rejected` is invoked, with or without a
`mining.notify` in between. -/
theorem submit_response_string_result_raises :
    sampleSubmitted.1.m_response_pending = true ∧
    sampleSubmitted.1.hasOnSolutionAccepted = true ∧
    sampleSubmitted.1.hasOnSolutionRejected = true ∧
    responseId specLib (response 4 (.str "rejected".toList)) = .ok 4 ∧
    (∃ r, (response 4 (.str "rejected".toList)).get "result".toList (.bool false) = .ok r ∧
      r.asBool = .error .jsonLogic) ∧
    processReponse specLib sampleSubmitted.1 (response 4 (.str "rejected".toList))
      = .error .jsonLogic ∧
    processReponse specLib sampleStale.1 (response 4 (.str "rejected".toList))
      = .error .jsonLogic := by
  refine ⟨by decide, by decide, by decide, by decide, ⟨.str "rejected".toList, rfl, rfl⟩,
    by decide, by decide⟩

end EthStratumClient

/-! ## `EthashAux`: the memoized seed hashes -/

namespace EthashAux

variable {H Lt : Type}

theorem seedHash.fill_length (E : Ethash H Lt) (cnt n : Nat) (ret : H) (v : List H) :
    (seedHash.fill E cnt n ret v).length = v.length := by
  induction cnt generalizing n ret v with
  | zero => rfl
  | succ cnt ih => simp [seedHash.fill, ih]

theorem seedHash.fill_get (E : Ethash H Lt) (cnt n : Nat) (v : List H) (i : Nat) :
    (seedHash.fill E cnt n (seedOf E n) v)[i]? =
      if n ≤ i ∧ i < n + cnt ∧ i < v.length then some (seedOf E i) else v[i]? := by
  induction cnt generalizing n v with
  | zero =>
    simp only [seedHash.fill]
    rw [if_neg (by omega)]
  | succ cnt ih =>
    simp only [seedHash.fill]
    have h := ih (n + 1) (v.set n (seedOf E n))
    simp only [seedOf] at h
    rw [h, List.length_set, List.getElem?_set]
    by_cases hin : n = i
    · subst hin
      by_cases hl : n < v.length
      · rw [if_neg (by omega), if_pos rfl, if_pos hl, if_pos (by omega)]
      · rw [if_neg (by omega), if_pos rfl, if_neg hl, if_neg (by omega)]
        simp [List.getElem?_eq_none (not_lt.mp hl)]
    · rw [if_neg hin]
      by_cases hc : n + 1 ≤ i ∧ i < n + 1 + cnt ∧ i < v.length
      · rw [if_pos hc, if_pos (by omega)]
      · rw [if_neg hc, if_neg (by omega)]

theorem resize_length (E : Ethash H Lt) (v : List H) (k : Nat) :
    (resize E v k).length = k := by
  simp [resize]; omega

theorem resize_get (E : Ethash H Lt) (v : List H) (k i : Nat) (hi : i < v.length)
    (hk : v.length ≤ k) : (resize E v k)[i]? = v[i]? := by
  simp only [resize]
  rw [List.take_of_length_le hk, List.getElem?_append_left hi]

theorem seedHash_spec (E : Ethash H Lt) (st : State H Lt) (n : Nat) (hinv : SeedInv E st) :
    (seedHash E st n).1 = seedOf E (n % 2 ^ 32 / ETHASH_EPOCH_LENGTH) ∧
    SeedInv E (seedHash E st n).2 ∧
    n % 2 ^ 32 / ETHASH_EPOCH_LENGTH < (seedHash E st n).2.m_seedHashes.length ∧
    (seedHash E st n).2.m_epochs = st.m_epochs ∧
    (seedHash E st n).2.m_lights = st.m_lights := by
  unfold seedHash
  simp only
  by_cases hge : n % 2 ^ 32 / ETHASH_EPOCH_LENGTH ≥ st.m_seedHashes.length
  · rw [if_pos hge]
    simp only
    by_cases hne : st.m_seedHashes = []
    · -- empty table: filled from index 0
      simp only [hne, List.isEmpty_nil, if_true, List.length_nil, Nat.sub_zero]
      have hz : E.zero = seedOf E 0 := rfl
      rw [hz]
      have hget : ∀ i, i < n % 2 ^ 32 / ETHASH_EPOCH_LENGTH + 1 →
          (seedHash.fill E (n % 2 ^ 32 / ETHASH_EPOCH_LENGTH + 1) 0 (seedOf E 0)
            (resize E [] (n % 2 ^ 32 / ETHASH_EPOCH_LENGTH + 1)))[i]? = some (seedOf E i) := by
        intro i hi
        rw [seedHash.fill_get, if_pos]
        rw [resize_length]
        omega
      refine ⟨?_, ?_, ?_, by trivial, by trivial⟩
      · rw [List.getD_eq_getElem?_getD, hget _ (by omega)]
        rfl
      · intro i hi
        rw [seedHash.fill_length, resize_length] at hi
        exact hget i hi
      · rw [seedHash.fill_length, resize_length]
        omega
    · -- non-empty table: filled from the last entry
      have hpos : 0 < st.m_seedHashes.length := List.length_pos.mpr hne
      have hemp : st.m_seedHashes.isEmpty = false := by
        cases hs : st.m_seedHashes with
        | nil => exact absurd hs hne
        | cons a l => rfl
      simp only [hemp, Bool.false_eq_true, if_false]
      have hlast : st.m_seedHashes.getLastD E.zero = seedOf E (st.m_seedHashes.length - 1) := by
        have h1 := hinv (st.m_seedHashes.length - 1) (by omega)
        rw [List.getLastD_eq_getLast?, List.getLast?_eq_getElem?, h1]
        rfl
      rw [hlast]
      have hget : ∀ i, i < n % 2 ^ 32 / ETHASH_EPOCH_LENGTH + 1 →
          (seedHash.fill E (n % 2 ^ 32 / ETHASH_EPOCH_LENGTH + 1 - (st.m_seedHashes.length - 1))
            (st.m_seedHashes.length - 1) (seedOf E (st.m_seedHashes.length - 1))
            (resize E st.m_seedHashes (n % 2 ^ 32 / ETHASH_EPOCH_LENGTH + 1)))[i]? = some (seedOf E i) := by
        intro i hi
        rw [seedHash.fill_get, resize_length]
        by_cases hc : st.m_seedHashes.length - 1 ≤ i
        · rw [if_pos (by omega)]
        · rw [if_neg (by omega), resize_get E _ _ _ (by omega) (by omega)]
          exact hinv i (by omega)
      refine ⟨?_, ?_, ?_, by trivial, by trivial⟩
      · rw [List.getD_eq_getElem?_getD, hget _ (by omega)]
        rfl
      · intro i hi
        rw [seedHash.fill_length, resize_length] at hi
        exact hget i hi
      · rw [seedHash.fill_length, resize_length]
        omega
  · rw [if_neg hge]
    refine ⟨?_, hinv, by omega, rfl, rfl⟩
    rw [List.getD_eq_getElem?_getD, hinv _ (by omega)]
    rfl

end EthashAux

/-! ## `EthashAux`: the epoch memo of `number` -/

namespace EthashAux

variable {H Lt : Type}

theorem lookup_mem [DecidableEq H] (m : List (H × Nat)) (a : H) (b : Nat)
    (h : m.lookup a = some b) : (a, b) ∈ m := by
  induction m with
  | nil => simp at h
  | cons p m ih =>
    obtain ⟨x, y⟩ := p
    rw [List.lookup_cons] at h
    by_cases hax : a = x
    · subst hax
      simp at h
      subst h
      exact List.mem_cons_self _ _
    · have : (a == x) = false := by simpa using hax
      rw [this] at h
      exact List.mem_cons_of_mem _ (ih h)

theorem lookup_append_isSome [DecidableEq H] (pre m : List (H × Nat)) (a : H)
    (h : (m.lookup a).isSome) : ((pre ++ m).lookup a).isSome := by
  induction pre with
  | nil => simpa using h
  | cons p pre ih =>
    obtain ⟨x, y⟩ := p
    rw [List.cons_append, List.lookup_cons]
    cases hax : a == x <;> simp [ih]

theorem number.walk_spec [DecidableEq H] (E : Ethash H Lt) (seed : H) (left epoch : Nat)
    (m : List (H × Nat)) :
    epoch ≤ (number.walk E seed left epoch (seedOf E epoch) m).1 ∧
    (number.walk E seed left epoch (seedOf E epoch) m).1 ≤ epoch + left ∧
    ((number.walk E seed left epoch (seedOf E epoch) m).1 < epoch + left →
      seedOf E (number.walk E seed left epoch (seedOf E epoch) m).1 = seed) ∧
    (∀ j, epoch ≤ j → j < (number.walk E seed left epoch (seedOf E epoch) m).1 →
      seedOf E j ≠ seed) ∧
    (∀ p, p ∈ (number.walk E seed left epoch (seedOf E epoch) m).2 →
      p ∈ m ∨ (p.1 = seedOf E p.2 ∧ epoch < p.2 ∧ p.2 ≤ epoch + left)) ∧
    (∃ pre, (number.walk E seed left epoch (seedOf E epoch) m).2 = pre ++ m) := by
  induction left generalizing epoch m with
  | zero =>
    simp only [number.walk]
    exact ⟨le_rfl, le_rfl, fun h => absurd h (by omega), fun j h1 h2 => absurd h2 (by omega),
      fun p hp => Or.inl hp, ⟨[], rfl⟩⟩
  | succ left ih =>
    simp only [number.walk]
    by_cases hne : seedOf E epoch ≠ seed
    · rw [if_pos hne, show E.sha3 (seedOf E epoch) = seedOf E (epoch + 1) from rfl]
      obtain ⟨h1, h2, h3, h4, h5, pre, h6⟩ :=
        ih (epoch + 1) ((seedOf E (epoch + 1), epoch + 1) :: m)
      refine ⟨by omega, by omega, fun hlt => h3 (by omega), ?_, ?_, ?_⟩
      · intro j hj1 hj2
        by_cases hje : j = epoch
        · subst hje; exact hne
        · exact h4 j (by omega) hj2
      · intro p hp
        rcases h5 p hp with hmem | ⟨ha, hb, hc⟩
        · rcases List.mem_cons.mp hmem with heq | hm
          · right
            subst heq
            exact ⟨rfl, by simp, by simp⟩
          · exact Or.inl hm
        · exact Or.inr ⟨ha, by omega, by omega⟩
      · exact ⟨pre ++ [(seedOf E (epoch + 1), epoch + 1)], by rw [h6]; simp⟩
    · rw [if_neg hne]
      have hne : seedOf E epoch = seed := by simpa using hne
      exact ⟨le_rfl, by omega, fun _ => hne, fun j h1 h2 => absurd h2 (by omega),
        fun p hp => Or.inl hp, ⟨[], rfl⟩⟩

theorem number.walk_fst_indep [DecidableEq H] (E : Ethash H Lt) (seed : H) (left epoch : Nat)
    (h : H) (m m2 : List (H × Nat)) :
    (number.walk E seed left epoch h m).1 = (number.walk E seed left epoch h m2).1 := by
  induction left generalizing epoch h m m2 with
  | zero => rfl
  | succ left ih =>
    simp only [number.walk]
    split_ifs
    · exact ih _ _ _ _
    · rfl

/-- A walk that runs to the bound leaves the binding of epoch 2048 first in the memo. -/
theorem number.walk_full_head [DecidableEq H] (E : Ethash H Lt) (seed : H) (left epoch : Nat)
    (m : List (H × Nat))
    (hfull : (number.walk E seed (left + 1) epoch (seedOf E epoch) m).1 = epoch + (left + 1)) :
    ∃ rest, (number.walk E seed (left + 1) epoch (seedOf E epoch) m).2 =
      (seedOf E (epoch + (left + 1)), epoch + (left + 1)) :: rest := by
  induction left generalizing epoch m with
  | zero =>
    simp only [number.walk] at hfull ⊢
    split_ifs at hfull ⊢ with hne
    · exact ⟨m, rfl⟩
    · simp at hfull
  | succ left ih =>
    rw [number.walk] at hfull ⊢
    split_ifs at hfull ⊢ with hne
    · rw [show E.sha3 (seedOf E epoch) = seedOf E (epoch + 1) from rfl] at hfull ⊢
      have h := ih (epoch + 1) ((seedOf E (epoch + 1), epoch + 1) :: m)
      have e1 : epoch + 1 + (left + 1) = epoch + (left + 1 + 1) := by omega
      rw [e1] at h
      exact h hfull
    · simp at hfull

theorem number_state [DecidableEq H] (E : Ethash H Lt) (st : State H Lt) (seed : H)
    (hinv : EpochInv E st) :
    EpochInv E (number E st seed).2 ∧
    (number E st seed).2.m_seedHashes = st.m_seedHashes ∧
    (number E st seed).2.m_lights = st.m_lights ∧
    ∃ pre, (number E st seed).2.m_epochs = pre ++ st.m_epochs := by
  unfold number
  cases hl : st.m_epochs.lookup seed with
  | some k => exact ⟨hinv, rfl, rfl, [], rfl⟩
  | none =>
    simp only
    obtain ⟨-, -, -, -, h5, h6⟩ := number.walk_spec E seed 2048 0 st.m_epochs
    have hz : seedOf E 0 = E.zero := rfl
    rw [hz] at h5 h6
    have key : EpochInv E { st with m_epochs := (number.walk E seed 2048 0 E.zero st.m_epochs).2 } := by
      intro h k hmem
      rcases h5 (h, k) hmem with hm | ⟨ha, hb, hc⟩
      · exact hinv h k hm
      · exact ⟨ha, by simpa using hb, by simpa using hc⟩
    split_ifs
    · exact ⟨key, rfl, rfl, h6⟩
    · exact ⟨key, rfl, rfl, h6⟩

/-- On a memo that satisfies the invariant, with distinct seeds, `number` resolves the
seed hash of every epoch below 2048 to the first block of that epoch. -/
theorem number_seedOf [DecidableEq H] (E : Ethash H Lt) (st : State H Lt) (e : Nat)
    (hinv : EpochInv E st) (hd : SeedsDistinct E) (he : e < 2048) :
    (number E st (seedOf E e)).1 = .ok (e * ETHASH_EPOCH_LENGTH) := by
  unfold number
  cases hl : st.m_epochs.lookup (seedOf E e) with
  | some k =>
    simp only
    obtain ⟨h1, -, h3⟩ := hinv _ _ (lookup_mem _ _ _ hl)
    rw [hd e k (by omega) h3 h1]
  | none =>
    simp only
    obtain ⟨-, h2, h3, h4, -, -⟩ := number.walk_spec E (seedOf E e) 2048 0 st.m_epochs
    have hz : seedOf E 0 = E.zero := rfl
    rw [hz] at h2 h3 h4
    have hle : (number.walk E (seedOf E e) 2048 0 E.zero st.m_epochs).1 ≤ e := by
      by_contra hc
      exact h4 e (by omega) (by omega) rfl
    have heq : (number.walk E (seedOf E e) 2048 0 E.zero st.m_epochs).1 = e :=
      hd _ _ (by omega) (by omega) (h3 (by omega))
    rw [if_neg (by omega), heq]

theorem numOk_mono [DecidableEq H] (E : Ethash H Lt) (st st2 : State H Lt) (seed : H)
    (hext : ∃ pre, st2.m_epochs = pre ++ st.m_epochs) (h : NumOk E st seed) :
    NumOk E st2 seed := by
  obtain ⟨pre, hpre⟩ := hext
  obtain ⟨b, hb⟩ := h
  unfold NumOk number at *
  cases hl2 : st2.m_epochs.lookup seed with
  | some k => exact ⟨_, rfl⟩
  | none =>
    simp only
    cases hl : st.m_epochs.lookup seed with
    | some k =>
      have := lookup_append_isSome pre st.m_epochs seed (by simp [hl])
      rw [← hpre, hl2] at this
      simp at this
    | none =>
      rw [hl] at hb
      simp only at hb
      rw [number.walk_fst_indep E seed 2048 0 E.zero st2.m_epochs st.m_epochs]
      by_cases h2048 : (number.walk E seed 2048 0 E.zero st.m_epochs).1 = 2048
      · rw [if_pos h2048] at hb
        simp at hb
      · rw [if_neg h2048]
        exact ⟨_, rfl⟩

theorem inv_init [DecidableEq H] (E : Ethash H Lt) : Inv E (State.init H Lt) := by
  refine ⟨?_, ?_, ?_⟩
  · intro i hi; simp [State.init] at hi
  · intro h k hm; simp [State.init] at hm
  · intro s hs; simp [State.init] at hs

theorem inv_seedHash [DecidableEq H] (E : Ethash H Lt) (st : State H Lt) (n : Nat)
    (h : Inv E st) : Inv E (seedHash E st n).2 := by
  obtain ⟨h1, h2, h3⟩ := h
  obtain ⟨-, s2, -, s4, s5⟩ := seedHash_spec E st n h1
  refine ⟨s2, ?_, ?_⟩
  · intro a k hm
    rw [s4] at hm
    exact h2 a k hm
  · intro s hs
    rw [s5] at hs
    exact numOk_mono E st _ s ⟨[], by rw [s4]; rfl⟩ (h3 s hs)

theorem inv_number [DecidableEq H] (E : Ethash H Lt) (st : State H Lt) (seed : H)
    (h : Inv E st) : Inv E (number E st seed).2 := by
  obtain ⟨h1, h2, h3⟩ := h
  obtain ⟨n1, n2, n3, n4⟩ := number_state E st seed h2
  refine ⟨?_, n1, ?_⟩
  · intro i hi
    rw [n2] at hi ⊢
    exact h1 i hi
  · intro s hs
    rw [n3] at hs
    exact numOk_mono E st _ s n4 (h3 s hs)

theorem inv_light [DecidableEq H] (E : Ethash H Lt) (st : State H Lt) (seed : H)
    (h : Inv E st) : Inv E (light E st seed).2 := by
  unfold light
  cases hl : st.m_lights.lookup seed with
  | some la => exact h
  | none =>
    simp only
    unfold LightAllocation.create
    have hn := inv_number E st seed h
    obtain ⟨-, h2, -⟩ := h
    obtain ⟨-, -, n3, n4⟩ := number_state E st seed h2
    cases hr : number E st seed with
    | mk r st1 =>
      rw [hr] at hn n3 n4
      simp only at hn n3 n4
      cases r with
      | error e => exact hn
      | ok b =>
        simp only
        cases hnew : E.ethash_light_new b with
        | none => exact hn
        | some l =>
          simp only
          obtain ⟨i1, i2, i3⟩ := hn
          refine ⟨i1, i2, ?_⟩
          intro s hs
          have hext : ∃ pre, st1.m_epochs = pre ++ st1.m_epochs := ⟨[], rfl⟩
          by_cases hss : s = seed
          · subst hss
            have hok : NumOk E st s := ⟨b, by rw [hr]⟩
            exact numOk_mono E st _ s n4 hok
          · simp only [List.lookup_cons] at hs
            have hfalse : (s == seed) = false := by simpa using hss
            rw [hfalse] at hs
            exact numOk_mono E st1 _ s hext (i3 s hs)

theorem eval_state [DecidableEq H] (E : Ethash H Lt) (st : State H Lt) (seed header : H)
    (nonce : Nat) : (eval E st seed header nonce).2 = (light E st seed).2 := by
  unfold eval
  cases hl : light E st seed with
  | mk r st1 =>
    cases r with
    | error e => rfl
    | ok la =>
      simp only
      cases LightAllocation.compute E la header nonce <;> rfl

theorem inv_of_reachable [DecidableEq H] (E : Ethash H Lt) (st : State H Lt)
    (h : Reachable E st) : Inv E st := by
  induction h with
  | init => exact inv_init E
  | step c _ ih =>
    cases c with
    | seedHash n => exact inv_seedHash E _ n ih
    | number s => exact inv_number E _ s ih
    | light s => exact inv_light E _ s ih
    | eval s hd n =>
      show Inv E (eval E _ s hd n).2
      rw [eval_state]
      exact inv_light E _ s ih

end EthashAux

/-! ## `EthashAux`: the claims about `seedHash`, `number` and `eval` -/

namespace EthashAux

variable {H Lt : Type}

theorem number_unresolved [DecidableEq H] (E : Ethash H Lt) (st : State H Lt) (seed : H)
    (hl : st.m_epochs.lookup seed = none) (hx : ∀ e, e < 2048 → seedOf E e ≠ seed) :
    (number E st seed).1 = .error .invalidArgument ∧
    ∃ rest, (number E st seed).2.m_epochs = (seedOf E 2048, 2048) :: rest := by
  obtain ⟨-, h2, h3, -, -, -⟩ := number.walk_spec E seed 2048 0 st.m_epochs
  have hfull : (number.walk E seed 2048 0 (seedOf E 0) st.m_epochs).1 = 2048 := by
    by_contra hc
    exact hx _ (by omega) (h3 (by omega))
  obtain ⟨rest, hrest⟩ := number.walk_full_head E seed 2047 0 st.m_epochs
    (by simpa using hfull)
  have hz : seedOf E 0 = E.zero := rfl
  rw [hz] at hfull hrest
  unfold number
  rw [hl]
  simp only
  rw [if_pos (by simpa using hfull)]
  exact ⟨rfl, rest, by simpa using hrest⟩

theorem number_hit [DecidableEq H] (E : Ethash H Lt) (st : State H Lt) (seed : H) (k : Nat)
    (hl : st.m_epochs.lookup seed = some k) :
    (number E st seed).1 = .ok (k * ETHASH_EPOCH_LENGTH) := by
  unfold number
  rw [hl]

theorem toy_seedOf (i : Nat) : seedOf toyEthash i = i := by
  induction i with
  | zero => rfl
  | succ i ih =>
    show seedOf toyEthash i + 1 = i + 1
    rw [ih]

theorem toy_distinct : SeedsDistinct toyEthash := by
  intro i j _ _ h
  rwa [toy_seedOf, toy_seedOf] at h

/-- C6: for every block number `n` (an `unsigned`, so below `2^32`) and on every reachable
state of the resolver, `seedHash(n)` is `sha3` applied `n / 30000` times to the zero hash,
every memoized entry `i` is `sha3^i(zero)` afterwards, and, when `n+1` is a block number
too, `seedHash(n+1)` is `sha3(seedHash(n))` when `n+1` starts a new epoch and
`seedHash(n)` otherwise. -/
theorem seedHash_iterates [DecidableEq H] (E : Ethash H Lt) (st : State H Lt)
    (hst : Reachable E st) (n : Nat) (hn : n < 2 ^ 32) :
    (seedHash E st n).1 = seedOf E (n / 30000) ∧
    (∀ i, i < (seedHash E st n).2.m_seedHashes.length →
      (seedHash E st n).2.m_seedHashes[i]? = some (seedOf E i)) ∧
    (n + 1 < 2 ^ 32 → ∀ st2, Reachable E st2 →
      (seedHash E st2 (n + 1)).1 =
        if (n + 1) / 30000 > n / 30000 then E.sha3 (seedHash E st n).1
        else (seedHash E st n).1) := by
  obtain ⟨h1, h2, -⟩ := seedHash_spec E st n (inv_of_reachable E st hst).1
  rw [Nat.mod_eq_of_lt hn] at h1
  refine ⟨h1, h2, ?_⟩
  intro hn1 st2 hst2
  obtain ⟨g1, -⟩ := seedHash_spec E st2 (n + 1) (inv_of_reachable E st2 hst2).1
  rw [Nat.mod_eq_of_lt hn1] at g1
  rw [g1, h1]
  simp only [ETHASH_EPOCH_LENGTH]
  split_ifs with hlt
  · have : (n + 1) / 30000 = n / 30000 + 1 := by omega
    rw [this]
    rfl
  · have : (n + 1) / 30000 = n / 30000 := by omega
    rw [this]

theorem seedHash_iterates_witness :
    (seedHash toyEthash (step toyEthash (State.init Nat Nat) (.seedHash 70000)) 59999).1
      = seedOf toyEthash (59999 / 30000) ∧
    (∀ i, i < (seedHash toyEthash (step toyEthash (State.init Nat Nat) (.seedHash 70000))
        59999).2.m_seedHashes.length →
      (seedHash toyEthash (step toyEthash (State.init Nat Nat) (.seedHash 70000))
        59999).2.m_seedHashes[i]? = some (seedOf toyEthash i)) ∧
    (59999 + 1 < 2 ^ 32 → ∀ st2, Reachable toyEthash st2 →
      (seedHash toyEthash st2 (59999 + 1)).1 =
        if (59999 + 1) / 30000 > 59999 / 30000 then
          toyEthash.sha3 (seedHash toyEthash
            (step toyEthash (State.init Nat Nat) (.seedHash 70000)) 59999).1
        else (seedHash toyEthash (step toyEthash (State.init Nat Nat) (.seedHash 70000))
          59999).1) ∧
    (seedHash toyEthash (step toyEthash (State.init Nat Nat) (.seedHash 70000)) 59999).1 = 1 ∧
    (seedHash toyEthash (State.init Nat Nat) (2 ^ 32 + 60000)).1 = 2 :=
  ⟨(seedHash_iterates toyEthash _ (Reachable.step (.seedHash 70000) Reachable.init) 59999
      (by decide)).1,
   (seedHash_iterates toyEthash _ (Reachable.step (.seedHash 70000) Reachable.init) 59999
      (by decide)).2.1,
   (seedHash_iterates toyEthash _ (Reachable.step (.seedHash 70000) Reachable.init) 59999
      (by decide)).2.2,
   by decide, by decide⟩

/-- C7, the code at the failing input: with distinct seeds and a hash `x` that is no
seed of epochs 0 to 2048, a fresh resolver rejects `sha3^2048(zero)`, but once
`number(x)` has thrown, the same `number(sha3^2048(zero))` returns `2048 * 30000`. -/
theorem number_depends_on_memo [DecidableEq H] (E : Ethash H Lt) (hd : SeedsDistinct E)
    (x : H) (hx : ∀ e, e ≤ 2048 → seedOf E e ≠ x) :
    (number E (State.init H Lt) (seedOf E 2048)).1 = .error .invalidArgument ∧
    (number E (State.init H Lt) x).1 = .error .invalidArgument ∧
    (number E (number E (State.init H Lt) x).2 (seedOf E 2048)).1 = .ok 61440000 := by
  have h1 := number_unresolved E (State.init H Lt) (seedOf E 2048) rfl
    (fun e he heq => by have := hd e 2048 (by omega) le_rfl heq; omega)
  obtain ⟨h2, rest, h3⟩ := number_unresolved E (State.init H Lt) x rfl
    (fun e he => hx e (by omega))
  refine ⟨h1.1, h2, ?_⟩
  exact number_hit E _ _ 2048 (by rw [h3, List.lookup_cons]; simp)

theorem number_depends_on_memo_witness :
    (number toyEthash (State.init Nat Nat) (seedOf toyEthash 2048)).1
      = .error .invalidArgument ∧
    (number toyEthash (State.init Nat Nat) 5000).1 = .error .invalidArgument ∧
    (number toyEthash (number toyEthash (State.init Nat Nat) 5000).2
      (seedOf toyEthash 2048)).1 = .ok 61440000 :=
  number_depends_on_memo toyEthash toy_distinct 5000
    (fun e he => by rw [toy_seedOf]; omega)

/-- C8 (amended): with distinct seeds, for every block number `n` below `2048 * 30000`
and all reachable resolver states, `number(seedHash(n))` returns a `b` with
`b ≤ n < b + 30000`. -/
theorem number_seedHash_bounds [DecidableEq H] (E : Ethash H Lt) (hd : SeedsDistinct E)
    (st st2 : State H Lt) (hst : Reachable E st) (hst2 : Reachable E st2) (n : Nat)
    (hn : n < 2048 * 30000) :
    ∃ b, (number E st2 (seedHash E st n).1).1 = .ok b ∧ b ≤ n ∧ n < b + 30000 := by
  obtain ⟨h1, -⟩ := seedHash_spec E st n (inv_of_reachable E st hst).1
  rw [Nat.mod_eq_of_lt (by omega : n < 2 ^ 32)] at h1
  rw [h1]
  have he : n / ETHASH_EPOCH_LENGTH < 2048 := by
    simp only [ETHASH_EPOCH_LENGTH]; omega
  refine ⟨_, number_seedOf E st2 _ (inv_of_reachable E st2 hst2).2.1 hd he, ?_, ?_⟩
  · simp only [ETHASH_EPOCH_LENGTH]; omega
  · simp only [ETHASH_EPOCH_LENGTH]; omega

theorem number_seedHash_bounds_witness :
    ∃ b, (number toyEthash (seedHash toyEthash (State.init Nat Nat) 65000).2
        (seedHash toyEthash (State.init Nat Nat) 65000).1).1 = .ok b ∧
      b ≤ 65000 ∧ 65000 < b + 30000 :=
  number_seedHash_bounds toyEthash toy_distinct (State.init Nat Nat) _ Reachable.init
    (Reachable.step (.seedHash 65000) Reachable.init) 65000 (by decide)

/-- C8 as stated fails: block 61440000 is the first of epoch 2048, and on a fresh
resolver `number(seedHash(61440000))` throws instead of returning a block number. -/
theorem number_seedHash_epoch_2048_throws :
    (number toyEthash (seedHash toyEthash (State.init Nat Nat) 61440000).2
      (seedHash toyEthash (State.init Nat Nat) 61440000).1).1 = .error .invalidArgument := by
  obtain ⟨h1, -, -, h4, -⟩ :=
    seedHash_spec toyEthash (State.init Nat Nat) 61440000 (inv_init toyEthash).1
  rw [h1]
  have he : 61440000 % 2 ^ 32 / ETHASH_EPOCH_LENGTH = 2048 := by decide
  rw [he]
  exact (number_unresolved toyEthash _ (seedOf toyEthash 2048) (by rw [h4]; rfl)
    (fun e he heq => by rw [toy_seedOf, toy_seedOf] at heq; omega)).1

end EthashAux

/-! ## The ETHPROXY login frame -/

namespace EthStratumClient

theorem find_first_of_append (a b : Str) (ch : Char) (ha : ch ∉ a) :
    find_first_of (a ++ ch :: b) ch = a.length := by
  unfold find_first_of
  rw [if_pos (by simp), List.indexOf_append_of_not_mem ha, List.indexOf_cons_self]
  rfl

theorem loginEthProxy_split (c : EthStratumClient) (a b : Str)
    (hu : c.user = a ++ '.' :: b) (ha : '.' ∉ a) (hlen : c.user.length < 2 ^ 64) :
    loginEthProxy c = .ok ({ c with m_worker := b },
      "\x7b\"id\": 1, \"worker\":\"".toList ++ b ++
        "\", \"method\": \"eth_submitLogin\", \"params\": [\"".toList ++ a ++
        (if c.m_email = [] then "\"]\x7d\n".toList
         else "\", \"".toList ++ c.m_email ++ "\"]\x7d\n".toList)) := by
  have hl : a.length + 1 < 2 ^ 64 := by
    rw [hu] at hlen
    simp only [List.length_append, List.length_cons] at hlen
    omega
  have hp : find_first_of c.user '.' = a.length := by
    rw [hu]; exact find_first_of_append a b '.' ha
  have hmod : (a.length + 1) % 2 ^ 64 = a.length + 1 := Nat.mod_eq_of_lt hl
  have h1 : substr c.user 0 a.length = .ok a := by
    simp [substr, hu]
  have h2 : substrFrom c.user (a.length + 1) = .ok b := by
    have hd : List.drop (a.length + 1) (a ++ '.' :: b) = b := by
      rw [List.drop_append_eq_append_drop]
      simp
    simp [substrFrom, hu, hd]
  have h3 : a.length + 1 ≤ c.user.length := by
    rw [hu]; simp
  unfold loginEthProxy
  simp only [hp, hmod, h1, h2, if_pos h3, bind, Except.bind, pure, Except.pure]
  split_ifs <;> simp [List.append_assoc]

/-- C11: in the ETHPROXY dialect, for every user name `a.b` (a `std::string`, so shorter
than `2^64`) in which `a` holds no `.`, a successful connect (no connect error, no failed handshake) stores `b` as the worker,
starts the work timer and writes exactly one frame: the text
`\x7b"id": 1, "worker":"b", "method": "eth_submitLogin", "params": ["a"]\x7d` when the
email is empty and the same with `"params": ["a", "email"]` otherwise; `a`, `b` and the
email are written between the quotes as they are. For the user `alice.worker1` with no
email the frame has `"params": ["alice"]` and `"worker":"worker1"`. -/
theorem connect_handler_ethproxy_login (L : Lib) (c : EthStratumClient) (a b : Str)
    (secLevel : SecureLevel) (hasOnConnected : Bool)
    (hv : c.version = .ETHPROXY) (hu : c.user = a ++ '.' :: b) (ha : '.' ∉ a)
    (hlen : c.user.length < 2 ^ 64) :
    connect_handler L c false secLevel false hasOnConnected =
      .ok ({ c with m_connected := true, m_linkdown := false, m_worker := b },
        callIf hasOnConnected Effect.connected ++
        [Effect.resetWorkTimeout,
         Effect.send ("\x7b\"id\": 1, \"worker\":\"".toList ++ b ++
           "\", \"method\": \"eth_submitLogin\", \"params\": [\"".toList ++ a ++
           (if c.m_email = [] then "\"]\x7d\n".toList
            else "\", \"".toList ++ c.m_email ++ "\"]\x7d\n".toList))]) ∧
    connect_handler specLib (sample .ETHPROXY) false .NONE false true =
      .ok ({ sample .ETHPROXY with m_worker := "worker1".toList },
        [Effect.connected, Effect.resetWorkTimeout,
         Effect.send
           "\x7b\"id\": 1, \"worker\":\"worker1\", \"method\": \"eth_submitLogin\", \"params\": [\"alice\"]\x7d\n".toList]) := by
  refine ⟨?_, by decide⟩
  have h := loginEthProxy_split { c with m_connected := true, m_linkdown := false } a b hu ha hlen
  unfold connect_handler
  simp only [Bool.false_eq_true, if_false, and_false]
  split
  · rename_i h1; rw [hv] at h1; cases h1
  · simp only [bind, Except.bind]
    rw [h]
    rfl
  · rename_i h1; rw [hv] at h1; cases h1

theorem connect_handler_ethproxy_login_witness :
    connect_handler specLib { sample .ETHPROXY with m_email := "a@b.c".toList } false .TLS
        false true =
      .ok ({ sample .ETHPROXY with m_email := "a@b.c".toList, m_connected := true,
                                   m_linkdown := false, m_worker := "worker1".toList },
        callIf true Effect.connected ++
        [Effect.resetWorkTimeout,
         Effect.send ("\x7b\"id\": 1, \"worker\":\"".toList ++ "worker1".toList ++
           "\", \"method\": \"eth_submitLogin\", \"params\": [\"".toList ++ "alice".toList ++
           (if ({ sample .ETHPROXY with m_email := "a@b.c".toList } : EthStratumClient).m_email
               = [] then "\"]\x7d\n".toList
            else "\", \"".toList ++
              ({ sample .ETHPROXY with m_email := "a@b.c".toList } : EthStratumClient).m_email
              ++ "\"]\x7d\n".toList))]) ∧
    connect_handler specLib (sample .ETHPROXY) false .NONE false true =
      .ok ({ sample .ETHPROXY with m_worker := "worker1".toList },
        [Effect.connected, Effect.resetWorkTimeout,
         Effect.send
           "\x7b\"id\": 1, \"worker\":\"worker1\", \"method\": \"eth_submitLogin\", \"params\": [\"alice\"]\x7d\n".toList]) :=
  connect_handler_ethproxy_login specLib { sample .ETHPROXY with m_email := "a@b.c".toList }
    "alice".toList "worker1".toList .TLS true rfl rfl (by decide) (by decide)

end EthStratumClient

/-! ## `diffToTarget` at the minimum difficulty -/

theorem diffToTarget.branch (diff : Dbl) (hpos : diff.IsPosFinite) (m : Nat)
    (hm : Dbl.toUInt64 (Dbl.div (Dbl.ofNat 4294901760) (diffToTarget.scale 6 diff).2) = some m) :
    ¬ (m = 0 ∧ (diffToTarget.scale 6 diff).1 = 6) := by
  rintro ⟨rfl, hk⟩
  obtain ⟨h2, hlt⟩ := diffToTarget.scale_top 5 diff hk
  rw [h2] at hm
  cases diff with
  | fin neg mb eb =>
    obtain ⟨rfl, hmb⟩ := hpos
    exact Dbl.toUInt64_div_ne_zero mb eb hmb hlt 0 hm rfl
  | inf n => exact hpos
  | nan => exact hpos

theorem diffToTarget_value (diff : Dbl) (hpos : diff.IsPosFinite) (m : Nat)
    (hm : Dbl.toUInt64 (Dbl.div (Dbl.ofNat 4294901760) (diffToTarget.scale 6 diff).2) = some m) :
    ∃ b, diffToTarget diff = some b ∧ b.length = 32 ∧
      beValue b = m * 2 ^ (32 * (diffToTarget.scale 6 diff).1) := by
  refine ⟨(bytesOfWords (diffToTarget.words m (diffToTarget.scale 6 diff).1)).reverse, ?_, ?_, ?_⟩
  · simp only [diffToTarget, hm]
  · simp [bytesOfWords_length, diffToTarget.words_length]
  · exact beValue_words _ _ (diffToTarget.scale_fst_le 6 diff) (Dbl.toUInt64_lt _ _ hm)
      (diffToTarget.branch diff hpos m hm)

/-- C12 (amended): under ETHEREUMSTRATUM a `mining.set_difficulty` whose value is at or
below 0.0001 stores the minimum 0.0001, and `diffToTarget(0.0001)` takes the generic
branch: the loop leaves `k = 6`, the quotient converts to `m = 42949017600000`, which is
not 0, the words written are `target2[6] = 0xd8f00000` and `target2[7] = 0x270f`, and the
boundary is `00 00 27 0f d8 f0 00 00` followed by 24 zero bytes. -/
theorem diffToTarget_min_difficulty (L : Lib) (c : EthStratumClient) (f : Json) (id : Int)
    (ps : List Json) (d : Dbl) (hv : c.version = .ETHEREUMSTRATUM)
    (hid : EthStratumClient.responseId L f = .ok id) (h1 : id ≠ 1) (h2 : id ≠ 2) (h3 : id ≠ 3) (h4 : id ≠ 4)
    (hm : EthStratumClient.responseMethod L c f = .ok "mining.set_difficulty".toList)
    (hp : f.get "params".toList .null = .ok (.arr ps))
    (hd : (ps.getD 0 (.int 1)).asDouble = .ok d)
    (hle : Dbl.le d EthStratumClient.minDifficulty = true) :
    EthStratumClient.processReponse L c f
      = .ok ({ c with m_nextWorkDifficulty := EthStratumClient.minDifficulty }, []) ∧
    diffToTarget.scale 6 EthStratumClient.minDifficulty = (6, EthStratumClient.minDifficulty) ∧
    Dbl.toUInt64 (Dbl.div (Dbl.ofNat 4294901760) EthStratumClient.minDifficulty)
      = some 42949017600000 ∧
    diffToTarget.words 42949017600000 6 = [0, 0, 0, 0, 0, 0, 0xd8f00000, 0x270f] ∧
    diffToTarget EthStratumClient.minDifficulty =
      some ([0, 0, 39, 15, 216, 240, 0, 0] ++ List.replicate 24 0) := by
  refine ⟨?_, by decide, by decide, by decide, by decide⟩
  rw [EthStratumClient.processReponse_default L c f id hid h1 h2 h3 h4]
  unfold EthStratumClient.onMethod EthStratumClient.onSetDifficulty
  have hn : ¬ ("mining.set_difficulty".toList = "mining.notify".toList) := by decide
  simp only [bind, Except.bind, pure, Except.pure, hm, hn, if_false, hv, and_self, if_true, hp,
    Json.isArray, Json.getIdx, hd, hle]

theorem diffToTarget_min_difficulty_witness :
    EthStratumClient.processReponse specLib (EthStratumClient.sample .ETHEREUMSTRATUM)
        (EthStratumClient.framesE2.getD 0 .null)
      = .ok ({ EthStratumClient.sample .ETHEREUMSTRATUM with
                m_nextWorkDifficulty := EthStratumClient.minDifficulty }, []) ∧
    diffToTarget.scale 6 EthStratumClient.minDifficulty = (6, EthStratumClient.minDifficulty) ∧
    Dbl.toUInt64 (Dbl.div (Dbl.ofNat 4294901760) EthStratumClient.minDifficulty)
      = some 42949017600000 ∧
    diffToTarget.words 42949017600000 6 = [0, 0, 0, 0, 0, 0, 0xd8f00000, 0x270f] ∧
    diffToTarget EthStratumClient.minDifficulty =
      some ([0, 0, 39, 15, 216, 240, 0, 0] ++ List.replicate 24 0) :=
  diffToTarget_min_difficulty specLib (EthStratumClient.sample .ETHEREUMSTRATUM)
    (EthStratumClient.framesE2.getD 0 .null) 0 [.real (Dbl.fin false 1 (-20))]
    (Dbl.fin false 1 (-20)) rfl (by decide) (by decide) (by decide) (by decide) (by decide)
    (by decide) rfl rfl (by decide)

/-- C12 as stated fails: 0.0001 is the double `7378697629483821 * 2^-66` (the correctly
rounded `1/10000`), the scaling loop leaves it with `k = 6`, the quotient
`4294901760.0 / 0.0001` converts to `m = 42949017600000`, which is not 0, so the generic
branch writes `target2[6] = 0xd8f00000` and `target2[7] = 0x270f`, and the boundary is not
all-ones; a `mining.set_difficulty` below the minimum followed by a `mining.notify` hands
out work with exactly that boundary. -/
theorem diffToTarget_min_difficulty_not_all_ones :
    Dbl.div (Dbl.ofNat 1) (Dbl.ofNat 10000) = EthStratumClient.minDifficulty ∧
    EthStratumClient.minDifficulty.IsBinary64 ∧
    diffToTarget.scale 6 EthStratumClient.minDifficulty = (6, EthStratumClient.minDifficulty) ∧
    Dbl.toUInt64 (Dbl.div (Dbl.ofNat 4294901760) EthStratumClient.minDifficulty)
      = some 42949017600000 ∧
    diffToTarget.words 42949017600000 6 = [0, 0, 0, 0, 0, 0, 0xd8f00000, 0x270f] ∧
    diffToTarget EthStratumClient.minDifficulty ≠ some (List.replicate 32 255) ∧
    (∃ c w, EthStratumClient.run specLib (EthStratumClient.sample .ETHEREUMSTRATUM)
        EthStratumClient.framesE2 = .ok (c, [Effect.resetWorkTimeout, Effect.workReceived w]) ∧
      c.m_nextWorkDifficulty = EthStratumClient.minDifficulty ∧
      w.boundary = [0, 0, 39, 15, 216, 240, 0, 0] ++ List.replicate 24 0 ∧
      w.boundary ≠ List.replicate 32 255) := by
  refine ⟨by decide, ⟨by decide, by decide, by decide⟩, by decide, by decide, by decide,
    by decide, ?_⟩
  refine ⟨_, _, rfl, by decide, by decide, by decide⟩

/-! ## Reading the boundary of `diffToTarget` back as a difficulty -/

theorem Dbl.roundHalfEven_spec (num den : Nat) (hden : 0 < den) :
    2 * (Dbl.roundHalfEven num den * den) ≤ 2 * num + den ∧
    2 * num ≤ 2 * (Dbl.roundHalfEven num den * den) + den := by
  have h1 := Nat.div_add_mod num den
  have h2 := Nat.mod_lt num hden
  unfold Dbl.roundHalfEven
  simp only
  generalize num / den = q at *
  generalize num % den = r at *
  have h3 : q * den = den * q := Nat.mul_comm _ _
  split_ifs <;> (try rw [Nat.add_mul, Nat.one_mul]) <;> omega

/-- the rounded quotient is within one half of the exact one -/
theorem Dbl.roundHalfEven_near (num den : Nat) (hden : 0 < den) :
    ((Dbl.roundHalfEven num den : Nat) : ℚ) ≤ (num : ℚ) / den + 1 / 2 ∧
    (num : ℚ) / den ≤ ((Dbl.roundHalfEven num den : Nat) : ℚ) + 1 / 2 := by
  obtain ⟨h1, h2⟩ := Dbl.roundHalfEven_spec num den hden
  have hd : (0 : ℚ) < den := by exact_mod_cast hden
  have h1q : (2 : ℚ) * ((Dbl.roundHalfEven num den : Nat) * den) ≤ 2 * num + den := by
    exact_mod_cast h1
  have h2q : (2 : ℚ) * num ≤ 2 * ((Dbl.roundHalfEven num den : Nat) * den) + den := by
    exact_mod_cast h2
  constructor
  · rw [← sub_le_iff_le_add, le_div_iff₀ hd]
    linarith
  · rw [div_le_iff₀ hd]
    linarith

/-- the quotient `4294901760 / (mb * 2^-E)` for a divisor in `(2^-32, 1]`: where the
mantissa and the exponent of the result come from -/
theorem Dbl.div_const_shape (mb E : Nat) (hmb : 0 < mb) (hle : mb ≤ 2 ^ E)
    (hlo : 2 ^ E < mb * 2 ^ 32) :
    ∃ S : Nat, Dbl.ilog2 mb + 21 ≤ S ∧ S ≤ E + 22 ∧ E ≤ S + 11 ∧ mb * 2 ^ 20 ≤ 2 ^ S ∧
      Dbl.div (Dbl.ofNat 4294901760) (Dbl.fin false mb (-(E : Int))) =
        Dbl.fin false (Dbl.roundHalfEven (4294901760 * 2 ^ S) mb) ((E : Int) - S) := by
  obtain ⟨hl1, hl2⟩ := Dbl.ilog2_spec mb (by omega)
  have hLE : Dbl.ilog2 mb ≤ E := by
    by_contra hc
    have : 2 ^ (E + 1) ≤ 2 ^ Dbl.ilog2 mb := Nat.pow_le_pow_right (by norm_num) (by omega)
    rw [pow_succ] at this
    have := Nat.one_le_two_pow (n := E)
    omega
  have hEU : E ≤ Dbl.ilog2 mb + 32 := by
    by_contra hc
    have h1 : 2 ^ (Dbl.ilog2 mb + 1 + 32) ≤ 2 ^ E := Nat.pow_le_pow_right (by norm_num) (by omega)
    rw [pow_add] at h1
    have h2 : mb * 2 ^ 32 < 2 ^ (Dbl.ilog2 mb + 1) * 2 ^ 32 :=
      Nat.mul_lt_mul_of_pos_right hl2 (by norm_num)
    omega
  simp only [Dbl.div, Dbl.ofNat]
  rw [if_neg (by omega), if_neg (by norm_num)]
  unfold Dbl.divMag
  rw [Dbl.ilog2_const]
  have hs0 : (53 : Int) + (Dbl.ilog2 mb : Int) - ((31 : Nat) : Int)
      = ((Dbl.ilog2 mb + 22 : Nat) : Int) := by push_cast; omega
  rw [hs0]
  dsimp only
  generalize hs1 : (if 2 ^ 53 ≤ Dbl.shiftNum 4294901760 ((Dbl.ilog2 mb + 22 : Nat) : Int) /
      Dbl.shiftDen mb ((Dbl.ilog2 mb + 22 : Nat) : Int)
      then ((Dbl.ilog2 mb + 22 : Nat) : Int) - 1 else ((Dbl.ilog2 mb + 22 : Nat) : Int)) = s1
  obtain ⟨S, rfl, hS1, hS2⟩ : ∃ S : Nat, s1 = (S : Int) ∧ Dbl.ilog2 mb + 21 ≤ S ∧
      S ≤ Dbl.ilog2 mb + 22 := by
    split_ifs at hs1
    · exact ⟨Dbl.ilog2 mb + 21, by rw [← hs1]; push_cast; omega, by omega, by omega⟩
    · exact ⟨Dbl.ilog2 mb + 22, by rw [← hs1], by omega, by omega⟩
  have he : ((0 : Int) - -(E : Int) - (S : Int)) ⊔ -1074 = (E : Int) - S := by
    rw [max_eq_left] <;> omega
  rw [he]
  have hs : (0 : Int) - -(E : Int) - ((E : Int) - S) = (S : Int) := by omega
  rw [hs]
  have hnum : Dbl.shiftNum 4294901760 (S : Int) = 4294901760 * 2 ^ S := by
    simp [Dbl.shiftNum]
  have hden : Dbl.shiftDen mb (S : Int) = mb := by
    have : (-(S : Int)).toNat = 0 := by omega
    simp [Dbl.shiftDen, this]
  rw [hnum, hden]
  have hpow : mb * 2 ^ 20 ≤ 2 ^ S := by
    have h1 : 2 ^ (Dbl.ilog2 mb + 1 + 20) ≤ 2 ^ S := Nat.pow_le_pow_right (by norm_num) (by omega)
    rw [pow_add] at h1
    have h2 : mb * 2 ^ 20 ≤ 2 ^ (Dbl.ilog2 mb + 1) * 2 ^ 20 :=
      Nat.mul_le_mul_right _ (by omega)
    omega
  refine ⟨S, hS1, by omega, by omega, hpow, ?_⟩
  rw [if_neg]
  · rfl
  · omega

theorem Dbl.toUInt64_fin (n : Nat) (e : Int) (t : Nat)
    (ht : (if 0 ≤ e then n * 2 ^ e.toNat else n / 2 ^ (-e).toNat) = t)
    (h0 : 0 < t) (h64 : t < 2 ^ 64) :
    Dbl.toUInt64 (Dbl.fin false n e) = some t := by
  simp only [Dbl.toUInt64, ht]
  rw [if_neg (by omega), if_neg (by simp), if_pos h64]

/-- a mantissa `n` within one half of `r`, scaled up by `P`: the value `n * P` against the
exact `q = r * P` -/
theorem Dbl.scaled_up_bound (n P q r : ℚ) (hP1 : 1 ≤ P) (hP2 : P ≤ 2 ^ 11) (hqr : q = r * P)
    (h1 : n ≤ r + 1 / 2) (h2 : r ≤ n + 1 / 2) (hr : 4294901760 * 2 ^ 20 ≤ r)
    (hq : q < 4294901760 * 2 ^ 32) :
    0 < n * P ∧ n * P < 2 ^ 64 ∧ |q - n * P| ≤ n * P / 2 ^ 31 := by
  have hn : (2 : ℚ) ^ 30 ≤ n := by norm_num at hr ⊢; linarith
  have hP0 : 0 < P := by linarith
  have e1 : n * P ≤ r * P + 1 / 2 * P := by
    have := mul_le_mul_of_nonneg_right h1 hP0.le
    linarith
  have e2 : r * P ≤ n * P + 1 / 2 * P := by
    have := mul_le_mul_of_nonneg_right h2 hP0.le
    linarith
  have e3 : (2 : ℚ) ^ 30 * P ≤ n * P := mul_le_mul_of_nonneg_right hn hP0.le
  subst hqr
  norm_num at hP2 hq e3 ⊢
  refine ⟨by linarith, by linarith, ?_⟩
  rw [abs_le]
  constructor <;> linarith

/-- a mantissa `n` within one half of `q * P`, scaled down by `P` and truncated to `m` -/
theorem Dbl.scaled_down_bound (n m ρ P q : ℚ) (hP : 2 ≤ P) (h1 : n ≤ q * P + 1 / 2)
    (h2 : q * P ≤ n + 1 / 2) (hdm : P * m + ρ = n) (hρ0 : 0 ≤ ρ) (hρ : ρ + 1 ≤ P)
    (hq1 : 4294901760 ≤ q) (hq2 : q < 4294901760 * 2 ^ 32) :
    0 < m ∧ m < 2 ^ 64 ∧ |q - m| ≤ m / 2 ^ 31 := by
  have hup : m ≤ q + 1 / 4 := by
    by_contra h
    push_neg at h
    have h3 : 2 * (m - q) ≤ P * (m - q) := mul_le_mul_of_nonneg_right hP (by linarith)
    linarith
  have hdn : q - 1 ≤ m := by
    by_contra h
    push_neg at h
    have h3 : 0 ≤ P * (q - 1 - m) := mul_nonneg (by linarith) (by linarith)
    linarith
  norm_num at hq2 ⊢
  refine ⟨by linarith, by linarith, ?_⟩
  rw [abs_le]
  constructor <;> linarith

/-- the conversion of `4294901760 / (mb * 2^-E)` for a divisor in `(2^-32, 1]` is defined,
and the integer it yields is within `2^-31` of the exact quotient, relatively -/
theorem Dbl.toUInt64_div_const (mb E : Nat) (hmb : 0 < mb) (hle : mb ≤ 2 ^ E)
    (hlo : 2 ^ E < mb * 2 ^ 32) :
    ∃ m : Nat, Dbl.toUInt64 (Dbl.div (Dbl.ofNat 4294901760) (Dbl.fin false mb (-(E : Int))))
        = some m ∧ 0 < m ∧
      |(4294901760 * 2 ^ E : ℚ) / mb - m| ≤ (m : ℚ) / 2 ^ 31 := by
  obtain ⟨S, -, hS2, hS3, hpow, hdiv⟩ := Dbl.div_const_shape mb E hmb hle hlo
  rw [hdiv]
  obtain ⟨hn1, hn2⟩ := Dbl.roundHalfEven_near (4294901760 * 2 ^ S) mb hmb
  generalize Dbl.roundHalfEven (4294901760 * 2 ^ S) mb = n at hn1 hn2 ⊢
  have hmbq : (0 : ℚ) < mb := by exact_mod_cast hmb
  have hleq : (mb : ℚ) ≤ 2 ^ E := by exact_mod_cast hle
  have hloq : (2 : ℚ) ^ E < mb * 2 ^ 32 := by exact_mod_cast hlo
  have hpowq : (mb : ℚ) * 2 ^ 20 ≤ 2 ^ S := by exact_mod_cast hpow
  push_cast at hn1 hn2
  have hr_lo : (4294901760 : ℚ) * 2 ^ 20 ≤ 4294901760 * 2 ^ S / mb := by
    rw [le_div_iff₀ hmbq]
    have := mul_le_mul_of_nonneg_left hpowq (by norm_num : (0 : ℚ) ≤ 4294901760)
    linarith
  have hq_lo : (4294901760 : ℚ) ≤ 4294901760 * 2 ^ E / mb := by
    rw [le_div_iff₀ hmbq]
    have := mul_le_mul_of_nonneg_left hleq (by norm_num : (0 : ℚ) ≤ 4294901760)
    linarith
  have hq_hi : (4294901760 : ℚ) * 2 ^ E / mb < 4294901760 * 2 ^ 32 := by
    rw [div_lt_iff₀ hmbq]
    have := mul_lt_mul_of_pos_left hloq (by norm_num : (0 : ℚ) < 4294901760)
    linarith
  by_cases hES : S ≤ E
  · obtain ⟨D, rfl⟩ : ∃ D, E = S + D := ⟨E - S, by omega⟩
    have hD : D ≤ 11 := by omega
    have hP1 : (1 : ℚ) ≤ 2 ^ D := one_le_pow₀ (by norm_num)
    have hP2 : (2 : ℚ) ^ D ≤ 2 ^ 11 := pow_le_pow_right₀ (by norm_num) hD
    have hqr : (4294901760 : ℚ) * 2 ^ (S + D) / mb = 4294901760 * 2 ^ S / mb * 2 ^ D := by
      rw [pow_add]; ring
    obtain ⟨hpos, hlt, habs⟩ := Dbl.scaled_up_bound n (2 ^ D) _ _ hP1 hP2 hqr hn1 hn2 hr_lo hq_hi
    have hmq : ((n * 2 ^ D : Nat) : ℚ) = n * 2 ^ D := by push_cast; ring
    rw [← hmq] at hpos hlt habs
    refine ⟨n * 2 ^ D, ?_, by exact_mod_cast hpos, habs⟩
    apply Dbl.toUInt64_fin
    · have h1 : (0 : Int) ≤ ((S + D : Nat) : Int) - S := by push_cast; omega
      have h2 : (((S + D : Nat) : Int) - S).toNat = D := by push_cast; omega
      rw [if_pos h1, h2]
    · exact_mod_cast hpos
    · exact_mod_cast hlt
  · obtain ⟨D, rfl⟩ : ∃ D, S = E + (D + 1) := ⟨S - E - 1, by omega⟩
    have hP2 : (2 : ℚ) ≤ 2 ^ (D + 1) := by
      have : (1 : ℚ) ≤ 2 ^ D := one_le_pow₀ (by norm_num)
      rw [pow_succ]; linarith
    have hqr : (4294901760 : ℚ) * 2 ^ (E + (D + 1)) / mb
        = 4294901760 * 2 ^ E / mb * 2 ^ (D + 1) := by
      rw [pow_add]; ring
    rw [hqr] at hn1 hn2
    have hdm := Nat.div_add_mod n (2 ^ (D + 1))
    have hml := Nat.mod_lt n (Nat.pos_pow_of_pos (D + 1) (by norm_num : 0 < 2))
    generalize hm : n / 2 ^ (D + 1) = m at hdm
    generalize n % 2 ^ (D + 1) = ρ at hdm hml
    have hdmq : ((2 : ℚ) ^ (D + 1)) * m + ρ = n := by exact_mod_cast hdm
    have hmlq : (ρ : ℚ) + 1 ≤ 2 ^ (D + 1) := by exact_mod_cast hml
    obtain ⟨hpos, hlt, habs⟩ := Dbl.scaled_down_bound n m ρ (2 ^ (D + 1)) _ hP2 hn1 hn2 hdmq
      (Nat.cast_nonneg _) hmlq hq_lo hq_hi
    refine ⟨m, ?_, by exact_mod_cast hpos, habs⟩
    apply Dbl.toUInt64_fin
    · have h1 : ¬ (0 : Int) ≤ (E : Int) - ((E + (D + 1) : Nat) : Int) := by push_cast; omega
      have h2 : (-((E : Int) - ((E + (D + 1) : Nat) : Int))).toNat = D + 1 := by
        push_cast; omega
      rw [if_neg h1, h2, hm]
    · exact_mod_cast hpos
    · exact_mod_cast hlt

theorem Dbl.toRat_pos (m : Nat) (e : Int) : (Dbl.fin false m e).toRat = (m : ℚ) * 2 ^ e := by
  simp [Dbl.toRat]

theorem Dbl.scaled_cast (m : Nat) (e emin : Int) (h : emin ≤ e) :
    ((Dbl.scaled false m e emin : Int) : ℚ) * 2 ^ emin = (m : ℚ) * 2 ^ e := by
  have h1 : (((e - emin).toNat : Nat) : Int) = e - emin := Int.toNat_of_nonneg (by omega)
  have h2 : (2 : ℚ) ^ (e - emin).toNat = 2 ^ (e - emin) := by
    rw [← zpow_natCast, h1]
  simp only [Dbl.scaled, Bool.false_eq_true, if_false]
  push_cast
  rw [h2, mul_assoc, ← zpow_add₀ (by norm_num : (2 : ℚ) ≠ 0)]
  congr 2
  omega

theorem Dbl.lt_iff (m1 : Nat) (e1 : Int) (m2 : Nat) (e2 : Int) :
    Dbl.lt (Dbl.fin false m1 e1) (Dbl.fin false m2 e2) = true ↔
      (m1 : ℚ) * 2 ^ e1 < (m2 : ℚ) * 2 ^ e2 := by
  have hp : (0 : ℚ) < 2 ^ (min e1 e2) := zpow_pos (by norm_num) _
  rw [← Dbl.scaled_cast m1 e1 (min e1 e2) (min_le_left _ _),
    ← Dbl.scaled_cast m2 e2 (min e1 e2) (min_le_right _ _), mul_lt_mul_right hp]
  simp only [Dbl.lt, decide_eq_true_eq]
  exact Int.cast_lt.symm

theorem Dbl.le_iff (m1 : Nat) (e1 : Int) (m2 : Nat) (e2 : Int) :
    Dbl.le (Dbl.fin false m1 e1) (Dbl.fin false m2 e2) = true ↔
      (m1 : ℚ) * 2 ^ e1 ≤ (m2 : ℚ) * 2 ^ e2 := by
  have hp : (0 : ℚ) < 2 ^ (min e1 e2) := zpow_pos (by norm_num) _
  rw [← Dbl.scaled_cast m1 e1 (min e1 e2) (min_le_left _ _),
    ← Dbl.scaled_cast m2 e2 (min e1 e2) (min_le_right _ _), mul_le_mul_right hp]
  simp only [Dbl.le, decide_eq_true_eq]
  exact Int.cast_le.symm

theorem Dbl.roundHalfEven_exact (q den : Nat) (hden : 0 < den) :
    Dbl.roundHalfEven (q * den) den = q := by
  unfold Dbl.roundHalfEven
  simp only [Nat.mul_mod_left, Nat.mul_div_cancel _ hden, Nat.mul_zero]
  rw [if_pos hden]

theorem Dbl.ilog2_pow32 : Dbl.ilog2 4294967296 = 32 := by decide

/-- dividing a double above 1 by `2^32` is exact: the mantissa is normalised and the
exponent lowered -/
theorem Dbl.div_pow32 (ma : Nat) (ea : Int) (hma : 0 < ma) (hma2 : ma < 2 ^ 53) (hea : ea ≤ 971)
    (hlow : 0 ≤ ea + Dbl.ilog2 ma) :
    Dbl.div (Dbl.fin false ma ea) (Dbl.ofNat 4294967296) =
      Dbl.fin false (ma * 2 ^ (52 - Dbl.ilog2 ma)) (ea - 84 + Dbl.ilog2 ma) ∧
    Dbl.ilog2 ma ≤ 52 := by
  obtain ⟨hl1, hl2⟩ := Dbl.ilog2_spec ma (by omega)
  have hL : Dbl.ilog2 ma ≤ 52 := by
    by_contra hc
    have : 2 ^ 53 ≤ 2 ^ Dbl.ilog2 ma := Nat.pow_le_pow_right (by norm_num) (by omega)
    omega
  refine ⟨?_, hL⟩
  obtain ⟨K, hK⟩ : ∃ K, K = 52 - Dbl.ilog2 ma := ⟨_, rfl⟩
  have hLK : Dbl.ilog2 ma + K = 52 := by omega
  rw [← hK]
  simp only [Dbl.div, Dbl.ofNat]
  rw [if_neg (by norm_num), if_neg (by omega)]
  unfold Dbl.divMag
  rw [Dbl.ilog2_pow32]
  have hs0 : (53 : Int) + ((32 : Nat) : Int) - (Dbl.ilog2 ma : Int) = ((K + 33 : Nat) : Int) := by
    push_cast; omega
  rw [hs0]
  have hnum : ∀ j : Nat, Dbl.shiftNum ma ((j : Nat) : Int) = ma * 2 ^ j := by
    intro j; simp [Dbl.shiftNum]
  have hden : ∀ j : Nat, Dbl.shiftDen 4294967296 ((j : Nat) : Int) = 4294967296 := by
    intro j
    have : (-(j : Int)).toNat = 0 := by omega
    simp [Dbl.shiftDen, this]
  have hbig : 2 ^ 53 ≤ ma * 2 ^ (K + 1) := by
    have h1 : 2 ^ Dbl.ilog2 ma * 2 ^ (K + 1) ≤ ma * 2 ^ (K + 1) := Nat.mul_le_mul_right _ hl1
    rw [← pow_add] at h1
    have h2 : Dbl.ilog2 ma + (K + 1) = 53 := by omega
    rw [h2] at h1
    exact h1
  have hq : ma * 2 ^ (K + 33) / 4294967296 = ma * 2 ^ (K + 1) := by
    have : ma * 2 ^ (K + 33) = ma * 2 ^ (K + 1) * 4294967296 := by
      rw [show K + 33 = (K + 1) + 32 by omega, pow_add]; ring
    rw [this, Nat.mul_div_cancel _ (by norm_num)]
  dsimp only
  rw [hnum, hden, hq, if_pos hbig]
  have hs1 : ((K + 33 : Nat) : Int) - 1 = ((K + 32 : Nat) : Int) := by push_cast; omega
  rw [hs1]
  have he : (ea - 0 - ((K + 32 : Nat) : Int)) ⊔ -1074 = ea - 84 + Dbl.ilog2 ma := by
    rw [max_eq_left] <;> push_cast <;> omega
  rw [he]
  have hs : ea - 0 - (ea - 84 + (Dbl.ilog2 ma : Int)) = ((K + 32 : Nat) : Int) := by
    push_cast; omega
  rw [hs, hnum, hden]
  have hn : ma * 2 ^ (K + 32) = ma * 2 ^ K * 4294967296 := by
    rw [pow_add]; ring
  rw [hn, Dbl.roundHalfEven_exact _ _ (by norm_num), if_neg]
  · rfl
  · omega

theorem Dbl.one_lt_low (m : Nat) (e : Int) (hm0 : 0 < m) (h : (1 : ℚ) < (m : ℚ) * 2 ^ e) :
    0 ≤ e + Dbl.ilog2 m := by
  obtain ⟨-, hl2⟩ := Dbl.ilog2_spec m (by omega)
  by_contra hc
  have h1 : (m : ℚ) < 2 ^ ((Dbl.ilog2 m + 1 : Nat) : Int) := by
    rw [zpow_natCast]; exact_mod_cast hl2
  have hp : (0 : ℚ) < 2 ^ e := zpow_pos (by norm_num) _
  have h2 : (m : ℚ) * 2 ^ e < 2 ^ ((Dbl.ilog2 m + 1 : Nat) : Int) * 2 ^ e :=
    mul_lt_mul_of_pos_right h1 hp
  rw [← zpow_add₀ (by norm_num : (2 : ℚ) ≠ 0)] at h2
  have h3 : (2 : ℚ) ^ (((Dbl.ilog2 m + 1 : Nat) : Int) + e) ≤ 1 :=
    zpow_le_one_of_nonpos₀ (by norm_num) (by push_cast; omega)
  linarith

theorem Dbl.div_pow32_value (m : Nat) (e : Int) (hL : Dbl.ilog2 m ≤ 52) :
    (m : ℚ) * 2 ^ e =
      ((m * 2 ^ (52 - Dbl.ilog2 m) : Nat) : ℚ) * 2 ^ (e - 84 + Dbl.ilog2 m) * 2 ^ 32 := by
  have h2 : (2 : ℚ) ≠ 0 := by norm_num
  push_cast
  rw [← zpow_natCast (2 : ℚ) (52 - Dbl.ilog2 m), ← zpow_natCast (2 : ℚ) 32, mul_assoc, mul_assoc,
    ← zpow_add₀ h2, ← zpow_add₀ h2]
  congr 2
  push_cast [Nat.cast_sub hL]
  omega

/-- the scaling loop divides exactly: the difficulty is the scaled one times `2^32` per round;
a difficulty up to `2^(32 k)` ends not above 1, and one above `2^-32` stays above it -/
theorem diffToTarget.scale_spec (k : Nat) : ∀ (m : Nat) (e : Int), 0 < m → m < 2 ^ 53 → e ≤ 971 →
    ∃ (m1 : Nat) (e1 : Int),
      (diffToTarget.scale k (Dbl.fin false m e)).2 = Dbl.fin false m1 e1 ∧ 0 < m1 ∧
      (m : ℚ) * 2 ^ e
        = (m1 : ℚ) * 2 ^ e1 * 2 ^ (32 * (k - (diffToTarget.scale k (Dbl.fin false m e)).1)) ∧
      ((m : ℚ) * 2 ^ e ≤ 2 ^ (32 * k) → (m1 : ℚ) * 2 ^ e1 ≤ 1) ∧
      ((2 : ℚ) ^ (-32 : Int) < (m : ℚ) * 2 ^ e → (2 : ℚ) ^ (-32 : Int) < (m1 : ℚ) * 2 ^ e1) := by
  induction k with
  | zero =>
    intro m e hm0 _ _
    exact ⟨m, e, rfl, hm0, by simp [diffToTarget.scale], by simp [diffToTarget.scale],
      fun h => h⟩
  | succ k ih =>
    intro m e hm0 hm he
    by_cases hlt : Dbl.lt (Dbl.ofNat 1) (Dbl.fin false m e) = true
    · have hgt : (1 : ℚ) < (m : ℚ) * 2 ^ e := by
        have := (Dbl.lt_iff 1 0 m e).mp hlt
        simpa using this
      obtain ⟨hdiv, hL⟩ := Dbl.div_pow32 m e hm0 hm he (Dbl.one_lt_low m e hm0 hgt)
      obtain ⟨-, hl2⟩ := Dbl.ilog2_spec m (by omega)
      have hval := Dbl.div_pow32_value m e hL
      have hm1 : m * 2 ^ (52 - Dbl.ilog2 m) < 2 ^ 53 := by
        have h1 : m * 2 ^ (52 - Dbl.ilog2 m) < 2 ^ (Dbl.ilog2 m + 1) * 2 ^ (52 - Dbl.ilog2 m) :=
          Nat.mul_lt_mul_of_pos_right hl2 (Nat.pos_pow_of_pos _ (by norm_num))
        rw [← pow_add, show Dbl.ilog2 m + 1 + (52 - Dbl.ilog2 m) = 53 by omega] at h1
        exact h1
      have hm1pos : 0 < m * 2 ^ (52 - Dbl.ilog2 m) :=
        Nat.mul_pos hm0 (Nat.pos_pow_of_pos _ (by norm_num))
      obtain ⟨m1, e1, h1, h2, h3, h4, h5⟩ :=
        ih (m * 2 ^ (52 - Dbl.ilog2 m)) (e - 84 + Dbl.ilog2 m) hm1pos hm1 (by omega)
      have hstep : diffToTarget.scale (k + 1) (Dbl.fin false m e)
          = diffToTarget.scale k (Dbl.fin false (m * 2 ^ (52 - Dbl.ilog2 m))
              (e - 84 + Dbl.ilog2 m)) := by
        rw [diffToTarget.scale, if_pos hlt, hdiv]
      have hk := diffToTarget.scale_fst_le k (Dbl.fin false (m * 2 ^ (52 - Dbl.ilog2 m))
        (e - 84 + Dbl.ilog2 m))
      rw [hstep]
      generalize (diffToTarget.scale k (Dbl.fin false (m * 2 ^ (52 - Dbl.ilog2 m))
        (e - 84 + Dbl.ilog2 m))).1 = k1 at h3 hk ⊢
      generalize ((m * 2 ^ (52 - Dbl.ilog2 m) : Nat) : ℚ) * 2 ^ (e - 84 + (Dbl.ilog2 m : Int)) = v
        at hval h3 h4 h5
      have h32 : (0 : ℚ) < 2 ^ 32 := by norm_num
      refine ⟨m1, e1, h1, h2, ?_, ?_, ?_⟩
      · rw [hval, h3, show 32 * (k + 1 - k1) = 32 * (k - k1) + 32 by omega, pow_add]
        ring
      · intro hle
        apply h4
        rw [hval, show 32 * (k + 1) = 32 * k + 32 by omega, pow_add] at hle
        exact le_of_mul_le_mul_right hle h32
      · intro _
        apply h5
        rw [hval] at hgt
        have h6 : (2 : ℚ) ^ (-32 : Int) * 2 ^ 32 = 1 := by norm_num
        have h7 : (2 : ℚ) ^ (-32 : Int) * 2 ^ 32 < v * 2 ^ 32 := by rw [h6]; exact hgt
        exact lt_of_mul_lt_mul_right h7 h32.le
    · have hle : (m : ℚ) * 2 ^ e ≤ 1 := by
        have := (Dbl.lt_iff 1 0 m e).not.mp hlt
        simpa using this
      have hstep : diffToTarget.scale (k + 1) (Dbl.fin false m e) = (k + 1, Dbl.fin false m e) := by
        rw [diffToTarget.scale, if_neg hlt]
      rw [hstep]
      exact ⟨m, e, rfl, hm0, by simp, fun _ => hle, fun h => h⟩

theorem round_trip_algebra (x P M c : ℚ) (hx : 0 < x) (hP : 0 < P) (hM : 0 < M)
    (h : |c / x - M| ≤ M / 2 ^ 31) : |c * P / M - x * P| ≤ x * P / 2 ^ 31 := by
  have key : c * P / M - x * P = (c / x - M) * (x * P / M) := by
    field_simp
    ring
  have hpos : 0 < x * P / M := by positivity
  rw [key, abs_mul, abs_of_pos hpos]
  calc |c / x - M| * (x * P / M) ≤ M / 2 ^ 31 * (x * P / M) :=
        mul_le_mul_of_nonneg_right h hpos.le
    _ = x * P / 2 ^ 31 := by field_simp; ring

/-- a difficulty in `[0.0001, 2^64]` is a positive double -/
theorem Dbl.pos_of_range (d : Dbl)
    (hlo : Dbl.le EthStratumClient.minDifficulty d = true)
    (hhi : Dbl.le d (Dbl.fin false 1 64) = true) :
    ∃ (m : Nat) (e : Int), d = Dbl.fin false m e ∧ 0 < m := by
  unfold EthStratumClient.minDifficulty at hlo
  cases d with
  | nan => simp [Dbl.le] at hlo
  | inf n =>
    cases n
    · simp [Dbl.le] at hhi
    · simp [Dbl.le] at hlo
  | fin neg m e =>
    cases neg
    · refine ⟨m, e, rfl, ?_⟩
      have h := (Dbl.le_iff _ _ m e).mp hlo
      by_contra hc
      have hm : m = 0 := by omega
      subst hm
      norm_num at h
    · exfalso
      simp only [Dbl.le, decide_eq_true_eq, Dbl.scaled, Bool.false_eq_true, if_false,
        if_true] at hlo
      have h1 : 0 < 7378697629483821 * 2 ^ ((-66 : Int) - min (-66) e).toNat :=
        Nat.mul_pos (by norm_num) (Nat.pos_pow_of_pos _ (by norm_num))
      omega

/-- C13 (amended): for every double `d` in `[0.0001, 2^64]`, `diffToTarget(d)` is a
32-byte boundary `b > 0`, and reading it back as `0xffff0000 * 2^192 / b`, the boundary of
difficulty 1 over `b`, gives `d` to within a relative error of `2^-31`; for `d = 1` the
boundary is `0xffff0000 * 2^192` itself, so that quotient is exactly 1 (while `2^256 / b`
is about `2^32`). -/
theorem diffToTarget_round_trip (d : Dbl) (hb : d.IsBinary64)
    (hlo : Dbl.le EthStratumClient.minDifficulty d = true)
    (hhi : Dbl.le d (Dbl.fin false 1 64) = true) :
    (∃ b, diffToTarget d = some b ∧ b.length = 32 ∧ 0 < beValue b ∧
      |(diff1Target : ℚ) / (beValue b : ℚ) - d.toRat| ≤ d.toRat / 2 ^ 31) ∧
    (∃ b1, diffToTarget (Dbl.ofNat 1) = some b1 ∧ beValue b1 = diff1Target) := by
  refine ⟨?_, ⟨_, rfl, by decide⟩⟩
  obtain ⟨m, e, rfl, hm0⟩ := Dbl.pos_of_range d hlo hhi
  obtain ⟨hm53, -, he⟩ := hb
  have hloq := (Dbl.le_iff _ _ m e).mp hlo
  have hhiq := (Dbl.le_iff m e 1 64).mp hhi
  obtain ⟨m1, e1, h1, hm1, h3, h4, h5⟩ := diffToTarget.scale_spec 6 m e hm0 hm53 he
  have hk := diffToTarget.scale_fst_le 6 (Dbl.fin false m e)
  have hd1le : (m1 : ℚ) * 2 ^ e1 ≤ 1 := by
    apply h4
    have : ((1 : Nat) : ℚ) * 2 ^ (64 : Int) ≤ 2 ^ (32 * 6) := by norm_num
    linarith
  have hd1lo : (2 : ℚ) ^ (-32 : Int) < (m1 : ℚ) * 2 ^ e1 := by
    apply h5
    have : (2 : ℚ) ^ (-32 : Int) < ((7378697629483821 : Nat) : ℚ) * 2 ^ (-66 : Int) := by norm_num
    linarith
  have hm1q : (1 : ℚ) ≤ m1 := by exact_mod_cast hm1
  have he1 : e1 ≤ 0 := by
    by_contra hc
    have h2 : (2 : ℚ) ^ (1 : Int) ≤ 2 ^ e1 := zpow_le_zpow_right₀ (by norm_num) (by omega)
    have h6 : (1 : ℚ) * 2 ^ (1 : Int) ≤ (m1 : ℚ) * 2 ^ e1 :=
      mul_le_mul hm1q h2 (by norm_num) (by linarith)
    norm_num at h6
    linarith
  obtain ⟨E, rfl⟩ : ∃ E : Nat, e1 = -(E : Int) := ⟨(-e1).toNat, by omega⟩
  have hpE : (0 : ℚ) < 2 ^ E := by positivity
  have hzE : (2 : ℚ) ^ (-(E : Int)) = 1 / 2 ^ E := by
    rw [zpow_neg, zpow_natCast, one_div]
  rw [hzE] at hd1le hd1lo h3
  have hle : m1 ≤ 2 ^ E := by
    have : (m1 : ℚ) ≤ 2 ^ E := by
      rw [mul_one_div, div_le_iff₀ hpE] at hd1le
      linarith
    exact_mod_cast this
  have hlo2 : 2 ^ E < m1 * 2 ^ 32 := by
    have : (2 : ℚ) ^ E < m1 * 2 ^ 32 := by
      rw [mul_one_div, lt_div_iff₀ hpE] at hd1lo
      norm_num at hd1lo ⊢
      linarith
    exact_mod_cast this
  obtain ⟨mq, hconv, hmq0, hbound⟩ := Dbl.toUInt64_div_const m1 E hm1 hle hlo2
  rw [← h1] at hconv
  obtain ⟨b, hb1, hb2, hb3⟩ := diffToTarget_value (Dbl.fin false m e) ⟨rfl, hm0⟩ mq hconv
  generalize (diffToTarget.scale 6 (Dbl.fin false m e)).1 = k1 at h3 hk hb3
  have hbpos : 0 < beValue b := by
    rw [hb3]; exact Nat.mul_pos hmq0 (Nat.pos_pow_of_pos _ (by norm_num))
  refine ⟨b, hb1, hb2, hbpos, ?_⟩
  have hmqq : (0 : ℚ) < mq := by exact_mod_cast hmq0
  have hm1pos : (0 : ℚ) < m1 := by linarith
  have hx : (0 : ℚ) < (m1 : ℚ) * (1 / 2 ^ E) := by positivity
  have hP : (0 : ℚ) < 2 ^ (32 * (6 - k1)) := by positivity
  have hcx : (4294901760 : ℚ) * 2 ^ E / m1 = 4294901760 / ((m1 : ℚ) * (1 / 2 ^ E)) := by
    field_simp
  rw [hcx] at hbound
  have halg := round_trip_algebra _ _ _ _ hx hP hmqq hbound
  have hT : (diff1Target : ℚ) / (beValue b : ℚ)
      = 4294901760 * 2 ^ (32 * (6 - k1)) / (mq : ℚ) := by
    have h192 : (diff1Target : ℚ) = 4294901760 * (2 ^ (32 * k1) * 2 ^ (32 * (6 - k1))) := by
      rw [← pow_add, show 32 * k1 + 32 * (6 - k1) = 192 by omega]
      unfold diff1Target
      norm_num
    rw [hb3, h192]
    push_cast
    field_simp
    ring
  rw [hT, Dbl.toRat_pos, h3]
  exact halg

theorem diffToTarget_round_trip_witness :
    (∃ b, diffToTarget (Dbl.fin false 3 32) = some b ∧ b.length = 32 ∧ 0 < beValue b ∧
      |(diff1Target : ℚ) / (beValue b : ℚ) - (Dbl.fin false 3 32).toRat|
        ≤ (Dbl.fin false 3 32).toRat / 2 ^ 31) ∧
    (∃ b1, diffToTarget (Dbl.ofNat 1) = some b1 ∧ beValue b1 = diff1Target) :=
  diffToTarget_round_trip (Dbl.fin false 3 32) ⟨by decide, by decide, by decide⟩ (by decide)
    (by decide)

/-- C13 as stated fails at its own example: 1.0 lies in `[0.0001, 2^64]`, its boundary is
`b = 0xffff0000 * 2^192`, and `2^256 / b` is `2^48 / 65535`, whose integer part is
4295032833: more than `2^32` times the difficulty, not within one ulp of it. Nor is one ulp
met against the boundary of difficulty 1: for 0.875 the boundary is `4908459154 * 2^192`,
and `0xffff0000 * 2^192 / b` exceeds 0.875 by more than `0.875 * 2^-36`. -/
theorem diffToTarget_round_trip_fails_at_one :
    (Dbl.ofNat 1).IsBinary64 ∧
    Dbl.le EthStratumClient.minDifficulty (Dbl.ofNat 1) = true ∧
    Dbl.le (Dbl.ofNat 1) (Dbl.fin false 1 64) = true ∧
    (Dbl.ofNat 1).toRat = 1 ∧
    (∃ b, diffToTarget (Dbl.ofNat 1) = some b ∧
      beValue b = 4294901760 * 2 ^ 192 ∧
      2 ^ 256 / beValue b = 4295032833 ∧
      (2 : ℚ) ^ 32 * (Dbl.ofNat 1).toRat < (2 : ℚ) ^ 256 / (beValue b : ℚ)) ∧
    (Dbl.fin false 7 (-3)).toRat = 7 / 8 ∧
    (∃ b, diffToTarget (Dbl.fin false 7 (-3)) = some b ∧
      beValue b = 4908459154 * 2 ^ 192 ∧
      (Dbl.fin false 7 (-3)).toRat / 2 ^ 36 <
        (diff1Target : ℚ) / (beValue b : ℚ) - (Dbl.fin false 7 (-3)).toRat) := by
  have h : beValue ([0, 0, 0, 0, 255, 255, 0, 0] ++ List.replicate 24 0) = 4294901760 * 2 ^ 192 := by
    decide
  have h7 : beValue ([0, 0, 0, 1, 36, 145, 36, 146] ++ List.replicate 24 0)
      = 4908459154 * 2 ^ 192 := by
    decide
  have hr : (Dbl.fin false 7 (-3)).toRat = 7 / 8 := by
    simp only [Dbl.toRat]; norm_num
  refine ⟨⟨by decide, by decide, by decide⟩, by decide, by decide, by simp [Dbl.toRat, Dbl.ofNat],
    ⟨[0, 0, 0, 0, 255, 255, 0, 0] ++ List.replicate 24 0, by decide, h, by decide, ?_⟩, hr,
    ⟨[0, 0, 0, 1, 36, 145, 36, 146] ++ List.replicate 24 0, by decide, h7, ?_⟩⟩
  · rw [h]
    simp only [Dbl.toRat, Dbl.ofNat]
    norm_num
  · rw [h7, hr]
    unfold diff1Target
    norm_num

/-! ## The scheme table of pool URIs -/

namespace SchemeMap

theorem find_insert_ne (t : SchemeMap) (k : Str) (v : SchemeAttributes) (s : Str) (h : s ≠ k) :
    find (insert t k v) s = find t s := by
  induction t with
  | nil => simp [insert, find, h]
  | cons e rest ih =>
    obtain ⟨k1, v1⟩ := e
    unfold insert
    split_ifs with h1 h2
    · rfl
    · simp [find, h]
    · simp only [find, ih]

theorem find_insert_self (t : SchemeMap) (k : Str) (v : SchemeAttributes)
    (h : find t k = none) : find (insert t k v) k = some v := by
  induction t with
  | nil => simp [insert, find]
  | cons e rest ih =>
    obtain ⟨k1, v1⟩ := e
    unfold find at h
    split_ifs at h with h1
    unfold insert
    rw [if_neg h1]
    split_ifs with h2
    · simp [find]
    · simp only [find, if_neg h1, ih h]

theorem filter_insert (p : Str × SchemeAttributes → Bool) (t : SchemeMap) (k : Str)
    (v : SchemeAttributes) (hp : p (k, v) = false) :
    List.filter p (insert t k v) = List.filter p t := by
  induction t with
  | nil => simp [insert, hp]
  | cons e rest ih =>
    obtain ⟨k1, v1⟩ := e
    unfold insert
    split_ifs with h1 h2
    · rfl
    · rw [List.filter_cons_of_neg (by simp [hp])]
    · simp only [List.filter_cons, ih]

theorem insert_ne (t : SchemeMap) (k : Str) (v : SchemeAttributes) (h : find t k = none) :
    insert t k v ≠ t := by
  intro heq
  have := find_insert_self t k v h
  rw [heq, h] at this
  cases this

theorem index_of_find (t : SchemeMap) (k : Str) (a : SchemeAttributes) (h : find t k = some a) :
    index t k = (a, t) := by
  simp [index, h]

theorem index_of_not_find (t : SchemeMap) (k : Str) (h : find t k = none) :
    index t k = (⟨.NONE, 0⟩, insert t k ⟨.NONE, 0⟩) := by
  simp [index, h]

end SchemeMap

namespace URI

/-- what every table the accessors can produce keeps: the nine entries, and no entry of a
level other than `NONE` besides them -/
theorem index_keeps (t : SchemeMap) (s : Str)
    (h1 : ∀ k a, SchemeMap.find s_schemes k = some a → SchemeMap.find t k = some a)
    (h2 : List.filter (fun e => decide (e.2.secure ≠ SecureLevel.NONE)) t
      = List.filter (fun e => decide (e.2.secure ≠ SecureLevel.NONE)) s_schemes) :
    (∀ k a, SchemeMap.find s_schemes k = some a →
      SchemeMap.find (SchemeMap.index t s).2 k = some a) ∧
    List.filter (fun e => decide (e.2.secure ≠ SecureLevel.NONE)) (SchemeMap.index t s).2
      = List.filter (fun e => decide (e.2.secure ≠ SecureLevel.NONE)) s_schemes := by
  cases hf : SchemeMap.find t s with
  | some a =>
    rw [SchemeMap.index_of_find t s a hf]
    exact ⟨h1, h2⟩
  | none =>
    rw [SchemeMap.index_of_not_find t s hf]
    refine ⟨fun k a hk => ?_, ?_⟩
    · have hne : k ≠ s := by
        rintro rfl
        rw [h1 k a hk] at hf
        cases hf
      rw [SchemeMap.find_insert_ne _ _ _ _ hne]
      exact h1 k a hk
    · rw [SchemeMap.filter_insert _ _ _ _ (by simp)]
      exact h2

theorem call_keeps (decode : Str → Option Str) (t : SchemeMap) (call : Call)
    (h1 : ∀ k a, SchemeMap.find s_schemes k = some a → SchemeMap.find t k = some a)
    (h2 : List.filter (fun e => decide (e.2.secure ≠ SecureLevel.NONE)) t
      = List.filter (fun e => decide (e.2.secure ≠ SecureLevel.NONE)) s_schemes) :
    (∀ k a, SchemeMap.find s_schemes k = some a →
      SchemeMap.find (Call.table decode t call) k = some a) ∧
    List.filter (fun e => decide (e.2.secure ≠ SecureLevel.NONE)) (Call.table decode t call)
      = List.filter (fun e => decide (e.2.secure ≠ SecureLevel.NONE)) s_schemes := by
  cases call with
  | protoVersion u =>
    cases hu : u.scheme with
    | none =>
      have ht : Call.table decode t (.protoVersion u) = t := by
        simp [Call.table, ProtoVersion, hu]
      rw [ht]; exact ⟨h1, h2⟩
    | some raw =>
      cases hd : decoded decode raw with
      | none =>
        have ht : Call.table decode t (.protoVersion u) = t := by
          simp [Call.table, ProtoVersion, hu, hd]
        rw [ht]; exact ⟨h1, h2⟩
      | some s =>
        have ht : Call.table decode t (.protoVersion u) = (SchemeMap.index t s).2 := by
          simp [Call.table, ProtoVersion, hu, hd]
        rw [ht]; exact index_keeps t s h1 h2
  | protoSecureLevel u =>
    cases hu : u.scheme with
    | none =>
      have ht : Call.table decode t (.protoSecureLevel u) = t := by
        simp [Call.table, ProtoSecureLevel, hu]
      rw [ht]; exact ⟨h1, h2⟩
    | some raw =>
      cases hd : decoded decode raw with
      | none =>
        have ht : Call.table decode t (.protoSecureLevel u) = t := by
          simp [Call.table, ProtoSecureLevel, hu, hd]
        rw [ht]; exact ⟨h1, h2⟩
      | some s =>
        have ht : Call.table decode t (.protoSecureLevel u) = (SchemeMap.index t s).2 := by
          simp [Call.table, ProtoSecureLevel, hu, hd]
        rw [ht]; exact index_keeps t s h1 h2

theorem tableAfter_keeps (decode : Str → Option Str) (calls : List Call) : ∀ (t : SchemeMap),
    (∀ k a, SchemeMap.find s_schemes k = some a → SchemeMap.find t k = some a) →
    List.filter (fun e => decide (e.2.secure ≠ SecureLevel.NONE)) t
      = List.filter (fun e => decide (e.2.secure ≠ SecureLevel.NONE)) s_schemes →
    (∀ k a, SchemeMap.find s_schemes k = some a →
      SchemeMap.find (tableAfter decode t calls) k = some a) ∧
    List.filter (fun e => decide (e.2.secure ≠ SecureLevel.NONE)) (tableAfter decode t calls)
      = List.filter (fun e => decide (e.2.secure ≠ SecureLevel.NONE)) s_schemes := by
  induction calls with
  | nil => intro t h1 h2; exact ⟨h1, h2⟩
  | cons call rest ih =>
    intro t h1 h2
    obtain ⟨h3, h4⟩ := call_keeps decode t call h1 h2
    exact ih _ h3 h4

theorem knownSchemes_filter (t : SchemeMap) (lvl : SecureLevel) (hl : lvl ≠ .NONE) (acc : Str) :
    List.foldl (fun schemes (s : Str × SchemeAttributes) =>
        if s.2.secure = lvl then schemes ++ (s.1 ++ " ".toList) else schemes) acc t
      = List.foldl (fun schemes (s : Str × SchemeAttributes) =>
        if s.2.secure = lvl then schemes ++ (s.1 ++ " ".toList) else schemes) acc
        (List.filter (fun e => decide (e.2.secure ≠ SecureLevel.NONE)) t) := by
  induction t generalizing acc with
  | nil => rfl
  | cons e rest ih =>
    by_cases he : e.2.secure = SecureLevel.NONE
    · have hne : ¬ e.2.secure = lvl := fun h => hl (h ▸ he)
      rw [List.filter_cons_of_neg (by simp [he]), List.foldl_cons, if_neg hne]
      exact ih acc
    · rw [List.filter_cons_of_pos (by simp [he]), List.foldl_cons, List.foldl_cons]
      exact ih _

theorem knownSchemes_of_filter (t : SchemeMap) (lvl : SecureLevel) (hl : lvl ≠ .NONE)
    (h2 : List.filter (fun e => decide (e.2.secure ≠ SecureLevel.NONE)) t
      = List.filter (fun e => decide (e.2.secure ≠ SecureLevel.NONE)) s_schemes) :
    KnownSchemes t lvl = KnownSchemes s_schemes lvl := by
  unfold KnownSchemes
  rw [knownSchemes_filter t lvl hl, knownSchemes_filter s_schemes lvl hl, h2]

theorem lookup_known (decode : Str → Option Str) (t : SchemeMap) (u : URI) (raw s : Str)
    (a : SchemeAttributes) (hu : u.scheme = some raw) (hdec : decoded decode raw = some s)
    (hf : SchemeMap.find t s = some a) :
    ProtoSecureLevel decode t u = some (a.secure, t) ∧
    ProtoVersion decode t u = some (a.version, t) ∧
    KnownScheme decode t u = some true := by
  simp [ProtoSecureLevel, ProtoVersion, KnownScheme, hu, hdec, hf,
    SchemeMap.index_of_find t s a hf]

theorem lookup_unknown (decode : Str → Option Str) (t : SchemeMap) (u : URI) (raw s : Str)
    (hu : u.scheme = some raw) (hdec : decoded decode raw = some s)
    (hf : SchemeMap.find t s = none) :
    ProtoSecureLevel decode t u = some (.NONE, SchemeMap.insert t s ⟨.NONE, 0⟩) ∧
    ProtoVersion decode t u = some (0, SchemeMap.insert t s ⟨.NONE, 0⟩) ∧
    KnownScheme decode t u = some false := by
  simp [ProtoSecureLevel, ProtoVersion, KnownScheme, hu, hdec, hf,
    SchemeMap.index_of_not_find t s hf]

/-- C14: for each of the nine schemes, a dialect prefix `stratum`, `ethproxy` or `nicehash`
joined by `+` to a transport `tcp`, `tls` or `tls12`, and in every state of the table that
calls of `ProtoVersion` and `ProtoSecureLevel` can produce, `ProtoSecureLevel` returns
`NONE` for `+tcp`, `TLS` for `+tls` and `TLS12` for `+tls12`, and `ProtoVersion` returns 0
for `stratum+*`, 1 for `ethproxy+*` and 2 for `nicehash+*`, whatever the other part of the
name, and the call leaves the table as it is; `KnownSchemes(level)` is the three schemes
of the level, in key order: of the table as initialised for `NONE`, and of every such state
for `TLS` and `TLS12`. `decode` is the library routine, which leaves the nine names as
they are. -/
theorem scheme_table_lookup (decode : Str → Option Str)
    (hd : ∀ s, s ∈ schemeNames → decode s = some s) (calls : List Call)
    (dn tn : Str) (v : Nat) (lvl : SecureLevel)
    (hdn : (dn = "stratum".toList ∧ v = 0) ∨ (dn = "ethproxy".toList ∧ v = 1) ∨
      (dn = "nicehash".toList ∧ v = 2))
    (htn : (tn = "tcp".toList ∧ lvl = .NONE) ∨ (tn = "tls".toList ∧ lvl = .TLS) ∨
      (tn = "tls12".toList ∧ lvl = .TLS12)) :
    ProtoSecureLevel decode (tableAfter decode s_schemes calls) ⟨some (dn ++ '+' :: tn)⟩
      = some (lvl, tableAfter decode s_schemes calls) ∧
    ProtoVersion decode (tableAfter decode s_schemes calls) ⟨some (dn ++ '+' :: tn)⟩
      = some (v, tableAfter decode s_schemes calls) ∧
    KnownScheme decode (tableAfter decode s_schemes calls) ⟨some (dn ++ '+' :: tn)⟩
      = some true ∧
    KnownSchemes s_schemes .NONE = "ethproxy+tcp nicehash+tcp stratum+tcp".toList ∧
    KnownSchemes (tableAfter decode s_schemes calls) .TLS
      = "ethproxy+tls nicehash+tls stratum+tls".toList ∧
    KnownSchemes (tableAfter decode s_schemes calls) .TLS12
      = "ethproxy+tls12 nicehash+tls12 stratum+tls12".toList := by
  obtain ⟨h1, h2⟩ := tableAfter_keeps decode calls s_schemes (fun _ _ h => h) rfl
  have key : ∀ (s : Str) (a : SchemeAttributes), s ∈ schemeNames → trim s = s →
      SchemeMap.find s_schemes s = some a →
      ProtoSecureLevel decode (tableAfter decode s_schemes calls) ⟨some s⟩
        = some (a.secure, tableAfter decode s_schemes calls) ∧
      ProtoVersion decode (tableAfter decode s_schemes calls) ⟨some s⟩
        = some (a.version, tableAfter decode s_schemes calls) ∧
      KnownScheme decode (tableAfter decode s_schemes calls) ⟨some s⟩ = some true := by
    intro s a hs ht hf
    refine lookup_known decode _ ⟨some s⟩ s s a rfl ?_ (h1 s a hf)
    simp only [decoded, hd s hs, ht]
  have hlook : ProtoSecureLevel decode (tableAfter decode s_schemes calls)
        ⟨some (dn ++ '+' :: tn)⟩ = some (lvl, tableAfter decode s_schemes calls) ∧
      ProtoVersion decode (tableAfter decode s_schemes calls) ⟨some (dn ++ '+' :: tn)⟩
        = some (v, tableAfter decode s_schemes calls) ∧
      KnownScheme decode (tableAfter decode s_schemes calls) ⟨some (dn ++ '+' :: tn)⟩
        = some true := by
    rcases hdn with ⟨rfl, rfl⟩ | ⟨rfl, rfl⟩ | ⟨rfl, rfl⟩ <;>
      rcases htn with ⟨rfl, rfl⟩ | ⟨rfl, rfl⟩ | ⟨rfl, rfl⟩ <;>
      exact key _ ⟨_, _⟩ (by decide) (by decide) (by decide)
  refine ⟨hlook.1, hlook.2.1, hlook.2.2, by decide, ?_, ?_⟩
  · rw [knownSchemes_of_filter _ .TLS (by decide) h2]; decide
  · rw [knownSchemes_of_filter _ .TLS12 (by decide) h2]; decide

theorem scheme_table_lookup_witness :
    ProtoSecureLevel percentDecode
        (tableAfter percentDecode s_schemes [.protoVersion ⟨some "http".toList⟩])
        ⟨some ("nicehash".toList ++ '+' :: "tls12".toList)⟩
      = some (.TLS12, tableAfter percentDecode s_schemes [.protoVersion ⟨some "http".toList⟩]) ∧
    ProtoVersion percentDecode
        (tableAfter percentDecode s_schemes [.protoVersion ⟨some "http".toList⟩])
        ⟨some ("nicehash".toList ++ '+' :: "tls12".toList)⟩
      = some (2, tableAfter percentDecode s_schemes [.protoVersion ⟨some "http".toList⟩]) ∧
    KnownScheme percentDecode
        (tableAfter percentDecode s_schemes [.protoVersion ⟨some "http".toList⟩])
        ⟨some ("nicehash".toList ++ '+' :: "tls12".toList)⟩
      = some true ∧
    KnownSchemes s_schemes .NONE = "ethproxy+tcp nicehash+tcp stratum+tcp".toList ∧
    KnownSchemes (tableAfter percentDecode s_schemes [.protoVersion ⟨some "http".toList⟩]) .TLS
      = "ethproxy+tls nicehash+tls stratum+tls".toList ∧
    KnownSchemes (tableAfter percentDecode s_schemes [.protoVersion ⟨some "http".toList⟩]) .TLS12
      = "ethproxy+tls12 nicehash+tls12 stratum+tls12".toList :=
  scheme_table_lookup percentDecode (by decide) [.protoVersion ⟨some "http".toList⟩]
    "nicehash".toList "tls12".toList 2 .TLS12 (Or.inr (Or.inr ⟨rfl, rfl⟩))
    (Or.inr (Or.inr ⟨rfl, rfl⟩))

/-- C15 fails in the code: `ProtoVersion` and `ProtoSecureLevel` read the table with
`s_schemes[s]`, which inserts a missing key. For a URI whose decoded and trimmed scheme
`s` is not in the table, `KnownScheme()` is false, either accessor returns the
value-initialised attribute and leaves a table that differs from the one before by the
new entry `s`, and `KnownScheme()` on the same URI is true afterwards. With the scheme
`http` and the table as initialised, `KnownSchemes(NONE)` lists `http` after the call. -/
theorem proto_lookup_inserts_unknown_scheme (decode : Str → Option Str) (t : SchemeMap)
    (u : URI) (raw s : Str) (hu : u.scheme = some raw) (hdec : decoded decode raw = some s)
    (hn : SchemeMap.find t s = none) :
    KnownScheme decode t u = some false ∧
    ProtoVersion decode t u = some (0, SchemeMap.insert t s ⟨.NONE, 0⟩) ∧
    ProtoSecureLevel decode t u = some (.NONE, SchemeMap.insert t s ⟨.NONE, 0⟩) ∧
    SchemeMap.insert t s ⟨.NONE, 0⟩ ≠ t ∧
    tableAfter decode t [.protoVersion u] = SchemeMap.insert t s ⟨.NONE, 0⟩ ∧
    tableAfter decode t [.protoSecureLevel u] = SchemeMap.insert t s ⟨.NONE, 0⟩ ∧
    KnownScheme decode (SchemeMap.insert t s ⟨.NONE, 0⟩) u = some true ∧
    KnownSchemes s_schemes .NONE = "ethproxy+tcp nicehash+tcp stratum+tcp".toList ∧
    KnownSchemes (tableAfter percentDecode s_schemes [.protoVersion ⟨some "http".toList⟩]) .NONE
      = "ethproxy+tcp http nicehash+tcp stratum+tcp".toList := by
  obtain ⟨h1, h2, h3⟩ := lookup_unknown decode t u raw s hu hdec hn
  refine ⟨h3, h2, h1, SchemeMap.insert_ne t s _ hn, ?_, ?_, ?_, by decide, by decide⟩
  · simp [tableAfter, Call.table, h2]
  · simp [tableAfter, Call.table, h1]
  · simp [KnownScheme, hu, hdec, SchemeMap.find_insert_self t s _ hn]

theorem proto_lookup_inserts_unknown_scheme_witness :
    KnownScheme percentDecode s_schemes ⟨some "http".toList⟩ = some false ∧
    ProtoVersion percentDecode s_schemes ⟨some "http".toList⟩
      = some (0, SchemeMap.insert s_schemes "http".toList ⟨.NONE, 0⟩) ∧
    ProtoSecureLevel percentDecode s_schemes ⟨some "http".toList⟩
      = some (.NONE, SchemeMap.insert s_schemes "http".toList ⟨.NONE, 0⟩) ∧
    SchemeMap.insert s_schemes "http".toList ⟨.NONE, 0⟩ ≠ s_schemes ∧
    tableAfter percentDecode s_schemes [.protoVersion ⟨some "http".toList⟩]
      = SchemeMap.insert s_schemes "http".toList ⟨.NONE, 0⟩ ∧
    tableAfter percentDecode s_schemes [.protoSecureLevel ⟨some "http".toList⟩]
      = SchemeMap.insert s_schemes "http".toList ⟨.NONE, 0⟩ ∧
    KnownScheme percentDecode (SchemeMap.insert s_schemes "http".toList ⟨.NONE, 0⟩)
      ⟨some "http".toList⟩ = some true ∧
    KnownSchemes s_schemes .NONE = "ethproxy+tcp nicehash+tcp stratum+tcp".toList ∧
    KnownSchemes (tableAfter percentDecode s_schemes [.protoVersion ⟨some "http".toList⟩]) .NONE
      = "ethproxy+tcp http nicehash+tcp stratum+tcp".toList :=
  proto_lookup_inserts_unknown_scheme percentDecode s_schemes ⟨some "http".toList⟩ "http".toList
    "http".toList rfl (by decide) (by decide)

end URI
